import Mathlib

/-!
# Pegasus order book: a shallow embedding of the matching engine core

This file embeds the core of the Pegasus limit order book
(`src/order.h`, `src/limit.cpp`, `src/orderbook.cpp`) in Lean 4 and
settles the specification claims about it.

Modelling conventions:

* C++ `double` prices and quantities are modelled as `Int`.  The engine
  only adds, subtracts, takes `min` and compares these values, so exact
  integer arithmetic reflects the source behaviour on tick-aligned data.
* Orders are heap objects shared by pointer between a `Limit`'s FIFO
  list and the book's id index (`m_orders`).  The embedding stores a
  copy of the order value in each container and models an in-place
  mutation of the shared object by rewriting every copy that carries
  the mutated order's id (`Book.updateOrderCopies`).  Inside one book
  every resting order is the unique entry with its id, so id-identity
  coincides with pointer identity there.
* `std::map<double, Limit*, std::greater>` (bids) and
  `std::map<double, Limit*>` (asks) are modelled as price-sorted lists
  of `Limit` values, best price first, exactly the iteration order of
  the C++ maps; `begin()` is the head of the list.
* `std::unordered_map<OrderID, Order*>` is modelled as an association
  list `List (Nat × Order)`.
* Nullable `Order*` parameters are modelled as `Option Order`.
* The `while` loops of `OrderBook::matchOrder` are modelled by
  fuel-bounded recursion.  `LoopRes.completed = false` marks fuel
  exhaustion, which corresponds to the C++ loop not terminating; all
  statements about a finished call are conditioned on completion.
-/

inductive Side where
  | BUY
  | SELL
deriving DecidableEq, Repr

inductive OrderType where
  | MARKET
  | LIMIT
  | STOP_LIMIT
deriving DecidableEq, Repr

/-- `class Order` (src/order.h): identity, classification, economics and
mutable fill/active state.  The duplicated atomic/non-atomic fields of the
source are a single field here: single-threaded, they always agree. -/
structure Order where
  id : Nat
  side : Side
  type : OrderType
  symbol : String
  price : Int
  quantity : Int
  stopPrice : Int := 0
  filledQty : Int := 0
  isActive : Bool := true
deriving DecidableEq, Repr

/-- `Order::fillQuantity` (src/order.h:61-72): the CAS loop reduces to a
plain addition for a single writer.  It only increases `filledQty`. -/
def Order.fillQuantity (o : Order) (fillAmount : Int) : Order :=
  { o with filledQty := o.filledQty + fillAmount }

/-- `Order::deactivate` (src/order.h:75-78). -/
def Order.deactivate (o : Order) : Order :=
  { o with isActive := false }

/-- Remaining (unfilled) quantity of an order, `getQuantity() - getFilledQty()`. -/
def Order.remaining (o : Order) : Int :=
  o.quantity - o.filledQty

/-- `class Limit` (src/limit.h): one price level holding a FIFO list of
orders (`front` = oldest) and a cached total volume. -/
structure Limit where
  price : Int
  orders : List Order
  totalVolume : Int
deriving DecidableEq, Repr

/-- `Limit::Limit(double price)` (src/limit.cpp:5-10). -/
def Limit.new (price : Int) : Limit :=
  { price := price, orders := [], totalVolume := 0 }

/-- `Limit::addOrder` (src/limit.cpp:12-27): null check, push to the back
of the FIFO, add the order's remaining quantity to the total volume. -/
def Limit.addOrder (L : Limit) (order : Option Order) : Limit :=
  match order with
  | none => L
  | some o =>
      { L with
        orders := L.orders ++ [o],
        totalVolume := L.totalVolume + (o.quantity - o.filledQty) }

/-- Erase the first element satisfying `p` (the effect of
`std::list::erase` after a successful `std::find`). -/
def eraseFirst {α : Type} (p : α → Bool) : List α → List α
  | [] => []
  | x :: xs => if p x then xs else x :: eraseFirst p xs

/-- `Limit::removeOrder` (src/limit.cpp:29-55): null check; locate the
order in the FIFO (pointer identity in the source; id identity here, which
agrees with it because a book's resting orders carry distinct ids); if
found, erase it and subtract the remaining quantity *at removal time*,
guarded by `remainingQty > 0`. -/
def Limit.removeOrder (L : Limit) (order : Option Order) : Limit :=
  match order with
  | none => L
  | some o =>
      if L.orders.any (fun x => x.id == o.id) then
        let L1 : Limit := { L with orders := eraseFirst (fun x => x.id == o.id) L.orders }
        let remainingQty := o.quantity - o.filledQty
        if remainingQty > 0 then
          { L1 with totalVolume := L1.totalVolume - remainingQty }
        else
          L1
      else
        L

/-- `Limit::frontOrder` (src/limit.cpp:57-64). -/
def Limit.frontOrder (L : Limit) : Option Order :=
  L.orders.head?

/-- `Limit::empty` (src/limit.h). -/
def Limit.isEmptyLevel (L : Limit) : Bool :=
  L.orders.isEmpty

/-- A fill event as delivered to the fill callback
(`fillCallback(m_symbol, fillPrice, fillQty, sideSign)`,
src/orderbook.cpp:113-115).  `makerId` additionally records the id of the
resting order the fill consumed; the C++ callback does not receive it, but
it is determined by the execution and is used to state FIFO properties. -/
structure Fill where
  symbol : String
  price : Int
  qty : Int
  sign : Int
  makerId : Nat
deriving DecidableEq, Repr

/-- `class OrderBook` (src/orderbook.h): bids sorted best (highest) first,
asks sorted best (lowest) first, and the id index `m_orders`. -/
structure Book where
  symbol : String
  bids : List Limit
  asks : List Limit
  ordersById : List (Nat × Order)
deriving DecidableEq, Repr

/-- `OrderBook::OrderBook(symbol)`. -/
def Book.new (symbol : String) : Book :=
  { symbol := symbol, bids := [], asks := [], ordersById := [] }

/-- Lookup in the id index (`m_orders.find`). -/
def lookupOrder (m : List (Nat × Order)) (id : Nat) : Option Order :=
  (m.find? (fun e => e.1 == id)).map (fun e => e.2)

/-- Membership test in the id index (`m_orders.find(...) != m_orders.end()`). -/
def hasOrderId (m : List (Nat × Order)) (id : Nat) : Bool :=
  m.any (fun e => e.1 == id)

/-- `m_orders.erase(it)`. -/
def eraseOrderId (m : List (Nat × Order)) (id : Nat) : List (Nat × Order) :=
  eraseFirst (fun e => e.1 == id) m

/-- `m_orders[order->getID()] = order` (insert or assign). -/
def setOrderId (m : List (Nat × Order)) (o : Order) : List (Nat × Order) :=
  if m.any (fun e => e.1 == o.id) then
    m.map (fun e => if e.1 == o.id then (e.1, o) else e)
  else
    m ++ [(o.id, o)]

/-- `m_bids.find(price)` / `m_asks.find(price)`. -/
def findLimit (side : List Limit) (price : Int) : Option Limit :=
  side.find? (fun L => L.price == price)

/-- Replace the level carrying `price` (the effect of mutating the level
object held by the map). -/
def replaceLimit (side : List Limit) (price : Int) (L' : Limit) : List Limit :=
  side.map (fun L => if L.price == price then L' else L)

/-- `m_bids.erase(...)` / `m_asks.erase(...)` by price key. -/
def eraseLimit (side : List Limit) (price : Int) : List Limit :=
  eraseFirst (fun L => L.price == price) side

/-- Insert an order into a price-sorted side, creating the level on first
admission (`OrderBook::addOrderToBook`, one side): `higherFirst` selects
the bid ordering (`std::greater`) versus the ask ordering. -/
def addToSide (higherFirst : Bool) (side : List Limit) (o : Order) : List Limit :=
  match side with
  | [] => [Limit.addOrder (Limit.new o.price) (some o)]
  | L :: rest =>
      if L.price == o.price then
        Limit.addOrder L (some o) :: rest
      else if (if higherFirst then o.price > L.price else o.price < L.price) then
        Limit.addOrder (Limit.new o.price) (some o) :: L :: rest
      else
        L :: addToSide higherFirst rest o

/-- `OrderBook::addOrderToBook` (src/orderbook.cpp:234-265): find or
create the level at `order->getPrice()` on the order's side, append the
order there, and record it in the id index. -/
def Book.addOrderToBook (b : Book) (o : Order) : Book :=
  match o.side with
  | Side.BUY =>
      { b with bids := addToSide true b.bids o, ordersById := setOrderId b.ordersById o }
  | Side.SELL =>
      { b with asks := addToSide false b.asks o, ordersById := setOrderId b.ordersById o }

/-- Update a level's copy of the order with id `o'.id`. -/
def Limit.updateCopies (L : Limit) (o' : Order) : Limit :=
  { L with orders := L.orders.map (fun x => if x.id == o'.id then o' else x) }

/-- Model of an in-place mutation of a shared `Order` object: every
container entry carrying the mutated id is rewritten to the new value.
The level's cached `totalVolume` is untouched, exactly as in the source,
where `Order::fillQuantity` and `Order::deactivate` do not touch the
`Limit` the order rests in. -/
def Book.updateOrderCopies (b : Book) (o' : Order) : Book :=
  { b with
    bids := b.bids.map (fun L => L.updateCopies o'),
    asks := b.asks.map (fun L => L.updateCopies o'),
    ordersById := b.ordersById.map (fun e => if e.1 == o'.id then (e.1, o') else e) }

/-- `OrderBook::removeOrderFromBook` (src/orderbook.cpp:267-318): drop the
id from the index; locate the level at the order's price on its side,
remove the order from it and erase the level if it became empty.  Returns
`false` (with the book otherwise untouched at that point) when the id or
the level is missing. -/
def Book.removeOrderFromBook (b : Book) (o : Order) : Book × Bool :=
  if hasOrderId b.ordersById o.id then
    let m' := eraseOrderId b.ordersById o.id
    match o.side with
    | Side.BUY =>
        match findLimit b.bids o.price with
        | none => ({ b with ordersById := m' }, false)
        | some L =>
            let L' := L.removeOrder (some o)
            if L'.isEmptyLevel then
              ({ b with bids := eraseLimit b.bids o.price, ordersById := m' }, true)
            else
              ({ b with bids := replaceLimit b.bids o.price L', ordersById := m' }, true)
    | Side.SELL =>
        match findLimit b.asks o.price with
        | none => ({ b with ordersById := m' }, false)
        | some L =>
            let L' := L.removeOrder (some o)
            if L'.isEmptyLevel then
              ({ b with asks := eraseLimit b.asks o.price, ordersById := m' }, true)
            else
              ({ b with asks := replaceLimit b.asks o.price L', ordersById := m' }, true)
  else
    (b, false)

/-- The side a taker matches against: BUY hits the asks, SELL the bids. -/
def Book.opp (b : Book) (s : Side) : List Limit :=
  match s with
  | Side.BUY => b.asks
  | Side.SELL => b.bids

/-- Replace the opposite side wholesale (for `m_asks.erase(it)` on the
best level in the degenerate empty-level branch). -/
def Book.setOpp (b : Book) (s : Side) (ls : List Limit) : Book :=
  match s with
  | Side.BUY => { b with asks := ls }
  | Side.SELL => { b with bids := ls }

/-- The limit-order price test that breaks the matching loop
(src/orderbook.cpp:86-91 and 144-150): a BUY stops when the best ask is
above its limit, a SELL when the best bid is below it. -/
def priceStops (taker : Order) (levelPrice : Int) : Bool :=
  match taker.side with
  | Side.BUY => levelPrice > taker.price
  | Side.SELL => levelPrice < taker.price

/-- `order->getSide() == Side::BUY ? 1.0 : -1.0`. -/
def sideSign (s : Side) : Int :=
  match s with
  | Side.BUY => 1
  | Side.SELL => -1

/-- After `removeOrderFromBook` the loop re-checks `limit->empty()` and
erases the level (src/orderbook.cpp:126-129, 185-188).  When the removal
already destroyed the level this re-check dereferences a dangling pointer
in the source; the embedding models the reachable behaviour: erase the
level at that price if it still exists and is empty, otherwise no-op. -/
def Book.eraseOppIfEmpty (b : Book) (s : Side) (price : Int) : Book :=
  match findLimit (b.opp s) price with
  | none => b
  | some L =>
      if L.isEmptyLevel then b.setOpp s (eraseLimit (b.opp s) price)
      else b

/-- Outcome of one iteration of the matching `while` loop. -/
inductive StepOut where
  /-- The `while` condition failed: no remaining quantity or empty side. -/
  | exitWhile
  /-- A LIMIT taker found the best level's price unacceptable (`break`). -/
  | exitStop
  /-- A fill brought the taker's remaining to zero (`orderFullyFilled`). -/
  | exitFilled (b' : Book) (taker' : Order) (rq' : Int) (f : Fill)
  /-- The loop continues; `f?` is the fill emitted this iteration
  (`none` on the degenerate empty-level `continue` branch). -/
  | cont (b' : Book) (taker' : Order) (rq' : Int) (f? : Option Fill)
deriving Repr

/-- Book mutations of one fill on the resting order (src/orderbook.cpp:
108-129): write the filled resting order `m'` through its shared pointer;
if it is now fully filled, deactivate it (another pointer write) and
remove it from the book; finally the loop re-checks the level for
emptiness.  `levelPrice` is the matched level's price (= `it->first`). -/
def afterFill (b : Book) (s : Side) (levelPrice : Int) (m' : Order) : Book :=
  let b1 := b.updateOrderCopies m'
  let b2 :=
    if m'.filledQty ≥ m'.quantity then
      let m'' := m'.deactivate
      ((b1.updateOrderCopies m'').removeOrderFromBook m'').1
    else b1
  b2.eraseOppIfEmpty s levelPrice

/-- One iteration of the matching loop of `OrderBook::matchOrder`
(src/orderbook.cpp:78-196; the BUY and SELL branches are textually
symmetric and are embedded once, selected by `taker.side`). -/
def stepFn (b : Book) (taker : Order) (rq : Int) : StepOut :=
  if rq ≤ 0 then StepOut.exitWhile
  else
    match b.opp taker.side with
    | [] => StepOut.exitWhile
    | L :: rest =>
        if taker.type == OrderType.LIMIT && priceStops taker L.price then
          StepOut.exitStop
        else
          match L.orders with
          | [] =>
              -- "This should not happen if the book is properly maintained"
              StepOut.cont (b.setOpp taker.side rest) taker rq none
          | m :: _ =>
              let fillQty := min rq (m.quantity - m.filledQty)
              let f : Fill :=
                { symbol := b.symbol, price := L.price, qty := fillQty,
                  sign := sideSign taker.side, makerId := m.id }
              let b3 := afterFill b taker.side L.price (m.fillQuantity fillQty)
              if rq - fillQty ≤ 0 then
                StepOut.exitFilled b3 (taker.fillQuantity fillQty) (rq - fillQty) f
              else
                StepOut.cont b3 (taker.fillQuantity fillQty) (rq - fillQty) (some f)

/-- Result of running the matching loop. -/
structure LoopRes where
  book : Book
  taker : Order
  rq : Int
  fullyFilled : Bool
  fills : List Fill
  completed : Bool
deriving Repr

/-- The fuel-bounded matching loop.  Fuel exhaustion (`completed = false`)
corresponds to the C++ loop not returning. -/
def matchLoop : Nat → Book → Order → Int → LoopRes
  | 0, b, taker, rq =>
      { book := b, taker := taker, rq := rq, fullyFilled := false,
        fills := [], completed := false }
  | fuel + 1, b, taker, rq =>
      match stepFn b taker rq with
      | StepOut.exitWhile =>
          { book := b, taker := taker, rq := rq, fullyFilled := false,
            fills := [], completed := true }
      | StepOut.exitStop =>
          { book := b, taker := taker, rq := rq, fullyFilled := false,
            fills := [], completed := true }
      | StepOut.exitFilled b' taker' rq' f =>
          { book := b', taker := taker', rq := rq', fullyFilled := true,
            fills := [f], completed := true }
      | StepOut.cont b' taker' rq' f? =>
          let r := matchLoop fuel b' taker' rq'
          { r with fills := f?.toList ++ r.fills }

/-- Fuel that dominates the iteration count on any well-maintained book:
each iteration either erases a level or fills the best resting order,
removing it unless the taker is exhausted. -/
def Book.fuelFor (b : Book) : Nat :=
  b.bids.length + b.asks.length
    + (b.bids.map (fun L => L.orders.length)).sum
    + (b.asks.map (fun L => L.orders.length)).sum
    + 1

/-- Result of `addOrder` / `matchOrder` / `cancelOrder`: the new book, the
final state of the submitted order object (the source mutates it through
the caller's pointer), the fills delivered to the callback, the boolean
return value, and the completion flag of the matching loop. -/
structure OpRes where
  book : Book
  order : Option Order
  fills : List Fill
  ok : Bool
  completed : Bool
deriving Repr

/-- `OrderBook::matchOrder` (src/orderbook.cpp:66-216): validate, run the
matching loop, then deactivate a fully filled taker, rest a LIMIT
remainder via `addOrderToBook`, or deactivate and discard a MARKET
remainder.  A STOP_LIMIT remainder falls through both branches. -/
def Book.matchOrder (b : Book) (order : Option Order) : OpRes :=
  match order with
  | none => { book := b, order := none, fills := [], ok := false, completed := true }
  | some o =>
      if !o.isActive then
        { book := b, order := some o, fills := [], ok := false, completed := true }
      else
        let remainingQty := o.quantity - o.filledQty
        let r := matchLoop b.fuelFor b o remainingQty
        if r.fullyFilled || r.taker.filledQty ≥ r.taker.quantity then
          { book := r.book, order := some r.taker.deactivate, fills := r.fills,
            ok := true, completed := r.completed }
        else if r.taker.type == OrderType.LIMIT then
          { book := r.book.addOrderToBook r.taker, order := some r.taker,
            fills := r.fills, ok := true, completed := r.completed }
        else if r.taker.type == OrderType.MARKET then
          { book := r.book, order := some r.taker.deactivate, fills := r.fills,
            ok := true, completed := r.completed }
        else
          { book := r.book, order := some r.taker, fills := r.fills,
            ok := true, completed := r.completed }

/-- `OrderBook::addOrder` (src/orderbook.cpp:25-48): reject a null or
inactive order or a duplicate id; delegate a MARKET order to the matching
procedure; rest any other order on its side via `addOrderToBook`. -/
def Book.addOrder (b : Book) (order : Option Order) : OpRes :=
  match order with
  | none => { book := b, order := none, fills := [], ok := false, completed := true }
  | some o =>
      if !o.isActive then
        { book := b, order := some o, fills := [], ok := false, completed := true }
      else if hasOrderId b.ordersById o.id then
        { book := b, order := some o, fills := [], ok := false, completed := true }
      else if o.type == OrderType.MARKET then
        b.matchOrder (some o)
      else
        { book := b.addOrderToBook o, order := some o, fills := [],
          ok := true, completed := true }

/-- `OrderBook::cancelOrder` (src/orderbook.cpp:50-64): look the id up in
the index; if present, deactivate the shared order object and remove it
from the book. -/
def Book.cancelOrder (b : Book) (orderId : Nat) : OpRes :=
  match lookupOrder b.ordersById orderId with
  | none => { book := b, order := none, fills := [], ok := false, completed := true }
  | some o =>
      let o' := o.deactivate
      let b1 := b.updateOrderCopies o'
      let (b2, ok) := b1.removeOrderFromBook o'
      { book := b2, order := some o', fills := [], ok := ok, completed := true }

/-! ## Derived observables used by the claims -/

/-- The same side an order rests on: BUY rests on the bids, SELL on the asks. -/
def Book.same (b : Book) (s : Side) : List Limit :=
  match s with
  | Side.BUY => b.bids
  | Side.SELL => b.asks

/-- The price keys of a side, in map iteration order (best first). -/
def pricesOf (ls : List Limit) : List Int :=
  ls.map (fun L => L.price)

/-- The book is uncrossed: every bid price is strictly below every ask
price (for non-empty sides this is exactly
max(bids.keys) < min(asks.keys)). -/
def Uncrossed (b : Book) : Prop :=
  ∀ pb ∈ pricesOf b.bids, ∀ pa ∈ pricesOf b.asks, pb < pa

instance (b : Book) : Decidable (Uncrossed b) := by
  unfold Uncrossed
  infer_instance

/-- The exact sum the spec requires `totalVolume` to equal:
Σ over the FIFO of (original_qty − filled_qty). -/
def levelVolumeSum (L : Limit) : Int :=
  (L.orders.map Order.remaining).sum

/-- Number of orders carrying `id` in one level. -/
def countL (L : Limit) (id : Nat) : Nat :=
  (L.orders.filter (fun o => o.id == id)).length

/-- Number of orders carrying `id` on a side. -/
def countSide (ls : List Limit) (id : Nat) : Nat :=
  (ls.map (fun L => countL L id)).sum

/-- No order on this side carries `id`. -/
def sideFree (ls : List Limit) (id : Nat) : Prop :=
  ∀ L ∈ ls, ∀ o ∈ L.orders, o.id ≠ id

/-- No entry of the id index carries `id`. -/
def keyFree (m : List (Nat × Order)) (id : Nat) : Prop :=
  ∀ e ∈ m, e.1 ≠ id

instance (ls : List Limit) (id : Nat) : Decidable (sideFree ls id) := by
  unfold sideFree
  infer_instance

instance (m : List (Nat × Order)) (id : Nat) : Decidable (keyFree m id) := by
  unfold keyFree
  infer_instance

/-- Number of index entries carrying `id`. -/
def keyCount (m : List (Nat × Order)) (id : Nat) : Nat :=
  (m.filter (fun e => e.1 == id)).length

/-- The sub-trace of fills that consumed the resting order `id`. -/
def fillsOn (id : Nat) (fs : List Fill) : List Fill :=
  fs.filter (fun f => f.makerId == id)

/-- Total quantity of a list of fills. -/
def sumQty (fs : List Fill) : Int :=
  (fs.map (fun f => f.qty)).sum

/-- The side field carried by orders that rest opposite a taker of side
`s`: a BUY taker consumes resting SELL orders and vice versa. -/
def oppSideOf (s : Side) : Side :=
  match s with
  | Side.BUY => Side.SELL
  | Side.SELL => Side.BUY

/-- Reachable-book container invariant: every resting order carries the
side of its container and the price of the level it rests in (this is how
`addOrderToBook` files orders, and `removeOrderFromBook` relies on it to
locate the level it erases from). -/
def SideInv (ms : Side) (ls : List Limit) : Prop :=
  ∀ L ∈ ls, ∀ o ∈ L.orders, o.side = ms ∧ o.price = L.price

instance (ms : Side) (ls : List Limit) : Decidable (SideInv ms ls) := by
  unfold SideInv
  infer_instance

/-- All resting ids of a side, in book position order. -/
def idsOfSide (ls : List Limit) : List Nat :=
  (ls.map (fun L => L.orders.map (fun o => o.id))).flatten

/-- Reachable-book uniqueness invariant: no id rests twice on a side
(`addOrder` refuses duplicate ids). -/
def UniqueIds (ls : List Limit) : Prop :=
  (idsOfSide ls).Nodup

instance (ls : List Limit) : Decidable (UniqueIds ls) := by
  unfold UniqueIds
  infer_instance

/-- During a matching cycle the book's price structure only shrinks:
the symbol is fixed and each side's price list stays a sublist of what it
was.  (Levels are only erased or mutated in place, never inserted.) -/
def PriceShrink (b b' : Book) : Prop :=
  b'.symbol = b.symbol ∧ List.Sublist (pricesOf b'.bids) (pricesOf b.bids) ∧
    List.Sublist (pricesOf b'.asks) (pricesOf b.asks)

/-- States of the matching loop reachable from a starting state by the
`continue` transitions of `stepFn` (src/orderbook.cpp:80-196). -/
inductive MReach : Book → Order → Int → Book → Order → Int → Prop where
  | refl (b : Book) (t : Order) (rq : Int) : MReach b t rq b t rq
  | step {b1 : Book} {t1 : Order} {rq1 : Int} {b2 : Book} {t2 : Order} {rq2 : Int}
      {b3 : Book} {t3 : Order} {rq3 : Int} {f? : Option Fill}
      (h : stepFn b1 t1 rq1 = StepOut.cont b2 t2 rq2 f?)
      (hr : MReach b2 t2 rq2 b3 t3 rq3) : MReach b1 t1 rq1 b3 t3 rq3

/-- The iteration at state `(b, t, rq)` emits the fill `f`. -/
def EmitsAt (b : Book) (t : Order) (rq : Int) (f : Fill) : Prop :=
  (∃ b' t' rq', stepFn b t rq = StepOut.exitFilled b' t' rq' f) ∨
  (∃ b' t' rq', stepFn b t rq = StepOut.cont b' t' rq' (some f))

/-- Number of orders with id `k` in a FIFO list. -/
def idCount (l : List Order) (k : Nat) : Nat :=
  (l.filter (fun z => z.id == k)).length

/-- FIFO-priority invariant at the list level: some level of the side
holds an order with id `id1` (current remaining `r1`) strictly ahead of an
order with id `id2`, each id occurring exactly once on the whole side, and
level prices are distinct. -/
def FifoList (id1 id2 : Nat) (r1 : Int) (ls : List Limit) : Prop :=
  ∃ u L v l1 x l2 y l3,
    ls = u ++ L :: v ∧
    L.orders = l1 ++ x :: (l2 ++ y :: l3) ∧
    x.id = id1 ∧ y.id = id2 ∧
    x.quantity - x.filledQty = r1 ∧
    countSide ls id1 = 1 ∧ countSide ls id2 = 1 ∧
    (pricesOf ls).Nodup

/-! ## Supporting lemmas: resting an order -/

theorem addToSide_found (hf : Bool) (side : List Limit) (o : Order) :
    ∃ L, findLimit (addToSide hf side o) o.price = some L ∧ L.price = o.price ∧
      L.orders.getLast? = some o := by
  induction side with
  | nil =>
      refine ⟨Limit.addOrder (Limit.new o.price) (some o), ?_, rfl, rfl⟩
      simp [addToSide, findLimit, Limit.addOrder, Limit.new]
  | cons L rest ih =>
      by_cases hp : L.price = o.price
      · refine ⟨Limit.addOrder L (some o), ?_, ?_, ?_⟩
        · simp [addToSide, findLimit, hp, Limit.addOrder]
        · simp [Limit.addOrder, hp]
        · simp [Limit.addOrder]
      · rcases ih with ⟨M, hM, hMp, hMl⟩
        by_cases hins : (if hf then o.price > L.price else o.price < L.price)
        · refine ⟨Limit.addOrder (Limit.new o.price) (some o), ?_, rfl, rfl⟩
          simp [addToSide, hp, hins, findLimit, Limit.addOrder, Limit.new]
        · refine ⟨M, ?_, hMp, hMl⟩
          simp only [addToSide, hp]
          simp only [findLimit] at hM ⊢
          simp [hp, hins, hM]

theorem lookup_setOrderId_fresh (m : List (Nat × Order)) (o : Order)
    (h : m.any (fun e => e.1 == o.id) = false) :
    lookupOrder (setOrderId m o) o.id = some o := by
  unfold setOrderId
  rw [h]
  simp only [Bool.false_eq_true, if_false, lookupOrder]
  rw [List.find?_append]
  have hnone : m.find? (fun e => e.1 == o.id) = none := by
    rw [List.find?_eq_none]
    intro e he
    rw [List.any_eq_false] at h
    exact h e he
  simp [hnone]

/-! ## Claim C2 — the level volume invariant (violated by the source) -/

/-- **C2** (code bug, evaluation): `L.total_volume = Σ (original − filled)`
fails on a reachable book.  Rest SELL LIMIT id=1 @10 qty 5 via `addOrder`,
then match BUY LIMIT id=2 @10 qty 3 via `matchOrder`: the resting order is
partially filled (filled 3, still active) but the level still caches
`totalVolume = 5` while the exact FIFO sum of remainings is `2` — the
engine never adjusts a level's volume when a fill hits a resting order. -/
theorem c2_total_volume_stale_after_partial_fill :
    (let b1 := ((Book.new "S").addOrder (some
        { id := 1, side := Side.SELL, type := OrderType.LIMIT, symbol := "S",
          price := 10, quantity := 5 })).book
     let r := b1.matchOrder (some
        { id := 2, side := Side.BUY, type := OrderType.LIMIT, symbol := "S",
          price := 10, quantity := 3 })
     r.completed = true ∧
     (findLimit r.book.asks 10).map
        (fun L => (L.totalVolume, levelVolumeSum L,
                   L.orders.map (fun o => (o.id, o.filledQty, o.isActive))))
       = some (5, 2, [(1, 3, true)]) ∧
     (5 : Int) ≠ 2) := by decide

/-! ## Claim C9 — Order::fillQuantity does not deactivate -/

/-- **C9** (counterexample): filling an order up to its original quantity
leaves `isActive = true`; `Order::fillQuantity` never touches the active
flag, contradicting the claim that the fill mutation itself performs the
`active → false` transition. -/
theorem c9_counterexample_fill_leaves_active :
    (let o : Order := { id := 1, side := Side.BUY, type := OrderType.LIMIT,
                        symbol := "S", price := 1, quantity := 5 }
     let o' := o.fillQuantity 5
     o'.filledQty = o'.quantity ∧ o'.isActive = true) := by decide

/-- **C9** (amended): `Order::fillQuantity` increases `filled_qty` by
exactly the fill amount and leaves both the active flag and the original
quantity unchanged; the `active → false` transition on a full fill is
performed separately by the matching engine (`matchOrder`), not by the
fill mutation itself. -/
theorem c9_amended_fill_increments_only (o : Order) (amt : Int) :
    (o.fillQuantity amt).filledQty = o.filledQty + amt ∧
    (o.fillQuantity amt).isActive = o.isActive ∧
    (o.fillQuantity amt).quantity = o.quantity :=
  ⟨rfl, rfl, rfl⟩

/-! ## Claim C10 — Limit::removeOrder on an absent order -/

/-- **C10**: removing the null order, or an order that is not in the
level's FIFO, leaves the `Limit` completely unchanged: the guard around
`std::find` fails and neither the list nor `total_volume` is touched. -/
theorem c10_remove_absent_noop (L : Limit) (o : Order)
    (h : L.orders.any (fun x => x.id == o.id) = false) :
    L.removeOrder none = L ∧ L.removeOrder (some o) = L := by
  refine ⟨rfl, ?_⟩
  unfold Limit.removeOrder
  simp [h]

theorem c10_remove_absent_noop_witness :
    (let L : Limit :=
       { price := 10,
         orders := [{ id := 1, side := Side.SELL, type := OrderType.LIMIT,
                      symbol := "S", price := 10, quantity := 5 }],
         totalVolume := 5 }
     let o : Order := { id := 2, side := Side.SELL, type := OrderType.LIMIT,
                        symbol := "S", price := 10, quantity := 3 }
     L.removeOrder none = L ∧ L.removeOrder (some o) = L) :=
  c10_remove_absent_noop _ _ (by decide)

/-! ## Claim C4 — addOrder validation -/

/-- **C4** (counterexample): `addOrder` does not validate quantity.  A
LIMIT order with `original_qty = 0` (≤ 0) submitted to the empty book is
accepted: the call returns `true` and the order is rested at its price,
contradicting the claimed rejection with no state change. -/
theorem c4_counterexample_zero_qty_accepted :
    (let r := (Book.new "S").addOrder (some
        { id := 9, side := Side.BUY, type := OrderType.LIMIT, symbol := "S",
          price := 7, quantity := 0 })
     r.ok = true ∧ r.book ≠ Book.new "S" ∧ pricesOf r.book.bids = [7]) := by decide

/-- **C4** (amended): `addOrder` returns `false` and leaves the book
completely unchanged (no fills, no mutation) when the order is null, when
it is inactive, or when its id already exists in the book's id index; the
original quantity is *not* validated (non-positive quantities are
accepted). -/
theorem c4_amended_validation (b : Book) (o : Order) :
    ((b.addOrder none).ok = false ∧ (b.addOrder none).book = b ∧
      (b.addOrder none).fills = []) ∧
    (o.isActive = false →
      (b.addOrder (some o)).ok = false ∧ (b.addOrder (some o)).book = b ∧
      (b.addOrder (some o)).fills = []) ∧
    (o.isActive = true → hasOrderId b.ordersById o.id = true →
      (b.addOrder (some o)).ok = false ∧ (b.addOrder (some o)).book = b ∧
      (b.addOrder (some o)).fills = []) := by
  refine ⟨⟨rfl, rfl, rfl⟩, ?_, ?_⟩
  · intro h
    simp [Book.addOrder, h]
  · intro h hdup
    simp [Book.addOrder, h, hdup]

theorem c4_amended_validation_witness :
    (let b := (Book.new "S").addOrderToBook
        { id := 3, side := Side.SELL, type := OrderType.LIMIT, symbol := "S",
          price := 20, quantity := 2 }
     let oInactive : Order :=
        { id := 4, side := Side.BUY, type := OrderType.LIMIT, symbol := "S",
          price := 10, quantity := 1, isActive := false }
     let oDup : Order :=
        { id := 3, side := Side.BUY, type := OrderType.LIMIT, symbol := "S",
          price := 10, quantity := 1 }
     ((b.addOrder (some oInactive)).ok = false ∧ (b.addOrder (some oInactive)).book = b) ∧
     ((b.addOrder (some oDup)).ok = false ∧ (b.addOrder (some oDup)).book = b)) := by
  intro b oInactive oDup
  refine ⟨?_, ?_⟩
  · have h := (c4_amended_validation b oInactive).2.1 (by decide)
    exact ⟨h.1, h.2.1⟩
  · have h := (c4_amended_validation b oDup).2.2 (by decide) (by decide)
    exact ⟨h.1, h.2.1⟩

/-! ## Claim C1 — addOrder rests LIMIT orders without matching -/

/-- **C1** (counterexample): submit SELL LIMIT id=3 @5 qty 1, then BUY
LIMIT id=4 @10 qty 1 through `addOrder`.  The ask at 5 is an acceptable
best level for the buy (5 ≤ 10, remaining 1 > 0), so the claim requires a
match that consumes it.  The code emits no fill, leaves the ask level
untouched and rests the entire buy at 10: `addOrder` never matches a
LIMIT order. -/
theorem c1_counterexample_add_does_not_match :
    (let b := ((Book.new "S").addOrder (some
        { id := 3, side := Side.SELL, type := OrderType.LIMIT, symbol := "S",
          price := 5, quantity := 1 })).book
     let r := b.addOrder (some
        { id := 4, side := Side.BUY, type := OrderType.LIMIT, symbol := "S",
          price := 10, quantity := 1 })
     pricesOf b.asks = [5] ∧
     r.fills = [] ∧ r.ok = true ∧ r.book.asks = b.asks ∧
     (findLimit r.book.bids 10).map (fun L => L.orders.map (fun o => (o.id, o.filledQty)))
        = some [(4, 0)]) := by decide

/-- **C1** (amended): a LIMIT order submitted through `addOrder` (passing
the null/inactive/duplicate-id validation) is rested directly: no match
against the opposite side is attempted, zero fills are emitted, the
opposite side is left unchanged, and the whole order is appended at the
back of the same-side Limit at `order.price` and recorded in the id
index.  Matching for LIMIT takers is performed only by `matchOrder`. -/
theorem c1_amended_limit_rests_without_matching (b : Book) (o : Order)
    (ha : o.isActive = true) (hd : hasOrderId b.ordersById o.id = false)
    (ht : o.type = OrderType.LIMIT) :
    (let r := b.addOrder (some o)
     r.ok = true ∧ r.fills = [] ∧ r.completed = true ∧
     r.book.opp o.side = b.opp o.side ∧
     lookupOrder r.book.ordersById o.id = some o ∧
     ∃ L, findLimit (r.book.same o.side) o.price = some L ∧ L.price = o.price ∧
       L.orders.getLast? = some o) := by
  have hbr : b.addOrder (some o)
      = { book := b.addOrderToBook o, order := some o, fills := [],
          ok := true, completed := true } := by
    simp [Book.addOrder, ha, hd, ht]
  refine ⟨by rw [hbr], by rw [hbr], by rw [hbr], ?_, ?_, ?_⟩
  · rw [hbr]
    cases hside : o.side <;>
      simp [Book.addOrderToBook, Book.opp, hside]
  · rw [hbr]
    cases hside : o.side <;>
      · simp only [Book.addOrderToBook, hside]
        exact lookup_setOrderId_fresh b.ordersById o (by simpa [hasOrderId] using hd)
  · rw [hbr]
    cases hside : o.side <;>
      · simp only [Book.addOrderToBook, Book.same, hside]
        exact addToSide_found _ _ o

theorem c1_amended_witness :
    (let b := (Book.new "S").addOrderToBook
        { id := 3, side := Side.SELL, type := OrderType.LIMIT, symbol := "S",
          price := 5, quantity := 1 }
     let o : Order :=
        { id := 4, side := Side.BUY, type := OrderType.LIMIT, symbol := "S",
          price := 10, quantity := 1 }
     let r := b.addOrder (some o)
     r.ok = true ∧ r.fills = [] ∧ r.completed = true ∧
     r.book.opp o.side = b.opp o.side ∧
     lookupOrder r.book.ordersById o.id = some o ∧
     ∃ L, findLimit (r.book.same o.side) o.price = some L ∧ L.price = o.price ∧
       L.orders.getLast? = some o) :=
  c1_amended_limit_rests_without_matching _ _ (by decide) (by decide) (by decide)

/-! ## Claim C3 — the uncrossed invariant (violated by addOrder) -/

/-- **C3** (counterexample): `addOrder` can cross the book.  Rest BUY
LIMIT id=1 @10, then submit SELL LIMIT id=2 @5 through `addOrder`: both
rest, and the book ends with best bid 10 ≥ best ask 5 — crossed right
after an `add_order` operation completed. -/
theorem c3_counterexample_add_order_crosses :
    (let b2 := (((Book.new "S").addOrder (some
        { id := 1, side := Side.BUY, type := OrderType.LIMIT, symbol := "S",
          price := 10, quantity := 1 })).book.addOrder (some
        { id := 2, side := Side.SELL, type := OrderType.LIMIT, symbol := "S",
          price := 5, quantity := 1 })).book
     pricesOf b2.bids = [10] ∧ pricesOf b2.asks = [5] ∧ ¬ Uncrossed b2) := by decide

/-! ## Loop infrastructure: the book only shrinks during matching -/

theorem eraseFirst_sublist {α : Type} (p : α → Bool) (l : List α) :
    List.Sublist (eraseFirst p l) l := by
  induction l with
  | nil => exact List.Sublist.refl _
  | cons x xs ih =>
      unfold eraseFirst
      by_cases h : p x
      · simp only [h, if_true]
        exact List.sublist_cons_self x xs
      · simp only [h, Bool.false_eq_true, if_false]
        exact ih.cons₂ x

theorem removeOrder_price (L : Limit) (o? : Option Order) :
    (L.removeOrder o?).price = L.price := by
  unfold Limit.removeOrder
  cases o? with
  | none => rfl
  | some o =>
      by_cases h : L.orders.any (fun x => x.id == o.id)
      · simp only [h, if_true]
        by_cases h2 : o.quantity - o.filledQty > 0 <;> simp [h2]
      · simp [h]

theorem priceShrink_refl (b : Book) : PriceShrink b b :=
  ⟨rfl, List.Sublist.refl _, List.Sublist.refl _⟩

theorem priceShrink_trans {b1 b2 b3 : Book}
    (h1 : PriceShrink b1 b2) (h2 : PriceShrink b2 b3) : PriceShrink b1 b3 :=
  ⟨h2.1.trans h1.1, h2.2.1.trans h1.2.1, h2.2.2.trans h1.2.2⟩

theorem pricesOf_updateCopies (ls : List Limit) (o' : Order) :
    pricesOf (ls.map (fun L => L.updateCopies o')) = pricesOf ls := by
  simp only [pricesOf, List.map_map]
  exact List.map_congr_left (fun L _ => rfl)

theorem updateOrderCopies_shrink (b : Book) (o' : Order) :
    PriceShrink b (b.updateOrderCopies o') := by
  refine ⟨rfl, ?_, ?_⟩ <;>
    · simp only [Book.updateOrderCopies, pricesOf_updateCopies]
      exact List.Sublist.refl _

theorem findLimit_price {ls : List Limit} {p : Int} {L : Limit}
    (h : findLimit ls p = some L) : L.price = p := by
  have := List.find?_some h
  simpa using this

theorem findLimit_mem {ls : List Limit} {p : Int} {L : Limit}
    (h : findLimit ls p = some L) : L ∈ ls :=
  List.mem_of_find?_eq_some h

theorem replaceLimit_prices (ls : List Limit) (p : Int) (L' : Limit)
    (h : L'.price = p) : pricesOf (replaceLimit ls p L') = pricesOf ls := by
  simp only [replaceLimit, pricesOf, List.map_map]
  refine List.map_congr_left (fun L _ => ?_)
  by_cases hL : L.price = p
  · simp [hL, h]
  · simp [hL]

theorem eraseLimit_prices (ls : List Limit) (p : Int) :
    List.Sublist (pricesOf (eraseLimit ls p)) (pricesOf ls) :=
  (eraseFirst_sublist _ ls).map _

theorem removeOrderFromBook_shrink (b : Book) (o : Order) :
    PriceShrink b (b.removeOrderFromBook o).1 := by
  unfold Book.removeOrderFromBook
  by_cases h : hasOrderId b.ordersById o.id
  · simp only [h, if_true]
    cases o.side
    · cases hf : findLimit b.bids o.price with
      | none => exact priceShrink_refl _
      | some L =>
          by_cases he : (L.removeOrder (some o)).isEmptyLevel
          · simp only [he, if_true]
            exact ⟨rfl, eraseLimit_prices _ _, List.Sublist.refl _⟩
          · simp only [he, Bool.false_eq_true, if_false]
            refine ⟨rfl, ?_, List.Sublist.refl _⟩
            rw [replaceLimit_prices _ _ _
              ((removeOrder_price L (some o)).trans (findLimit_price hf))]
    · cases hf : findLimit b.asks o.price with
      | none => exact priceShrink_refl _
      | some L =>
          by_cases he : (L.removeOrder (some o)).isEmptyLevel
          · simp only [he, if_true]
            exact ⟨rfl, List.Sublist.refl _, eraseLimit_prices _ _⟩
          · simp only [he, Bool.false_eq_true, if_false]
            refine ⟨rfl, List.Sublist.refl _, ?_⟩
            rw [replaceLimit_prices _ _ _
              ((removeOrder_price L (some o)).trans (findLimit_price hf))]
  · simp only [h, Bool.false_eq_true, if_false]
    exact priceShrink_refl _

theorem eraseOppIfEmpty_shrink (b : Book) (s : Side) (p : Int) :
    PriceShrink b (b.eraseOppIfEmpty s p) := by
  unfold Book.eraseOppIfEmpty
  cases hf : findLimit (b.opp s) p with
  | none => exact priceShrink_refl _
  | some L =>
      by_cases he : L.isEmptyLevel
      · simp only [he, if_true]
        cases s
        · exact ⟨rfl, List.Sublist.refl _, eraseLimit_prices _ _⟩
        · exact ⟨rfl, eraseLimit_prices _ _, List.Sublist.refl _⟩
      · simp only [he, Bool.false_eq_true, if_false]
        exact priceShrink_refl _

theorem setOpp_rest_shrink (b : Book) (s : Side) (L : Limit) (rest : List Limit)
    (h : b.opp s = L :: rest) : PriceShrink b (b.setOpp s rest) := by
  cases s
  · refine ⟨rfl, List.Sublist.refl _, ?_⟩
    simp only [Book.opp] at h
    rw [h]
    exact (List.sublist_cons_self L rest).map _
  · refine ⟨rfl, ?_, List.Sublist.refl _⟩
    simp only [Book.opp] at h
    rw [h]
    exact (List.sublist_cons_self L rest).map _

theorem afterFill_shrink (b : Book) (s : Side) (p : Int) (m' : Order) :
    PriceShrink b (afterFill b s p m') := by
  unfold afterFill
  refine priceShrink_trans ?_ (eraseOppIfEmpty_shrink _ _ _)
  by_cases h : m'.filledQty ≥ m'.quantity
  · simp only [h, if_true]
    exact priceShrink_trans (updateOrderCopies_shrink _ _)
      (priceShrink_trans (updateOrderCopies_shrink _ _) (removeOrderFromBook_shrink _ _))
  · simp only [h, if_false]
    exact updateOrderCopies_shrink _ _

/-- Complete case analysis of one loop iteration: the `while` condition
fails, a LIMIT taker stops on price, a degenerate empty level is erased,
or the front order of the best level is filled (ending the loop when the
taker is exhausted). -/
theorem stepFn_elim (b : Book) (t : Order) (rq : Int) (motive : StepOut → Prop)
    (h1 : rq ≤ 0 → motive StepOut.exitWhile)
    (h2 : 0 < rq → b.opp t.side = [] → motive StepOut.exitWhile)
    (h3 : ∀ L rest, 0 < rq → b.opp t.side = L :: rest →
        t.type = OrderType.LIMIT → priceStops t L.price = true → motive StepOut.exitStop)
    (h4 : ∀ L rest, 0 < rq → b.opp t.side = L :: rest →
        (t.type == OrderType.LIMIT && priceStops t L.price) = false → L.orders = [] →
        motive (StepOut.cont (b.setOpp t.side rest) t rq none))
    (h5 : ∀ L rest m ms, 0 < rq → b.opp t.side = L :: rest →
        (t.type == OrderType.LIMIT && priceStops t L.price) = false → L.orders = m :: ms →
        rq - min rq (m.quantity - m.filledQty) ≤ 0 →
        motive (StepOut.exitFilled
          (afterFill b t.side L.price (m.fillQuantity (min rq (m.quantity - m.filledQty))))
          (t.fillQuantity (min rq (m.quantity - m.filledQty)))
          (rq - min rq (m.quantity - m.filledQty))
          { symbol := b.symbol, price := L.price, qty := min rq (m.quantity - m.filledQty),
            sign := sideSign t.side, makerId := m.id }))
    (h6 : ∀ L rest m ms, 0 < rq → b.opp t.side = L :: rest →
        (t.type == OrderType.LIMIT && priceStops t L.price) = false → L.orders = m :: ms →
        ¬(rq - min rq (m.quantity - m.filledQty) ≤ 0) →
        motive (StepOut.cont
          (afterFill b t.side L.price (m.fillQuantity (min rq (m.quantity - m.filledQty))))
          (t.fillQuantity (min rq (m.quantity - m.filledQty)))
          (rq - min rq (m.quantity - m.filledQty))
          (some { symbol := b.symbol, price := L.price,
                  qty := min rq (m.quantity - m.filledQty),
                  sign := sideSign t.side, makerId := m.id }))) :
    motive (stepFn b t rq) := by
  unfold stepFn
  by_cases hrq : rq ≤ 0
  · rw [if_pos hrq]
    exact h1 hrq
  · rw [if_neg hrq]
    have hrq' : 0 < rq := not_le.mp hrq
    cases hopp : b.opp t.side with
    | nil => exact h2 hrq' hopp
    | cons L rest =>
        by_cases hstop : (t.type == OrderType.LIMIT && priceStops t L.price) = true
        · simp only [hstop, if_true]
          rw [Bool.and_eq_true] at hstop
          exact h3 L rest hrq' hopp (by simpa using hstop.1) hstop.2
        · have hstopf : (t.type == OrderType.LIMIT && priceStops t L.price) = false :=
            Bool.eq_false_iff.mpr hstop
          simp only [hstopf, Bool.false_eq_true, if_false]
          cases hord : L.orders with
          | nil => exact h4 L rest hrq' hopp hstopf hord
          | cons m ms =>
              by_cases hle : rq - min rq (m.quantity - m.filledQty) ≤ 0
              · simp only [hle, if_true]
                exact h5 L rest m ms hrq' hopp hstopf hord hle
              · simp only [hle, if_false]
                exact h6 L rest m ms hrq' hopp hstopf hord hle

theorem stepFn_exitWhile_inv {b : Book} {t : Order} {rq : Int}
    (h : stepFn b t rq = StepOut.exitWhile) : rq ≤ 0 ∨ b.opp t.side = [] := by
  revert h
  refine stepFn_elim b t rq
    (fun so => so = StepOut.exitWhile → rq ≤ 0 ∨ b.opp t.side = [])
    ?_ ?_ ?_ ?_ ?_ ?_
  · exact fun hle _ => Or.inl hle
  · exact fun _ hopp _ => Or.inr hopp
  · exact fun L rest _ _ _ _ h => by cases h
  · exact fun L rest _ _ _ _ h => by cases h
  · exact fun L rest m ms _ _ _ _ _ h => by cases h
  · exact fun L rest m ms _ _ _ _ _ h => by cases h

theorem stepFn_exitStop_inv {b : Book} {t : Order} {rq : Int}
    (h : stepFn b t rq = StepOut.exitStop) :
    t.type = OrderType.LIMIT ∧ 0 < rq ∧ ∃ L rest, b.opp t.side = L :: rest ∧
      priceStops t L.price = true := by
  revert h
  refine stepFn_elim b t rq
    (fun so => so = StepOut.exitStop →
      t.type = OrderType.LIMIT ∧ 0 < rq ∧ ∃ L rest, b.opp t.side = L :: rest ∧
        priceStops t L.price = true)
    ?_ ?_ ?_ ?_ ?_ ?_
  · exact fun _ h => by cases h
  · exact fun _ _ h => by cases h
  · intro L rest hrq hopp hty hps _
    exact ⟨hty, hrq, L, rest, hopp, hps⟩
  · exact fun L rest _ _ _ _ h => by cases h
  · exact fun L rest m ms _ _ _ _ _ h => by cases h
  · exact fun L rest m ms _ _ _ _ _ h => by cases h

theorem stepFn_cont_inv {b : Book} {t : Order} {rq : Int}
    {b' : Book} {t' : Order} {rq' : Int} {f? : Option Fill}
    (h : stepFn b t rq = StepOut.cont b' t' rq' f?) :
    PriceShrink b b' ∧ ((t' = t ∧ rq' = rq) ∨ ∃ q, t' = t.fillQuantity q ∧ rq' = rq - q) := by
  revert h
  refine stepFn_elim b t rq
    (fun so => so = StepOut.cont b' t' rq' f? →
      PriceShrink b b' ∧ ((t' = t ∧ rq' = rq) ∨ ∃ q, t' = t.fillQuantity q ∧ rq' = rq - q))
    ?_ ?_ ?_ ?_ ?_ ?_
  · exact fun _ h => by cases h
  · exact fun _ _ h => by cases h
  · exact fun L rest _ _ _ _ h => by cases h
  · intro L rest _ hopp _ _ h
    cases h
    exact ⟨setOpp_rest_shrink b t.side L rest hopp, Or.inl ⟨rfl, rfl⟩⟩
  · exact fun L rest m ms _ _ _ _ _ h => by cases h
  · intro L rest m ms _ _ _ _ _ h
    cases h
    exact ⟨afterFill_shrink _ _ _ _, Or.inr ⟨_, rfl, rfl⟩⟩

theorem stepFn_exitFilled_inv {b : Book} {t : Order} {rq : Int}
    {b' : Book} {t' : Order} {rq' : Int} {f : Fill}
    (h : stepFn b t rq = StepOut.exitFilled b' t' rq' f) :
    PriceShrink b b' ∧ (∃ q, t' = t.fillQuantity q ∧ rq' = rq - q) ∧ rq' ≤ 0 := by
  revert h
  refine stepFn_elim b t rq
    (fun so => so = StepOut.exitFilled b' t' rq' f →
      PriceShrink b b' ∧ (∃ q, t' = t.fillQuantity q ∧ rq' = rq - q) ∧ rq' ≤ 0)
    ?_ ?_ ?_ ?_ ?_ ?_
  · exact fun _ h => by cases h
  · exact fun _ _ h => by cases h
  · exact fun L rest _ _ _ _ h => by cases h
  · exact fun L rest _ _ _ _ h => by cases h
  · intro L rest m ms _ _ _ _ hle h
    cases h
    exact ⟨afterFill_shrink _ _ _ _, ⟨_, rfl, rfl⟩, hle⟩
  · exact fun L rest m ms _ _ _ _ _ h => by cases h

theorem matchLoop_shrink (fuel : Nat) (b : Book) (t : Order) (rq : Int) :
    PriceShrink b (matchLoop fuel b t rq).book := by
  induction fuel generalizing b t rq with
  | zero => exact priceShrink_refl _
  | succ n ih =>
      unfold matchLoop
      cases hs : stepFn b t rq with
      | exitWhile => exact priceShrink_refl _
      | exitStop => exact priceShrink_refl _
      | exitFilled b' t' rq' f => exact (stepFn_exitFilled_inv hs).1
      | cont b' t' rq' f? =>
          exact priceShrink_trans (stepFn_cont_inv hs).1 (ih b' t' rq')

theorem priceStops_congr {t t' : Order} (hs : t'.side = t.side)
    (hp : t'.price = t.price) (p : Int) : priceStops t' p = priceStops t p := by
  unfold priceStops
  rw [hs, hp]

/-- The loop mutates the taker only through `fillQuantity`: identity,
side, type, price, symbol and original quantity are untouched, and the
running `remainingQty` decreases in lockstep with `filledQty`. -/
theorem matchLoop_taker (fuel : Nat) (b : Book) (t : Order) (rq : Int) :
    (matchLoop fuel b t rq).taker.id = t.id ∧
    (matchLoop fuel b t rq).taker.side = t.side ∧
    (matchLoop fuel b t rq).taker.type = t.type ∧
    (matchLoop fuel b t rq).taker.price = t.price ∧
    (matchLoop fuel b t rq).taker.quantity = t.quantity ∧
    (matchLoop fuel b t rq).taker.isActive = t.isActive ∧
    (matchLoop fuel b t rq).taker.filledQty - t.filledQty = rq - (matchLoop fuel b t rq).rq := by
  induction fuel generalizing b t rq with
  | zero =>
      exact ⟨rfl, rfl, rfl, rfl, rfl, rfl, by show t.filledQty - t.filledQty = rq - rq; ring⟩
  | succ n ih =>
      unfold matchLoop
      cases hs : stepFn b t rq with
      | exitWhile =>
          exact ⟨rfl, rfl, rfl, rfl, rfl, rfl,
            by show t.filledQty - t.filledQty = rq - rq; ring⟩
      | exitStop =>
          exact ⟨rfl, rfl, rfl, rfl, rfl, rfl,
            by show t.filledQty - t.filledQty = rq - rq; ring⟩
      | exitFilled b' t' rq' f =>
          obtain ⟨-, ⟨q, ht', hrq'⟩, -⟩ := stepFn_exitFilled_inv hs
          subst ht' hrq'
          refine ⟨rfl, rfl, rfl, rfl, rfl, rfl, ?_⟩
          simp only [Order.fillQuantity]
          ring
      | cont b' t' rq' f? =>
          obtain ⟨-, hcase⟩ := stepFn_cont_inv hs
          have hr := ih b' t' rq'
          rcases hcase with ⟨ht', hrq'⟩ | ⟨q, ht', hrq'⟩ <;> subst ht' hrq' <;>
            refine ⟨hr.1, hr.2.1, hr.2.2.1, hr.2.2.2.1, hr.2.2.2.2.1, hr.2.2.2.2.2.1, ?_⟩
          · exact hr.2.2.2.2.2.2
          · have h7 := hr.2.2.2.2.2.2
            simp only [Order.fillQuantity] at h7 ⊢
            omega

/-- Shape of the state when a completed loop ends without fully filling
the taker: the remaining quantity is gone anyway, the opposite side is
exhausted, or (for a LIMIT taker) the best surviving level's price is
unacceptable. -/
theorem matchLoop_exit (fuel : Nat) (b : Book) (t : Order) (rq : Int) :
    (matchLoop fuel b t rq).completed = true →
    (matchLoop fuel b t rq).fullyFilled = false →
    (matchLoop fuel b t rq).rq ≤ 0 ∨
      (matchLoop fuel b t rq).book.opp t.side = [] ∨
      (t.type = OrderType.LIMIT ∧ ∃ L rest,
        (matchLoop fuel b t rq).book.opp t.side = L :: rest ∧
        priceStops t L.price = true) := by
  induction fuel generalizing b t rq with
  | zero => intro h; cases h
  | succ n ih =>
      unfold matchLoop
      cases hs : stepFn b t rq with
      | exitWhile =>
          intro _ _
          rcases stepFn_exitWhile_inv hs with h | h
          · exact Or.inl h
          · exact Or.inr (Or.inl h)
      | exitStop =>
          intro _ _
          obtain ⟨hty, hrq, L, rest, hopp, hps⟩ := stepFn_exitStop_inv hs
          exact Or.inr (Or.inr ⟨hty, L, rest, hopp, hps⟩)
      | exitFilled b' t' rq' f => intro _ h; cases h
      | cont b' t' rq' f? =>
          intro hc hf
          obtain ⟨-, hcase⟩ := stepFn_cont_inv hs
          have hside : t'.side = t.side := by
            rcases hcase with ⟨ht', -⟩ | ⟨q, ht', -⟩ <;> subst ht' <;> rfl
          have hprice : t'.price = t.price := by
            rcases hcase with ⟨ht', -⟩ | ⟨q, ht', -⟩ <;> subst ht' <;> rfl
          have htype : t'.type = t.type := by
            rcases hcase with ⟨ht', -⟩ | ⟨q, ht', -⟩ <;> subst ht' <;> rfl
          have := ih b' t' rq' (by simpa using hc) (by simpa using hf)
          rw [hside, htype] at this
          rcases this with h | h | ⟨hty, L, rest, hopp, hps⟩
          · exact Or.inl (by simpa using h)
          · exact Or.inr (Or.inl (by simpa using h))
          · exact Or.inr (Or.inr ⟨hty, L, rest, by simpa using hopp,
              by rw [← priceStops_congr hside hprice]; exact hps⟩)

/-! ## Loop infrastructure: matching never introduces new orders -/

theorem sideFree_sublist {ls' ls : List Limit} {id : Nat}
    (hsub : List.Sublist ls' ls) (h : sideFree ls id) : sideFree ls' id :=
  fun L hL o ho => h L (hsub.mem hL) o ho

theorem keyFree_sublist {m' m : List (Nat × Order)} {id : Nat}
    (hsub : List.Sublist m' m) (h : keyFree m id) : keyFree m' id :=
  fun e he => h e (hsub.mem he)

theorem sideFree_map_updateCopies {ls : List Limit} {id : Nat} (o' : Order)
    (h : sideFree ls id) : sideFree (ls.map (fun L => L.updateCopies o')) id := by
  intro L' hL' o ho
  rcases List.mem_map.mp hL' with ⟨L, hL, rfl⟩
  rcases List.mem_map.mp ho with ⟨x, hx, rfl⟩
  by_cases hid : x.id == o'.id
  · have : x.id = o'.id := by simpa using hid
    simp only [hid, if_true]
    rw [← this]
    exact h L hL x hx
  · simp only [hid, Bool.false_eq_true, if_false]
    exact h L hL x hx

theorem keyFree_map_update {m : List (Nat × Order)} {id : Nat} (o' : Order)
    (h : keyFree m id) :
    keyFree (m.map (fun e => if e.1 == o'.id then (e.1, o') else e)) id := by
  intro e' he'
  rcases List.mem_map.mp he' with ⟨e, he, rfl⟩
  by_cases hid : e.1 == o'.id
  · simp only [hid, if_true]
    exact h e he
  · simp only [hid, Bool.false_eq_true, if_false]
    exact h e he

theorem updateOrderCopies_free {b : Book} {id : Nat} (o' : Order) :
    (sideFree b.bids id → sideFree (b.updateOrderCopies o').bids id) ∧
    (sideFree b.asks id → sideFree (b.updateOrderCopies o').asks id) ∧
    (keyFree b.ordersById id → keyFree (b.updateOrderCopies o').ordersById id) :=
  ⟨sideFree_map_updateCopies o', sideFree_map_updateCopies o', keyFree_map_update o'⟩

theorem removeOrder_orders_subset {L : Limit} {o? : Option Order} {x : Order}
    (hx : x ∈ (L.removeOrder o?).orders) : x ∈ L.orders := by
  unfold Limit.removeOrder at hx
  cases o? with
  | none => exact hx
  | some o =>
      by_cases h : L.orders.any (fun y => y.id == o.id)
      · simp only [h, if_true] at hx
        by_cases h2 : o.quantity - o.filledQty > 0 <;> simp only [h2, if_true, if_false] at hx <;>
          exact (eraseFirst_sublist _ _).mem hx
      · simpa [h] using hx

theorem sideFree_replaceLimit_remove {ls : List Limit} {p : Int} {L : Limit}
    {o : Order} {id : Nat} (hL : L ∈ ls) (h : sideFree ls id) :
    sideFree (replaceLimit ls p (L.removeOrder (some o))) id := by
  intro M hM x hx
  rcases List.mem_map.mp hM with ⟨N, hN, rfl⟩
  by_cases hp : N.price == p
  · simp only [hp, if_true] at hx
    exact h L hL x (removeOrder_orders_subset hx)
  · simp only [hp, Bool.false_eq_true, if_false] at hx
    exact h N hN x hx

theorem removeOrderFromBook_free {b : Book} {o : Order} {id : Nat} :
    (sideFree b.bids id → sideFree (b.removeOrderFromBook o).1.bids id) ∧
    (sideFree b.asks id → sideFree (b.removeOrderFromBook o).1.asks id) ∧
    (keyFree b.ordersById id → keyFree (b.removeOrderFromBook o).1.ordersById id) := by
  unfold Book.removeOrderFromBook
  by_cases h : hasOrderId b.ordersById o.id
  · simp only [h, if_true]
    have hkey : keyFree b.ordersById id → keyFree (eraseOrderId b.ordersById o.id) id :=
      keyFree_sublist (eraseFirst_sublist _ _)
    cases o.side
    · cases hf : findLimit b.bids o.price with
      | none => exact ⟨fun hh => hh, fun hh => hh, hkey⟩
      | some L =>
          by_cases he : (L.removeOrder (some o)).isEmptyLevel <;>
            simp only [he, if_true, Bool.false_eq_true, if_false]
          · exact ⟨sideFree_sublist (eraseFirst_sublist _ _), fun hh => hh, hkey⟩
          · exact ⟨sideFree_replaceLimit_remove (findLimit_mem hf), fun hh => hh, hkey⟩
    · cases hf : findLimit b.asks o.price with
      | none => exact ⟨fun hh => hh, fun hh => hh, hkey⟩
      | some L =>
          by_cases he : (L.removeOrder (some o)).isEmptyLevel <;>
            simp only [he, if_true, Bool.false_eq_true, if_false]
          · exact ⟨fun hh => hh, sideFree_sublist (eraseFirst_sublist _ _), hkey⟩
          · exact ⟨fun hh => hh, sideFree_replaceLimit_remove (findLimit_mem hf), hkey⟩
  · simp only [h, Bool.false_eq_true, if_false]
    exact ⟨fun hh => hh, fun hh => hh, fun hh => hh⟩

theorem eraseOppIfEmpty_free {b : Book} {s : Side} {p : Int} {id : Nat} :
    (sideFree b.bids id → sideFree (b.eraseOppIfEmpty s p).bids id) ∧
    (sideFree b.asks id → sideFree (b.eraseOppIfEmpty s p).asks id) ∧
    (keyFree b.ordersById id → keyFree (b.eraseOppIfEmpty s p).ordersById id) := by
  unfold Book.eraseOppIfEmpty
  cases hf : findLimit (b.opp s) p with
  | none => exact ⟨fun hh => hh, fun hh => hh, fun hh => hh⟩
  | some L =>
      by_cases he : L.isEmptyLevel <;> simp only [he, if_true, Bool.false_eq_true, if_false]
      · cases s
        · exact ⟨fun hh => hh, sideFree_sublist (eraseFirst_sublist _ _), fun hh => hh⟩
        · exact ⟨sideFree_sublist (eraseFirst_sublist _ _), fun hh => hh, fun hh => hh⟩
      · exact ⟨fun hh => hh, fun hh => hh, fun hh => hh⟩

theorem afterFill_free {b : Book} {s : Side} {p : Int} {m' : Order} {id : Nat} :
    (sideFree b.bids id → sideFree (afterFill b s p m').bids id) ∧
    (sideFree b.asks id → sideFree (afterFill b s p m').asks id) ∧
    (keyFree b.ordersById id → keyFree (afterFill b s p m').ordersById id) := by
  unfold afterFill
  by_cases h : m'.filledQty ≥ m'.quantity <;> simp only [h, if_true, if_false]
  · refine ⟨?_, ?_, ?_⟩ <;> intro hh
    · exact eraseOppIfEmpty_free.1 (removeOrderFromBook_free.1
        ((updateOrderCopies_free _).1 ((updateOrderCopies_free _).1 hh)))
    · exact eraseOppIfEmpty_free.2.1 (removeOrderFromBook_free.2.1
        ((updateOrderCopies_free _).2.1 ((updateOrderCopies_free _).2.1 hh)))
    · exact eraseOppIfEmpty_free.2.2 (removeOrderFromBook_free.2.2
        ((updateOrderCopies_free _).2.2 ((updateOrderCopies_free _).2.2 hh)))
  · refine ⟨?_, ?_, ?_⟩ <;> intro hh
    · exact eraseOppIfEmpty_free.1 ((updateOrderCopies_free _).1 hh)
    · exact eraseOppIfEmpty_free.2.1 ((updateOrderCopies_free _).2.1 hh)
    · exact eraseOppIfEmpty_free.2.2 ((updateOrderCopies_free _).2.2 hh)

theorem stepFn_free (b : Book) (t : Order) (rq : Int) (id : Nat) :
    (∀ b' t' rq' f?, stepFn b t rq = StepOut.cont b' t' rq' f? →
      (sideFree b.bids id → sideFree b'.bids id) ∧
      (sideFree b.asks id → sideFree b'.asks id) ∧
      (keyFree b.ordersById id → keyFree b'.ordersById id) ∧
      (∀ f, f? = some f → sideFree (b.opp t.side) id → f.makerId ≠ id)) ∧
    (∀ b' t' rq' f, stepFn b t rq = StepOut.exitFilled b' t' rq' f →
      (sideFree b.bids id → sideFree b'.bids id) ∧
      (sideFree b.asks id → sideFree b'.asks id) ∧
      (keyFree b.ordersById id → keyFree b'.ordersById id) ∧
      (sideFree (b.opp t.side) id → f.makerId ≠ id)) := by
  refine stepFn_elim b t rq
    (fun so =>
      (∀ b' t' rq' f?, so = StepOut.cont b' t' rq' f? →
        (sideFree b.bids id → sideFree b'.bids id) ∧
        (sideFree b.asks id → sideFree b'.asks id) ∧
        (keyFree b.ordersById id → keyFree b'.ordersById id) ∧
        (∀ f, f? = some f → sideFree (b.opp t.side) id → f.makerId ≠ id)) ∧
      (∀ b' t' rq' f, so = StepOut.exitFilled b' t' rq' f →
        (sideFree b.bids id → sideFree b'.bids id) ∧
        (sideFree b.asks id → sideFree b'.asks id) ∧
        (keyFree b.ordersById id → keyFree b'.ordersById id) ∧
        (sideFree (b.opp t.side) id → f.makerId ≠ id)))
    ?_ ?_ ?_ ?_ ?_ ?_
  · exact fun _ => ⟨fun _ _ _ _ h => StepOut.noConfusion h, fun _ _ _ _ h => StepOut.noConfusion h⟩
  · exact fun _ _ => ⟨fun _ _ _ _ h => StepOut.noConfusion h, fun _ _ _ _ h => StepOut.noConfusion h⟩
  · exact fun _ _ _ _ _ _ => ⟨fun _ _ _ _ h => StepOut.noConfusion h, fun _ _ _ _ h => StepOut.noConfusion h⟩
  · intro L rest _ hopp _ _
    refine ⟨?_, fun _ _ _ _ h => StepOut.noConfusion h⟩
    intro b' t' rq' f? h
    cases h
    cases hside : t.side <;> rw [hside] at hopp <;> simp only [Book.opp] at hopp
    · refine ⟨fun hh => hh, ?_, fun hh => hh, fun f hf => Option.noConfusion hf⟩
      intro hh
      rw [hopp] at hh
      exact fun M hM => hh M (List.mem_cons_of_mem L hM)
    · refine ⟨?_, fun hh => hh, fun hh => hh, fun f hf => Option.noConfusion hf⟩
      intro hh
      rw [hopp] at hh
      exact fun M hM => hh M (List.mem_cons_of_mem L hM)
  · intro L rest m ms _ hopp _ hord _
    refine ⟨fun _ _ _ _ h => StepOut.noConfusion h, ?_⟩
    intro b' t' rq' f h
    cases h
    refine ⟨afterFill_free.1, afterFill_free.2.1, afterFill_free.2.2, ?_⟩
    intro hfree
    have hmL : m ∈ L.orders := by rw [hord]; exact List.mem_cons_self m ms
    have hL : L ∈ b.opp t.side := by rw [hopp]; exact List.mem_cons_self L rest
    exact hfree L hL m hmL
  · intro L rest m ms _ hopp _ hord _
    refine ⟨?_, fun _ _ _ _ h => StepOut.noConfusion h⟩
    intro b' t' rq' f? h
    cases h
    refine ⟨afterFill_free.1, afterFill_free.2.1, afterFill_free.2.2, ?_⟩
    intro f hf hfree
    cases hf
    have hmL : m ∈ L.orders := by rw [hord]; exact List.mem_cons_self m ms
    have hL : L ∈ b.opp t.side := by rw [hopp]; exact List.mem_cons_self L rest
    exact hfree L hL m hmL

theorem matchLoop_free (fuel : Nat) (b : Book) (t : Order) (rq : Int) (id : Nat)
    (hb : sideFree b.bids id) (ha : sideFree b.asks id)
    (hk : keyFree b.ordersById id) :
    sideFree (matchLoop fuel b t rq).book.bids id ∧
    sideFree (matchLoop fuel b t rq).book.asks id ∧
    keyFree (matchLoop fuel b t rq).book.ordersById id ∧
    (∀ f ∈ (matchLoop fuel b t rq).fills, f.makerId ≠ id) := by
  induction fuel generalizing b t rq with
  | zero => exact ⟨hb, ha, hk, by intro f hf; cases hf⟩
  | succ n ih =>
      unfold matchLoop
      cases hs : stepFn b t rq with
      | exitWhile => exact ⟨hb, ha, hk, by intro f hf; cases hf⟩
      | exitStop => exact ⟨hb, ha, hk, by intro f hf; cases hf⟩
      | exitFilled b' t' rq' f =>
          obtain ⟨h1, h2, h3, h4⟩ := (stepFn_free b t rq id).2 b' t' rq' f hs
          refine ⟨h1 hb, h2 ha, h3 hk, ?_⟩
          intro g hg
          rw [List.mem_singleton] at hg
          subst hg
          refine h4 ?_
          cases t.side <;> simp only [Book.opp]
          · exact ha
          · exact hb
      | cont b' t' rq' f? =>
          obtain ⟨h1, h2, h3, h4⟩ := (stepFn_free b t rq id).1 b' t' rq' f? hs
          have hr := ih b' t' rq' (h1 hb) (h2 ha) (h3 hk)
          refine ⟨hr.1, hr.2.1, hr.2.2.1, ?_⟩
          intro g hg
          simp only [List.mem_append] at hg
          rcases hg with hg | hg
          · cases f? with
            | none => cases hg
            | some f0 =>
                rw [Option.toList_some, List.mem_singleton] at hg
                subst hg
                refine h4 g rfl ?_
                cases t.side <;> simp only [Book.opp]
                · exact ha
                · exact hb
          · exact hr.2.2.2 g hg

theorem keyFree_hasOrderId {m : List (Nat × Order)} {id : Nat}
    (h : keyFree m id) : hasOrderId m id = false := by
  unfold hasOrderId
  rw [List.any_eq_false]
  intro e he
  simpa using h e he

theorem stepFn_exitWhile_of_empty {b : Book} {t : Order} {rq : Int}
    (hopp : b.opp t.side = []) : stepFn b t rq = StepOut.exitWhile := by
  unfold stepFn
  by_cases hrq : rq ≤ 0
  · rw [if_pos hrq]
  · rw [if_neg hrq, hopp]

theorem matchLoop_of_exitWhile {n : Nat} {b : Book} {t : Order} {rq : Int}
    (hs : stepFn b t rq = StepOut.exitWhile) :
    matchLoop (n + 1) b t rq =
      { book := b, taker := t, rq := rq, fullyFilled := false,
        fills := [], completed := true } := by
  unfold matchLoop
  rw [hs]

/-- The post-processing shape of `matchOrder` on a valid order
(src/orderbook.cpp:198-215). -/
theorem matchOrder_some_eq (b : Book) (t : Order) (ht : t.isActive = true) :
    b.matchOrder (some t) =
      (let r := matchLoop b.fuelFor b t (t.quantity - t.filledQty)
       if r.fullyFilled || r.taker.filledQty ≥ r.taker.quantity then
         { book := r.book, order := some r.taker.deactivate, fills := r.fills,
           ok := true, completed := r.completed }
       else if r.taker.type == OrderType.LIMIT then
         { book := r.book.addOrderToBook r.taker, order := some r.taker,
           fills := r.fills, ok := true, completed := r.completed }
       else if r.taker.type == OrderType.MARKET then
         { book := r.book, order := some r.taker.deactivate, fills := r.fills,
           ok := true, completed := r.completed }
       else
         { book := r.book, order := some r.taker, fills := r.fills,
           ok := true, completed := r.completed }) := by
  simp [Book.matchOrder, ht]

/-! ## Claim C7 — MARKET orders are matched and discarded, never rested -/

/-- **C7**: a MARKET order submitted through `addOrder` is delegated to
the matching procedure and any remainder is discarded: the order's id
never appears on either side nor in the id index afterwards, and the call
returns `true` (once the matching loop has completed).  Against an empty
opposite side it emits no fills, leaves the book unchanged, deactivates
the order and still returns `true`. -/
theorem c7_market_discard (b : Book) (t : Order)
    (ht : t.isActive = true) (hm : t.type = OrderType.MARKET)
    (hb : sideFree b.bids t.id) (ha : sideFree b.asks t.id)
    (hk : keyFree b.ordersById t.id) :
    (b.addOrder (some t)).ok = true ∧
    sideFree (b.addOrder (some t)).book.bids t.id ∧
    sideFree (b.addOrder (some t)).book.asks t.id ∧
    keyFree (b.addOrder (some t)).book.ordersById t.id ∧
    (b.opp t.side = [] →
      (b.addOrder (some t)).fills = [] ∧ (b.addOrder (some t)).book = b ∧
      (b.addOrder (some t)).order = some t.deactivate ∧
      (b.addOrder (some t)).completed = true) := by
  have hdup : hasOrderId b.ordersById t.id = false := keyFree_hasOrderId hk
  have haddeq : b.addOrder (some t) = b.matchOrder (some t) := by
    simp [Book.addOrder, ht, hdup, hm]
  rw [haddeq, matchOrder_some_eq b t ht]
  have hfree := matchLoop_free b.fuelFor b t (t.quantity - t.filledQty) t.id hb ha hk
  have htk := matchLoop_taker b.fuelFor b t (t.quantity - t.filledQty)
  have htype : (matchLoop b.fuelFor b t (t.quantity - t.filledQty)).taker.type
      = OrderType.MARKET := by rw [htk.2.2.1, hm]
  have hLIM : ((matchLoop b.fuelFor b t (t.quantity - t.filledQty)).taker.type
      == OrderType.LIMIT) = false := by rw [htype]; rfl
  have hMKT : ((matchLoop b.fuelFor b t (t.quantity - t.filledQty)).taker.type
      == OrderType.MARKET) = true := by rw [htype]; rfl
  by_cases hcond : ((matchLoop b.fuelFor b t (t.quantity - t.filledQty)).fullyFilled
      || (matchLoop b.fuelFor b t (t.quantity - t.filledQty)).taker.filledQty
        ≥ (matchLoop b.fuelFor b t (t.quantity - t.filledQty)).taker.quantity) = true
  · simp only [hcond, if_true]
    refine ⟨by trivial, hfree.1, hfree.2.1, hfree.2.2.1, ?_⟩
    intro hopp
    have hstep := @stepFn_exitWhile_of_empty b t (t.quantity - t.filledQty) hopp
    have hrun := @matchLoop_of_exitWhile
      (b.bids.length + b.asks.length
        + (b.bids.map (fun L => L.orders.length)).sum
        + (b.asks.map (fun L => L.orders.length)).sum) b t
      (t.quantity - t.filledQty) hstep
    have : matchLoop b.fuelFor b t (t.quantity - t.filledQty)
        = { book := b, taker := t, rq := t.quantity - t.filledQty,
            fullyFilled := false, fills := [], completed := true } := hrun
    rw [this]
    simp
  · simp only [hcond, Bool.false_eq_true, if_false, hLIM, hMKT, if_true]
    refine ⟨by trivial, hfree.1, hfree.2.1, hfree.2.2.1, ?_⟩
    intro hopp
    have hstep := @stepFn_exitWhile_of_empty b t (t.quantity - t.filledQty) hopp
    have hrun := @matchLoop_of_exitWhile
      (b.bids.length + b.asks.length
        + (b.bids.map (fun L => L.orders.length)).sum
        + (b.asks.map (fun L => L.orders.length)).sum) b t
      (t.quantity - t.filledQty) hstep
    have : matchLoop b.fuelFor b t (t.quantity - t.filledQty)
        = { book := b, taker := t, rq := t.quantity - t.filledQty,
            fullyFilled := false, fills := [], completed := true } := hrun
    rw [this]
    simp

theorem c7_market_discard_witness :
    (let b := (Book.new "S").addOrderToBook
        { id := 1, side := Side.SELL, type := OrderType.LIMIT, symbol := "S",
          price := 10, quantity := 5 }
     let t : Order := { id := 6, side := Side.SELL, type := OrderType.MARKET,
                        symbol := "S", price := 0, quantity := 4 }
     (b.addOrder (some t)).ok = true ∧
     sideFree (b.addOrder (some t)).book.bids t.id ∧
     sideFree (b.addOrder (some t)).book.asks t.id ∧
     keyFree (b.addOrder (some t)).book.ordersById t.id ∧
     (b.opp t.side = [] →
       (b.addOrder (some t)).fills = [] ∧ (b.addOrder (some t)).book = b ∧
       (b.addOrder (some t)).order = some t.deactivate ∧
       (b.addOrder (some t)).completed = true)) := by
  intro b t
  exact c7_market_discard b t (by decide) (by decide) (by decide) (by decide) (by decide)

/-! ## Claim C5 — per-fill characterization of the matching loop -/

theorem matchLoop_fills_emitted (fuel : Nat) (b : Book) (t : Order) (rq : Int) :
    ∀ f ∈ (matchLoop fuel b t rq).fills,
      ∃ b' t' rq', MReach b t rq b' t' rq' ∧ EmitsAt b' t' rq' f := by
  induction fuel generalizing b t rq with
  | zero => intro f hf; cases hf
  | succ n ih =>
      unfold matchLoop
      cases hs : stepFn b t rq with
      | exitWhile => intro f hf; cases hf
      | exitStop => intro f hf; cases hf
      | exitFilled b' t' rq' f0 =>
          intro f hf
          rw [List.mem_singleton] at hf
          subst hf
          exact ⟨b, t, rq, MReach.refl b t rq, Or.inl ⟨b', t', rq', hs⟩⟩
      | cont b' t' rq' f? =>
          intro f hf
          simp only [List.mem_append] at hf
          rcases hf with hf | hf
          · cases f? with
            | none => cases hf
            | some f0 =>
                rw [Option.toList_some, List.mem_singleton] at hf
                subst hf
                exact ⟨b, t, rq, MReach.refl b t rq, Or.inr ⟨b', t', rq', hs⟩⟩
          · rcases ih b' t' rq' f hf with ⟨b3, t3, rq3, hr, he⟩
            exact ⟨b3, t3, rq3, MReach.step hs hr, he⟩

theorem emitsAt_spec {b : Book} {t : Order} {rq : Int} {f : Fill}
    (h : EmitsAt b t rq f) :
    0 < rq ∧ ∃ L rest m ms, b.opp t.side = L :: rest ∧ L.orders = m :: ms ∧
      (t.type == OrderType.LIMIT && priceStops t L.price) = false ∧
      f = { symbol := b.symbol, price := L.price,
            qty := min rq (m.quantity - m.filledQty),
            sign := sideSign t.side, makerId := m.id } := by
  rcases h with ⟨b', t', rq', h⟩ | ⟨b', t', rq', h⟩ <;> revert h
  · refine stepFn_elim b t rq
      (fun so => so = StepOut.exitFilled b' t' rq' f →
        0 < rq ∧ ∃ L rest m ms, b.opp t.side = L :: rest ∧ L.orders = m :: ms ∧
          (t.type == OrderType.LIMIT && priceStops t L.price) = false ∧
          f = { symbol := b.symbol, price := L.price,
                qty := min rq (m.quantity - m.filledQty),
                sign := sideSign t.side, makerId := m.id })
      ?_ ?_ ?_ ?_ ?_ ?_
    · exact fun _ h => StepOut.noConfusion h
    · exact fun _ _ h => StepOut.noConfusion h
    · exact fun L rest _ _ _ _ h => StepOut.noConfusion h
    · exact fun L rest _ _ _ _ h => StepOut.noConfusion h
    · intro L rest m ms hrq hopp hstop hord _ h
      injection h with h1 h2 h3 h4
      subst h4
      exact ⟨hrq, L, rest, m, ms, hopp, hord, hstop, rfl⟩
    · exact fun L rest m ms _ _ _ _ _ h => StepOut.noConfusion h
  · refine stepFn_elim b t rq
      (fun so => so = StepOut.cont b' t' rq' (some f) →
        0 < rq ∧ ∃ L rest m ms, b.opp t.side = L :: rest ∧ L.orders = m :: ms ∧
          (t.type == OrderType.LIMIT && priceStops t L.price) = false ∧
          f = { symbol := b.symbol, price := L.price,
                qty := min rq (m.quantity - m.filledQty),
                sign := sideSign t.side, makerId := m.id })
      ?_ ?_ ?_ ?_ ?_ ?_
    · exact fun _ h => StepOut.noConfusion h
    · exact fun _ _ h => StepOut.noConfusion h
    · exact fun L rest _ _ _ _ h => StepOut.noConfusion h
    · intro L rest _ _ _ _ h
      injection h with h1 h2 h3 h4
      exact Option.noConfusion h4
    · exact fun L rest m ms _ _ _ _ _ h => StepOut.noConfusion h
    · intro L rest m ms hrq hopp hstop hord _ h
      injection h with h1 h2 h3 h4
      injection h4 with h4
      subst h4
      exact ⟨hrq, L, rest, m, ms, hopp, hord, hstop, rfl⟩

theorem mreach_taker {b : Book} {t : Order} {rq : Int} {b' : Book} {t' : Order}
    {rq' : Int} (h : MReach b t rq b' t' rq') :
    t'.id = t.id ∧ t'.side = t.side ∧ t'.type = t.type ∧ t'.price = t.price ∧
    t'.quantity = t.quantity ∧ b'.symbol = b.symbol ∧
    t'.filledQty - t.filledQty = rq - rq' := by
  induction h with
  | refl b t rq => exact ⟨rfl, rfl, rfl, rfl, rfl, rfl, by ring⟩
  | step hstep hr ih =>
      obtain ⟨hshrink, hcase⟩ := stepFn_cont_inv hstep
      rcases hcase with ⟨ht2, hrq2⟩ | ⟨q, ht2, hrq2⟩ <;> subst ht2 hrq2
      · exact ⟨ih.1, ih.2.1, ih.2.2.1, ih.2.2.2.1, ih.2.2.2.2.1,
          ih.2.2.2.2.2.1.trans hshrink.1, ih.2.2.2.2.2.2⟩
      · refine ⟨ih.1, ih.2.1, ih.2.2.1, ih.2.2.2.1, ih.2.2.2.2.1,
          ih.2.2.2.2.2.1.trans hshrink.1, ?_⟩
        have h7 := ih.2.2.2.2.2.2
        simp only [Order.fillQuantity] at h7
        omega

theorem matchOrder_fills (b : Book) (t : Order) (ht : t.isActive = true) :
    (b.matchOrder (some t)).fills
      = (matchLoop b.fuelFor b t (t.quantity - t.filledQty)).fills := by
  rw [matchOrder_some_eq b t ht]
  dsimp only
  split
  · rfl
  · split
    · rfl
    · split <;> rfl

/-- **C5**: every fill emitted during a match arises at some loop state
`(b', t', rq')` reachable from the start, where the opposite side's best
level `L` (the head of the price map) has front (oldest) order `m`, and
the fill carries exactly `qty = min(taker remaining, m remaining)`,
`price = L.price`, the taker's side sign (+1 BUY, −1 SELL) and `m`'s id;
for a LIMIT taker the level passed the acceptability test, so the
execution price is never worse than the taker's limit. -/
theorem c5_fill_characterization (b : Book) (t : Order) (f : Fill)
    (ht : t.isActive = true) (hf : f ∈ (b.matchOrder (some t)).fills) :
    ∃ b' t' rq' L rest m ms,
      MReach b t (t.quantity - t.filledQty) b' t' rq' ∧
      rq' = t'.quantity - t'.filledQty ∧
      b'.opp t.side = L :: rest ∧
      L.orders = m :: ms ∧
      f.symbol = b.symbol ∧
      f.price = L.price ∧
      f.qty = min (t'.quantity - t'.filledQty) (m.quantity - m.filledQty) ∧
      f.sign = sideSign t.side ∧
      f.makerId = m.id ∧
      (t.type = OrderType.LIMIT → priceStops t' L.price = false) ∧
      (t.type = OrderType.LIMIT →
        (t.side = Side.BUY → f.price ≤ t.price) ∧
        (t.side = Side.SELL → t.price ≤ f.price)) := by
  rw [matchOrder_fills b t ht] at hf
  rcases matchLoop_fills_emitted _ _ _ _ f hf with ⟨b', t', rq', hr, he⟩
  obtain ⟨hrq, L, rest, m, ms, hopp, hord, hstop, hfeq⟩ := emitsAt_spec he
  obtain ⟨hid, hside, htype, hprice, hqty, hsym, hfill⟩ := mreach_taker hr
  have hrem : rq' = t'.quantity - t'.filledQty := by omega
  have hstop2 : t.type = OrderType.LIMIT → priceStops t' L.price = false := by
    intro hlim
    have hbeq : (t'.type == OrderType.LIMIT) = true := by
      rw [htype, hlim]; rfl
    rw [hbeq, Bool.true_and] at hstop
    exact hstop
  refine ⟨b', t', rq', L, rest, m, ms, hr, hrem, ?_, hord, ?_, ?_, ?_, ?_, ?_,
    hstop2, ?_⟩
  · rw [← hside]; exact hopp
  · rw [hfeq]; exact hsym
  · rw [hfeq]
  · rw [hfeq]; simp only; rw [hrem]
  · rw [hfeq]; simp only; rw [hside]
  · rw [hfeq]
  · intro hlim
    have hps := hstop2 hlim
    have hpf : f.price = L.price := by rw [hfeq]
    constructor
    · intro hbuy
      have hsb : t'.side = Side.BUY := by rw [hside, hbuy]
      unfold priceStops at hps
      rw [hsb] at hps
      simp only [decide_eq_false_iff_not, not_lt] at hps
      rw [hpf, ← hprice]
      exact hps
    · intro hsell
      have hsb : t'.side = Side.SELL := by rw [hside, hsell]
      unfold priceStops at hps
      rw [hsb] at hps
      simp only [decide_eq_false_iff_not, not_lt] at hps
      rw [hpf, ← hprice]
      exact hps

theorem c5_fill_characterization_witness :
    (let b := (Book.new "S").addOrderToBook
        { id := 1, side := Side.SELL, type := OrderType.LIMIT, symbol := "S",
          price := 10, quantity := 5 }
     let t : Order := { id := 2, side := Side.BUY, type := OrderType.LIMIT,
                        symbol := "S", price := 10, quantity := 3 }
     let f : Fill := { symbol := "S", price := 10, qty := 3, sign := 1, makerId := 1 }
     ∃ b' t' rq' L rest m ms,
       MReach b t (t.quantity - t.filledQty) b' t' rq' ∧
       rq' = t'.quantity - t'.filledQty ∧
       b'.opp t.side = L :: rest ∧
       L.orders = m :: ms ∧
       f.symbol = b.symbol ∧
       f.price = L.price ∧
       f.qty = min (t'.quantity - t'.filledQty) (m.quantity - m.filledQty) ∧
       f.sign = sideSign t.side ∧
       f.makerId = m.id ∧
       (t.type = OrderType.LIMIT → priceStops t' L.price = false) ∧
       (t.type = OrderType.LIMIT →
         (t.side = Side.BUY → f.price ≤ t.price) ∧
         (t.side = Side.SELL → t.price ≤ f.price))) := by
  intro b t f
  exact c5_fill_characterization b t f (by decide) (by decide)

/-! ## Claim C3 (amended) — cancel and matching preserve uncrossedness -/

theorem uncrossed_of_shrink {b b' : Book} (h : PriceShrink b b')
    (hu : Uncrossed b) : Uncrossed b' :=
  fun pb hpb pa hpa => hu pb (h.2.1.subset hpb) pa (h.2.2.subset hpa)

theorem cancelOrder_shrink (b : Book) (id : Nat) :
    PriceShrink b (b.cancelOrder id).book := by
  unfold Book.cancelOrder
  cases h : lookupOrder b.ordersById id with
  | none => exact priceShrink_refl _
  | some o =>
      exact priceShrink_trans (updateOrderCopies_shrink b o.deactivate)
        (removeOrderFromBook_shrink _ _)

theorem addToSide_prices_mem (hf : Bool) (side : List Limit) (o : Order) :
    ∀ p ∈ pricesOf (addToSide hf side o), p = o.price ∨ p ∈ pricesOf side := by
  induction side with
  | nil =>
      intro p hp
      left
      simpa [addToSide, pricesOf, Limit.addOrder, Limit.new] using hp
  | cons L rest ih =>
      intro p hp
      simp only [pricesOf, List.map_cons, List.mem_cons]
      simp only [addToSide] at hp
      by_cases hL : (L.price == o.price) = true
      · rw [if_pos hL] at hp
        have hLo : L.price = o.price := by simpa using hL
        simp only [pricesOf, List.map_cons, List.mem_cons, Limit.addOrder] at hp
        rcases hp with hp | hp
        · exact Or.inl (hp.trans hLo)
        · exact Or.inr (Or.inr hp)
      · have hLf : (L.price == o.price) = false := by
          simpa using hL
        simp only [hLf, Bool.false_eq_true, if_false] at hp
        by_cases hins : (if hf then o.price > L.price else o.price < L.price)
        · rw [if_pos hins] at hp
          simp only [pricesOf, List.map_cons, List.mem_cons, Limit.addOrder,
            Limit.new] at hp
          rcases hp with hp | hp | hp
          · exact Or.inl hp
          · exact Or.inr (Or.inl hp)
          · exact Or.inr (Or.inr hp)
        · rw [if_neg hins] at hp
          simp only [pricesOf, List.map_cons, List.mem_cons] at hp
          rcases hp with hp | hp
          · exact Or.inr (Or.inl hp)
          · rcases ih p (by simpa [pricesOf] using hp) with h | h
            · exact Or.inl h
            · exact Or.inr (Or.inr (by simpa [pricesOf] using h))

/-- **C3** (amended): from an uncrossed book whose sides are price-sorted
(asks ascending, bids descending — the `std::map` iteration orders), every
`cancelOrder` and every completed `matchOrder` cycle leaves the book
uncrossed: every bid price stays strictly below every ask price.
(`addOrder` does *not* preserve the property — see the counterexample:
it rests LIMIT orders without matching.) -/
theorem c3_amended_uncrossed_preserved (b : Book)
    (hsa : List.Pairwise (fun a c => a < c) (pricesOf b.asks))
    (hsb : List.Pairwise (fun a c => a > c) (pricesOf b.bids))
    (hu : Uncrossed b) :
    (∀ id, Uncrossed (b.cancelOrder id).book) ∧
    (∀ o?, (b.matchOrder o?).completed = true → Uncrossed (b.matchOrder o?).book) := by
  constructor
  · intro id
    exact uncrossed_of_shrink (cancelOrder_shrink b id) hu
  · intro o? hc
    cases o? with
    | none => exact hu
    | some o =>
        by_cases hact : o.isActive = true
        · rw [matchOrder_some_eq b o hact] at hc ⊢
          dsimp only at hc ⊢
          set r := matchLoop b.fuelFor b o (o.quantity - o.filledQty) with hrdef
          have hshr : PriceShrink b r.book := by
            rw [hrdef]; exact matchLoop_shrink _ _ _ _
          have hu' : Uncrossed r.book := uncrossed_of_shrink hshr hu
          by_cases hcond :
              (r.fullyFilled || decide (r.taker.filledQty ≥ r.taker.quantity)) = true
          · simpa [hcond] using hu'
          · have hcondf :
                (r.fullyFilled || decide (r.taker.filledQty ≥ r.taker.quantity)) = false :=
              by simpa using hcond
            simp only [hcondf, Bool.false_eq_true, if_false] at hc ⊢
            by_cases hlim : (r.taker.type == OrderType.LIMIT) = true
            · simp only [hlim, if_true] at hc ⊢
              -- the taker rests: analyze why the loop stopped
              have htk := matchLoop_taker b.fuelFor b o (o.quantity - o.filledQty)
              rw [← hrdef] at htk
              obtain ⟨-, hside, htype, hprice, hqty, -, hfq⟩ := htk
              have hor := Bool.or_eq_false_iff.mp hcondf
              have hlt : r.taker.filledQty < r.taker.quantity := by
                have := hor.2
                simp only [decide_eq_false_iff_not, not_le] at this
                exact this
              have hrq : 0 < r.rq := by omega
              have hexit := matchLoop_exit b.fuelFor b o (o.quantity - o.filledQty)
              rw [← hrdef] at hexit
              have hexit2 := hexit hc hor.1
              have hsa' : List.Pairwise (fun a c => a < c) (pricesOf r.book.asks) :=
                List.Pairwise.sublist hshr.2.2 hsa
              have hsb' : List.Pairwise (fun a c => a > c) (pricesOf r.book.bids) :=
                List.Pairwise.sublist hshr.2.1 hsb
              rcases hexit2 with hle | hopp | ⟨-, L, rest, hopp, hstop⟩
              · omega
              · -- opposite side exhausted
                cases hsideo : o.side
                · rw [hsideo] at hopp
                  simp only [Book.opp] at hopp
                  have hts : r.taker.side = Side.BUY := by rw [hside, hsideo]
                  simp only [Book.addOrderToBook, hts]
                  intro pb hpb pa hpa
                  rw [hopp] at hpa
                  cases hpa
                · rw [hsideo] at hopp
                  simp only [Book.opp] at hopp
                  have hts : r.taker.side = Side.SELL := by rw [hside, hsideo]
                  simp only [Book.addOrderToBook, hts]
                  intro pb hpb pa hpa
                  rw [hopp] at hpb
                  cases hpb
              · -- best surviving level is unacceptable for the taker
                cases hsideo : o.side
                · rw [hsideo] at hopp
                  simp only [Book.opp] at hopp
                  have hts : r.taker.side = Side.BUY := by rw [hside, hsideo]
                  have hops : o.price < L.price := by
                    unfold priceStops at hstop
                    rw [hsideo] at hstop
                    simpa using hstop
                  simp only [Book.addOrderToBook, hts]
                  intro pb hpb pa hpa
                  rcases addToSide_prices_mem true r.book.bids r.taker pb hpb with
                    hpb' | hpb'
                  · rw [hpb', hprice]
                    rw [hopp] at hpa hsa'
                    simp only [pricesOf, List.map_cons] at hpa hsa'
                    rcases List.mem_cons.mp hpa with hpa' | hpa'
                    · rw [hpa']; exact hops
                    · have hL := (List.pairwise_cons.mp hsa').1 pa hpa'
                      exact hops.trans hL
                  · exact hu' pb hpb' pa hpa
                · rw [hsideo] at hopp
                  simp only [Book.opp] at hopp
                  have hts : r.taker.side = Side.SELL := by rw [hside, hsideo]
                  have hops : L.price < o.price := by
                    unfold priceStops at hstop
                    rw [hsideo] at hstop
                    simpa using hstop
                  simp only [Book.addOrderToBook, hts]
                  intro pb hpb pa hpa
                  rcases addToSide_prices_mem false r.book.asks r.taker pa hpa with
                    hpa' | hpa'
                  · rw [hpa', hprice]
                    rw [hopp] at hpb hsb'
                    simp only [pricesOf, List.map_cons] at hpb hsb'
                    rcases List.mem_cons.mp hpb with hpb' | hpb'
                    · rw [hpb']; exact hops
                    · have hL := (List.pairwise_cons.mp hsb').1 pb hpb'
                      exact hL.trans hops
                  · exact hu' pb hpb pa hpa'
            · have hlimf : (r.taker.type == OrderType.LIMIT) = false := by
                simpa using hlim
              simp only [hlimf, Bool.false_eq_true, if_false] at hc ⊢
              by_cases hmkt : (r.taker.type == OrderType.MARKET) = true
              · simpa [hmkt] using hu'
              · have hmktf : (r.taker.type == OrderType.MARKET) = false := by
                  simpa using hmkt
                simpa [hmktf] using hu'
        · have hactf : o.isActive = false := by
            simpa using hact
          have : b.matchOrder (some o)
              = { book := b, order := some o, fills := [], ok := false,
                  completed := true } := by
            simp [Book.matchOrder, hactf]
          rw [this]
          exact hu

theorem c3_amended_uncrossed_preserved_witness :
    (let b := ((Book.new "S").addOrderToBook
        { id := 1, side := Side.BUY, type := OrderType.LIMIT, symbol := "S",
          price := 9, quantity := 2 }).addOrderToBook
        { id := 2, side := Side.SELL, type := OrderType.LIMIT, symbol := "S",
          price := 11, quantity := 2 }
     Uncrossed (b.cancelOrder 1).book ∧
     Uncrossed (b.matchOrder (some
        { id := 3, side := Side.BUY, type := OrderType.LIMIT, symbol := "S",
          price := 12, quantity := 1 })).book) := by
  intro b
  have h := c3_amended_uncrossed_preserved b (by decide) (by decide) (by decide)
  exact ⟨h.1 1, h.2 (some
    { id := 3, side := Side.BUY, type := OrderType.LIMIT, symbol := "S",
      price := 12, quantity := 1 }) (by decide)⟩

/-! ## Claim C6 — cancellation semantics -/

theorem eraseFirst_append {α : Type} (p : α → Bool) (u v : List α) (y : α)
    (hu : ∀ x ∈ u, p x = false) (hy : p y = true) :
    eraseFirst p (u ++ y :: v) = u ++ v := by
  induction u with
  | nil => simp [eraseFirst, hy]
  | cons x xs ih =>
      have hx : p x = false := hu x (List.mem_cons_self x xs)
      simp only [List.cons_append, eraseFirst, hx, Bool.false_eq_true, if_false,
        List.cons.injEq, true_and]
      exact ih (fun z hz => hu z (List.mem_cons_of_mem x hz))

theorem eraseFirst_filter_zero {α : Type} (p : α → Bool) (l : List α)
    (h : (l.filter p).length = 1) : ((eraseFirst p l).filter p).length = 0 := by
  induction l with
  | nil => simp at h
  | cons x xs ih =>
      by_cases hx : p x = true
      · simp only [eraseFirst, hx, if_true]
        simp only [List.filter_cons, hx, if_true, List.length_cons] at h
        omega
      · have hxf : p x = false := Bool.eq_false_iff.mpr hx
        simp only [eraseFirst, hxf, Bool.false_eq_true, if_false, List.filter_cons]
        simp only [List.filter_cons, hxf, Bool.false_eq_true, if_false] at h
        simpa [hxf] using ih h

theorem eraseFirst_length {α : Type} (p : α → Bool) (l : List α)
    (h : l.any p = true) : (eraseFirst p l).length + 1 = l.length := by
  induction l with
  | nil => simp at h
  | cons x xs ih =>
      by_cases hx : p x = true
      · simp [eraseFirst, hx]
      · have hxf : p x = false := Bool.eq_false_iff.mpr hx
        simp only [List.any_cons, hxf, Bool.false_or] at h
        simp only [eraseFirst, hxf, Bool.false_eq_true, if_false, List.length_cons]
        rw [← ih h]

theorem findLimit_decomp {ls : List Limit} {p : Int} {L : Limit}
    (h : findLimit ls p = some L) :
    ∃ u v, ls = u ++ L :: v ∧ ∀ M ∈ u, (M.price == p) = false := by
  induction ls with
  | nil => cases h
  | cons N rest ih =>
      unfold findLimit at h
      rw [List.find?_cons] at h
      by_cases hN : (N.price == p) = true
      · rw [hN] at h
        injection h with h
        exact ⟨[], rest, by rw [h]; rfl, by intro M hM; cases hM⟩
      · have hNf : (N.price == p) = false := Bool.eq_false_iff.mpr hN
        rw [hNf] at h
        rcases ih h with ⟨u, v, hdec, hu⟩
        refine ⟨N :: u, v, by rw [hdec]; rfl, ?_⟩
        intro M hM
        rcases List.mem_cons.mp hM with hM | hM
        · rw [hM]; exact hNf
        · exact hu M hM

theorem findLimit_append_none {u : List Limit} {p : Int}
    (hu : ∀ M ∈ u, (M.price == p) = false) (rest : List Limit) :
    findLimit (u ++ rest) p = findLimit rest p := by
  induction u with
  | nil => rfl
  | cons N ns ih =>
      unfold findLimit at ih ⊢
      rw [List.cons_append, List.find?_cons, hu N (List.mem_cons_self N ns)]
      exact ih (fun M hM => hu M (List.mem_cons_of_mem N hM))

theorem countL_eq_zero_free {L : Limit} {id : Nat}
    (h : countL L id = 0) : ∀ x ∈ L.orders, x.id ≠ id := by
  intro x hx
  unfold countL at h
  rw [List.length_eq_zero] at h
  intro hid
  have : x ∈ L.orders.filter (fun o => o.id == id) :=
    List.mem_filter.mpr ⟨hx, by simp [hid]⟩
  rw [h] at this
  cases this

theorem countSide_append (u v : List Limit) (id : Nat) :
    countSide (u ++ v) id = countSide u id + countSide v id := by
  unfold countSide
  rw [List.map_append, List.sum_append]

theorem countSide_cons (L : Limit) (v : List Limit) (id : Nat) :
    countSide (L :: v) id = countL L id + countSide v id := by
  unfold countSide
  rw [List.map_cons, List.sum_cons]

theorem countSide_eq_zero_free {ls : List Limit} {id : Nat}
    (h : countSide ls id = 0) : sideFree ls id := by
  intro M hM x hx
  induction ls with
  | nil => cases hM
  | cons N ns ih =>
      rw [countSide_cons] at h
      rcases List.mem_cons.mp hM with hM | hM
      · subst hM
        exact countL_eq_zero_free (by omega) x hx
      · exact ih (by omega) hM

theorem updateCopies_keeps_id (x o' : Order) :
    (if x.id == o'.id then o' else x).id = x.id := by
  by_cases hx : (x.id == o'.id) = true
  · have hxe : x.id = o'.id := by simpa using hx
    simp [hx, hxe]
  · simp [Bool.eq_false_iff.mpr hx]

theorem updateCopies_ids (L : Limit) (o' : Order) (k : Nat) :
    (L.updateCopies o').orders.any (fun x => x.id == k)
      = L.orders.any (fun x => x.id == k) := by
  unfold Limit.updateCopies
  simp only
  induction L.orders with
  | nil => rfl
  | cons x xs ih =>
      simp only [List.map_cons, List.any_cons, ih]
      rw [updateCopies_keeps_id x o']

theorem countL_updateCopies (L : Limit) (o' : Order) (k : Nat) :
    countL (L.updateCopies o') k = countL L k := by
  unfold countL Limit.updateCopies
  simp only
  induction L.orders with
  | nil => rfl
  | cons x xs ih =>
      simp only [List.map_cons, List.filter_cons, updateCopies_keeps_id x o']
      by_cases hx : (x.id == k) = true
      · simp only [hx, if_true, List.length_cons, ih]
      · simp only [Bool.eq_false_iff.mpr hx, Bool.false_eq_true, if_false, ih]

theorem updateEntry_keeps_key (e : Nat × Order) (o' : Order) :
    (if e.1 == o'.id then (e.1, o') else e).1 = e.1 := by
  by_cases hx : (e.1 == o'.id) = true
  · simp [hx]
  · simp [Bool.eq_false_iff.mpr hx]

theorem keyCount_map_update (m : List (Nat × Order)) (o' : Order) (id : Nat) :
    keyCount (m.map (fun e => if e.1 == o'.id then (e.1, o') else e)) id
      = keyCount m id := by
  unfold keyCount
  induction m with
  | nil => rfl
  | cons e es ih =>
      simp only [List.map_cons, List.filter_cons, updateEntry_keeps_key e o']
      by_cases he : (e.1 == id) = true
      · simp only [he, if_true, List.length_cons, ih]
      · simp only [Bool.eq_false_iff.mpr he, Bool.false_eq_true, if_false, ih]

theorem hasOrderId_map_update (m : List (Nat × Order)) (o' : Order) (k : Nat) :
    hasOrderId (m.map (fun e => if e.1 == o'.id then (e.1, o') else e)) k
      = hasOrderId m k := by
  unfold hasOrderId
  induction m with
  | nil => rfl
  | cons e es ih =>
      simp only [List.map_cons, List.any_cons, ih, updateEntry_keeps_key e o']

theorem lookup_some_hasOrderId {m : List (Nat × Order)} {id : Nat} {o : Order}
    (h : lookupOrder m id = some o) : hasOrderId m id = true := by
  unfold lookupOrder at h
  unfold hasOrderId
  cases hf : m.find? (fun e => e.1 == id) with
  | none => rw [hf] at h; cases h
  | some e =>
      rw [List.any_eq_true]
      have hpe := List.find?_some hf
      exact ⟨e, List.mem_of_find?_eq_some hf, hpe⟩

theorem filter_zero_lookup_none {m : List (Nat × Order)} {id : Nat}
    (h : keyCount m id = 0) : lookupOrder m id = none := by
  unfold keyCount at h
  rw [List.length_eq_zero] at h
  unfold lookupOrder
  rw [List.find?_eq_none.mpr]
  · rfl
  · intro e he hbeq
    have : e ∈ m.filter (fun e => e.1 == id) := List.mem_filter.mpr ⟨he, hbeq⟩
    rw [h] at this
    cases this

theorem countL_pos_any {L : Limit} {k : Nat} (h : 0 < countL L k) :
    L.orders.any (fun x => x.id == k) = true := by
  unfold countL at h
  rcases List.exists_mem_of_length_pos h with ⟨x, hx⟩
  rcases List.mem_filter.mp hx with ⟨hmem, hid⟩
  rw [List.any_eq_true]
  exact ⟨x, hmem, hid⟩

theorem findLimit_map_updateCopies (ls : List Limit) (o' : Order) (p : Int) :
    findLimit (ls.map (fun M => M.updateCopies o')) p
      = Option.map (fun M => M.updateCopies o') (findLimit ls p) := by
  unfold findLimit
  induction ls with
  | nil => rfl
  | cons M ms ih =>
      simp only [List.map_cons, List.find?_cons]
      have hp : (M.updateCopies o').price = M.price := rfl
      rw [hp]
      by_cases hM : (M.price == p) = true
      · simp [hM]
      · simp only [Bool.eq_false_iff.mpr hM, Bool.false_eq_true]
        exact ih

theorem countSide_map_updateCopies (ls : List Limit) (o' : Order) (k : Nat) :
    countSide (ls.map (fun M => M.updateCopies o')) k = countSide ls k := by
  unfold countSide
  rw [List.map_map]
  congr 1
  induction ls with
  | nil => rfl
  | cons M ms ih =>
      simp only [List.map_cons, List.cons.injEq]
      exact ⟨countL_updateCopies M o' k, ih⟩

theorem replaceLimit_decomp (u v : List Limit) (M : Limit) (p : Int) (L1 : Limit)
    (hu : ∀ N ∈ u, (N.price == p) = false) (hM : (M.price == p) = true)
    (hv : ∀ N ∈ v, (N.price == p) = false) :
    replaceLimit (u ++ M :: v) p L1 = u ++ L1 :: v := by
  unfold replaceLimit
  rw [List.map_append, List.map_cons, hM]
  have hred : (if (true = true) then L1 else M) = L1 := rfl
  rw [hred]
  congr 1
  · conv_rhs => rw [← List.map_id u]
    refine List.map_congr_left (fun N hN => ?_)
    rw [hu N hN]
    simp
  · congr 1
    conv_rhs => rw [← List.map_id v]
    refine List.map_congr_left (fun N hN => ?_)
    rw [hv N hN]
    simp

theorem findLimit_none_of_all {ls : List Limit} {p : Int}
    (h : ∀ M ∈ ls, (M.price == p) = false) : findLimit ls p = none := by
  unfold findLimit
  rw [List.find?_eq_none]
  intro M hM hbeq
  rw [h M hM] at hbeq
  cases hbeq

theorem removeOrder_orders_of_any {L : Limit} {o : Order}
    (h : L.orders.any (fun x => x.id == o.id) = true) :
    (L.removeOrder (some o)).orders = eraseFirst (fun x => x.id == o.id) L.orders := by
  unfold Limit.removeOrder
  dsimp only
  rw [h]
  by_cases h2 : o.quantity - o.filledQty > 0 <;> simp [h2]

/-- List-level effect of cancelling order `o` on the side that holds it:
after the pointer-deactivation pass, the level at `o.price` is found, the
order is erased from it, and the level is dropped exactly when `o` was its
only order.  Assumes the book-side invariants of a reachable book: the
order is the unique carrier of its id on the side, its level holds it
exactly once, and level prices are distinct. -/
theorem side_removal_spec (ls : List Limit) (o : Order) (L : Limit)
    (hL : findLimit ls o.price = some L) (hcl : countL L o.id = 1)
    (hcs : countSide ls o.id = 1) (hnd : (pricesOf ls).Nodup) :
    findLimit (ls.map (fun M => M.updateCopies o.deactivate)) o.price
      = some (L.updateCopies o.deactivate) ∧
    ((L.updateCopies o.deactivate).orders.any (fun x => x.id == o.id)) = true ∧
    ((L.updateCopies o.deactivate).removeOrder (some o.deactivate)).orders.length + 1
      = L.orders.length ∧
    countL ((L.updateCopies o.deactivate).removeOrder (some o.deactivate)) o.id = 0 ∧
    ((L.updateCopies o.deactivate).removeOrder (some o.deactivate)).price = o.price ∧
    (findLimit
        (eraseLimit (ls.map (fun M => M.updateCopies o.deactivate)) o.price)
        o.price = none ∧
     sideFree (eraseLimit (ls.map (fun M => M.updateCopies o.deactivate)) o.price) o.id) ∧
    (findLimit
        (replaceLimit (ls.map (fun M => M.updateCopies o.deactivate)) o.price
          ((L.updateCopies o.deactivate).removeOrder (some o.deactivate)))
        o.price
        = some ((L.updateCopies o.deactivate).removeOrder (some o.deactivate)) ∧
     sideFree
        (replaceLimit (ls.map (fun M => M.updateCopies o.deactivate)) o.price
          ((L.updateCopies o.deactivate).removeOrder (some o.deactivate))) o.id) := by
  have hdid : (o.deactivate).id = o.id := rfl
  obtain ⟨u, v, hdec, hu⟩ := findLimit_decomp hL
  have hLp : L.price = o.price := findLimit_price hL
  have hv : ∀ M ∈ v, (M.price == o.price) = false := by
    intro M hM
    have hnd' := hnd
    rw [hdec] at hnd'
    unfold pricesOf at hnd'
    rw [List.map_append, List.map_cons] at hnd'
    have h2 := hnd'.of_append_right
    have h3 := (List.nodup_cons.mp h2).1
    have : M.price ≠ o.price := by
      intro hMp
      exact h3 (by rw [hLp, ← hMp]; exact List.mem_map_of_mem _ hM)
    simpa using this
  have hcounts : countSide u o.id = 0 ∧ countSide v o.id = 0 := by
    rw [hdec, countSide_append, countSide_cons, hcl] at hcs
    omega
  have hany : ((L.updateCopies o.deactivate).orders.any (fun x => x.id == o.id)) = true := by
    rw [updateCopies_ids]
    exact countL_pos_any (by omega)
  have hanyd : ((L.updateCopies o.deactivate).orders.any
      (fun x => x.id == (o.deactivate).id)) = true := hany
  have hLuOrd : ((L.updateCopies o.deactivate).removeOrder (some o.deactivate)).orders
      = eraseFirst (fun x => x.id == o.id) (L.updateCopies o.deactivate).orders :=
    removeOrder_orders_of_any hany
  have hcntLu : countL (L.updateCopies o.deactivate) o.id = 1 := by
    rw [countL_updateCopies]; exact hcl
  have hlen : ((L.updateCopies o.deactivate).removeOrder (some o.deactivate)).orders.length + 1
      = L.orders.length := by
    rw [hLuOrd, eraseFirst_length _ _ hany]
    show (L.updateCopies o.deactivate).orders.length = L.orders.length
    unfold Limit.updateCopies
    exact List.length_map _ _
  have hcnt0 : countL ((L.updateCopies o.deactivate).removeOrder (some o.deactivate)) o.id = 0 := by
    unfold countL
    rw [hLuOrd]
    exact eraseFirst_filter_zero _ _ hcntLu
  have hLup : (L.updateCopies o.deactivate).price = L.price := rfl
  have hL1p : ((L.updateCopies o.deactivate).removeOrder (some o.deactivate)).price = o.price := by
    rw [removeOrder_price, hLup, hLp]
  have hfind1 : findLimit (ls.map (fun M => M.updateCopies o.deactivate)) o.price
      = some (L.updateCopies o.deactivate) := by
    rw [findLimit_map_updateCopies, hL]
    rfl
  have humap : ∀ M ∈ u.map (fun M => M.updateCopies o.deactivate),
      (M.price == o.price) = false := by
    intro M hM
    rcases List.mem_map.mp hM with ⟨N, hN, rfl⟩
    exact hu N hN
  have hvmap : ∀ M ∈ v.map (fun M => M.updateCopies o.deactivate),
      (M.price == o.price) = false := by
    intro M hM
    rcases List.mem_map.mp hM with ⟨N, hN, rfl⟩
    exact hv N hN
  have hLubeq : ((L.updateCopies o.deactivate).price == o.price) = true := by
    rw [hLup, hLp]
    exact beq_self_eq_true o.price
  have hmapdec : ls.map (fun M => M.updateCopies o.deactivate)
      = u.map (fun M => M.updateCopies o.deactivate)
        ++ (L.updateCopies o.deactivate) :: v.map (fun M => M.updateCopies o.deactivate) := by
    rw [hdec, List.map_append, List.map_cons]
  have herase : eraseLimit (ls.map (fun M => M.updateCopies o.deactivate)) o.price
      = u.map (fun M => M.updateCopies o.deactivate)
        ++ v.map (fun M => M.updateCopies o.deactivate) := by
    rw [hmapdec]
    exact eraseFirst_append _ _ _ _ humap hLubeq
  have hcsu : countSide (u.map (fun M => M.updateCopies o.deactivate)) o.id = 0 := by
    rw [countSide_map_updateCopies]; exact hcounts.1
  have hcsv : countSide (v.map (fun M => M.updateCopies o.deactivate)) o.id = 0 := by
    rw [countSide_map_updateCopies]; exact hcounts.2
  refine ⟨hfind1, hany, hlen, hcnt0, hL1p, ⟨?_, ?_⟩, ⟨?_, ?_⟩⟩
  · rw [herase]
    refine findLimit_none_of_all ?_
    intro M hM
    rcases List.mem_append.mp hM with hM | hM
    · exact humap M hM
    · exact hvmap M hM
  · rw [herase]
    refine countSide_eq_zero_free ?_
    rw [countSide_append, hcsu, hcsv]
  · rw [hmapdec, replaceLimit_decomp _ _ _ _ _ humap hLubeq hvmap]
    rw [findLimit_append_none humap]
    unfold findLimit
    rw [List.find?_cons]
    rw [show (((L.updateCopies o.deactivate).removeOrder (some o.deactivate)).price == o.price) = true from by rw [hL1p]; exact beq_self_eq_true o.price]
  · rw [hmapdec, replaceLimit_decomp _ _ _ _ _ humap hLubeq hvmap]
    refine countSide_eq_zero_free ?_
    rw [countSide_append, countSide_cons, hcsu, hcsv, hcnt0]

theorem isEmptyLevel_true_of {L : Limit} (h : L.orders.length = 0) :
    L.isEmptyLevel = true := by
  unfold Limit.isEmptyLevel
  rw [List.length_eq_zero] at h
  rw [h]
  rfl

theorem isEmptyLevel_false_of {L : Limit} (h : L.orders.length ≠ 0) :
    L.isEmptyLevel = false := by
  unfold Limit.isEmptyLevel
  cases horders : L.orders with
  | nil => rw [horders] at h; simp at h
  | cons x xs => rfl


theorem removeOrderFromBook_buy (b1 : Book) (o' : Order) (Lf : Limit)
    (hside : o'.side = Side.BUY)
    (hhas : hasOrderId b1.ordersById o'.id = true)
    (hfind : findLimit b1.bids o'.price = some Lf) :
    b1.removeOrderFromBook o' =
      (if (Lf.removeOrder (some o')).isEmptyLevel then
        ({ b1 with bids := eraseLimit b1.bids o'.price, ordersById := eraseOrderId b1.ordersById o'.id }, true)
      else
        ({ b1 with bids := replaceLimit b1.bids o'.price (Lf.removeOrder (some o')), ordersById := eraseOrderId b1.ordersById o'.id }, true)) := by
  unfold Book.removeOrderFromBook
  rw [if_pos hhas, hside]
  dsimp only
  rw [hfind]

theorem removeOrderFromBook_sell (b1 : Book) (o' : Order) (Lf : Limit)
    (hside : o'.side = Side.SELL)
    (hhas : hasOrderId b1.ordersById o'.id = true)
    (hfind : findLimit b1.asks o'.price = some Lf) :
    b1.removeOrderFromBook o' =
      (if (Lf.removeOrder (some o')).isEmptyLevel then
        ({ b1 with asks := eraseLimit b1.asks o'.price, ordersById := eraseOrderId b1.ordersById o'.id }, true)
      else
        ({ b1 with asks := replaceLimit b1.asks o'.price (Lf.removeOrder (some o')), ordersById := eraseOrderId b1.ordersById o'.id }, true)) := by
  unfold Book.removeOrderFromBook
  rw [if_pos hhas, hside]
  dsimp only
  rw [hfind]

theorem cancelOrder_absent (bk : Book) (id : Nat)
    (h : lookupOrder bk.ordersById id = none) :
    bk.cancelOrder id
      = { book := bk, order := none, fills := [], ok := false, completed := true } := by
  unfold Book.cancelOrder
  rw [h]

/-- **C6**: `cancelOrder` semantics.  If the id is absent the call returns
`false` and the book is untouched.  If the id is present (with the
book-side invariants any reachable book satisfies: a unique index entry,
the order held exactly once by the level at its price on its side, and
distinct level prices), the call deactivates the shared order object,
removes it from its Limit, drops the Limit exactly when it became empty,
removes the id from the index and returns `true`; a second cancel of the
same id then returns `false` and changes nothing. -/
theorem c6_cancel_semantics (b : Book) (id : Nat) :
    (lookupOrder b.ordersById id = none →
      b.cancelOrder id
        = { book := b, order := none, fills := [], ok := false, completed := true }) ∧
    (∀ o L, lookupOrder b.ordersById id = some o → o.id = id →
      keyCount b.ordersById id = 1 →
      findLimit (b.same o.side) o.price = some L →
      countL L o.id = 1 →
      countSide (b.same o.side) o.id = 1 →
      (pricesOf (b.same o.side)).Nodup →
      ((b.cancelOrder id).ok = true ∧
       (b.cancelOrder id).order = some o.deactivate ∧
       (o.deactivate).isActive = false ∧
       lookupOrder (b.cancelOrder id).book.ordersById id = none ∧
       sideFree ((b.cancelOrder id).book.same o.side) o.id ∧
       (L.orders.length = 1 →
         findLimit ((b.cancelOrder id).book.same o.side) o.price = none) ∧
       (L.orders.length ≠ 1 →
         ∃ L', findLimit ((b.cancelOrder id).book.same o.side) o.price = some L' ∧
           L'.orders.length + 1 = L.orders.length ∧ countL L' o.id = 0) ∧
       ((b.cancelOrder id).book.cancelOrder id
          = { book := (b.cancelOrder id).book, order := none, fills := [],
              ok := false, completed := true }))) := by
  refine ⟨cancelOrder_absent b id, ?_⟩
  intro o L hm hoid hkc hL hcl hcs hnd
  have hcO : b.cancelOrder id =
      { book := ((b.updateOrderCopies o.deactivate).removeOrderFromBook o.deactivate).1,
        order := some o.deactivate, fills := [],
        ok := ((b.updateOrderCopies o.deactivate).removeOrderFromBook o.deactivate).2,
        completed := true } := by
    unfold Book.cancelOrder
    rw [hm]
  have hhas : hasOrderId (b.updateOrderCopies o.deactivate).ordersById
      (o.deactivate).id = true := by
    show hasOrderId (b.ordersById.map
      (fun e => if e.1 == (o.deactivate).id then (e.1, o.deactivate) else e))
      (o.deactivate).id = true
    rw [hasOrderId_map_update]
    show hasOrderId b.ordersById o.id = true
    rw [hoid]
    exact lookup_some_hasOrderId hm
  have hkey1 : keyCount (b.updateOrderCopies o.deactivate).ordersById id = 1 := by
    show keyCount (b.ordersById.map
      (fun e => if e.1 == (o.deactivate).id then (e.1, o.deactivate) else e)) id = 1
    rw [keyCount_map_update]
    exact hkc
  have hkeyerase : keyCount
      (eraseOrderId (b.updateOrderCopies o.deactivate).ordersById (o.deactivate).id)
      id = 0 := by
    have hid2 : (o.deactivate).id = id := hoid
    rw [hid2]
    exact eraseFirst_filter_zero _ _ hkey1
  have hlenL : 1 ≤ L.orders.length := by
    have h1 := List.length_filter_le (fun x => x.id == o.id) L.orders
    unfold countL at hcl
    omega
  cases hsideo : o.side with
  | BUY =>
      rw [hsideo] at hL hcs hnd
      simp only [Book.same] at hL hcs hnd
      obtain ⟨hfind1, hany, hlen, hcnt0, hL1p, ⟨hfe, hse⟩, ⟨hfr, hsr⟩⟩ :=
        side_removal_spec b.bids o L hL hcl hcs hnd
      have hfindB1 : findLimit (b.updateOrderCopies o.deactivate).bids
          (o.deactivate).price = some (L.updateCopies o.deactivate) := hfind1
      have hRB := removeOrderFromBook_buy (b.updateOrderCopies o.deactivate)
        o.deactivate (L.updateCopies o.deactivate) hsideo hhas hfindB1
      by_cases hone : L.orders.length = 1
      · have hempty : ((L.updateCopies o.deactivate).removeOrder
            (some o.deactivate)).isEmptyLevel = true :=
          isEmptyLevel_true_of (by omega)
        rw [if_pos hempty] at hRB
        have hlknone : lookupOrder (b.cancelOrder id).book.ordersById id = none := by
          rw [hcO, hRB]
          exact filter_zero_lookup_none hkeyerase
        refine ⟨by rw [hcO, hRB], by rw [hcO], rfl, hlknone, ?_, ?_, ?_, ?_⟩
        · rw [hcO, hRB]
          exact hse
        · intro _
          rw [hcO, hRB]
          exact hfe
        · intro hne
          exact absurd hone hne
        · exact cancelOrder_absent _ id hlknone
      · have hne0 : ((L.updateCopies o.deactivate).removeOrder
            (some o.deactivate)).orders.length ≠ 0 := by omega
        have hemptyf := isEmptyLevel_false_of hne0
        rw [if_neg (by rw [hemptyf]; exact Bool.false_ne_true)] at hRB
        have hlknone : lookupOrder (b.cancelOrder id).book.ordersById id = none := by
          rw [hcO, hRB]
          exact filter_zero_lookup_none hkeyerase
        refine ⟨by rw [hcO, hRB], by rw [hcO], rfl, hlknone, ?_, ?_, ?_, ?_⟩
        · rw [hcO, hRB]
          exact hsr
        · intro h1
          exact absurd h1 hone
        · intro _
          rw [hcO, hRB]
          exact ⟨(L.updateCopies o.deactivate).removeOrder (some o.deactivate),
            hfr, hlen, hcnt0⟩
        · exact cancelOrder_absent _ id hlknone
  | SELL =>
      rw [hsideo] at hL hcs hnd
      simp only [Book.same] at hL hcs hnd
      obtain ⟨hfind1, hany, hlen, hcnt0, hL1p, ⟨hfe, hse⟩, ⟨hfr, hsr⟩⟩ :=
        side_removal_spec b.asks o L hL hcl hcs hnd
      have hfindB1 : findLimit (b.updateOrderCopies o.deactivate).asks
          (o.deactivate).price = some (L.updateCopies o.deactivate) := hfind1
      have hRB := removeOrderFromBook_sell (b.updateOrderCopies o.deactivate)
        o.deactivate (L.updateCopies o.deactivate) hsideo hhas hfindB1
      by_cases hone : L.orders.length = 1
      · have hempty : ((L.updateCopies o.deactivate).removeOrder
            (some o.deactivate)).isEmptyLevel = true :=
          isEmptyLevel_true_of (by omega)
        rw [if_pos hempty] at hRB
        have hlknone : lookupOrder (b.cancelOrder id).book.ordersById id = none := by
          rw [hcO, hRB]
          exact filter_zero_lookup_none hkeyerase
        refine ⟨by rw [hcO, hRB], by rw [hcO], rfl, hlknone, ?_, ?_, ?_, ?_⟩
        · rw [hcO, hRB]
          exact hse
        · intro _
          rw [hcO, hRB]
          exact hfe
        · intro hne
          exact absurd hone hne
        · exact cancelOrder_absent _ id hlknone
      · have hne0 : ((L.updateCopies o.deactivate).removeOrder
            (some o.deactivate)).orders.length ≠ 0 := by omega
        have hemptyf := isEmptyLevel_false_of hne0
        rw [if_neg (by rw [hemptyf]; exact Bool.false_ne_true)] at hRB
        have hlknone : lookupOrder (b.cancelOrder id).book.ordersById id = none := by
          rw [hcO, hRB]
          exact filter_zero_lookup_none hkeyerase
        refine ⟨by rw [hcO, hRB], by rw [hcO], rfl, hlknone, ?_, ?_, ?_, ?_⟩
        · rw [hcO, hRB]
          exact hsr
        · intro h1
          exact absurd h1 hone
        · intro _
          rw [hcO, hRB]
          exact ⟨(L.updateCopies o.deactivate).removeOrder (some o.deactivate),
            hfr, hlen, hcnt0⟩
        · exact cancelOrder_absent _ id hlknone

theorem c6_cancel_semantics_witness :
    (let b := ((Book.new "S").addOrderToBook
        { id := 5, side := Side.BUY, type := OrderType.LIMIT, symbol := "S",
          price := 100, quantity := 10 }).addOrderToBook
        { id := 6, side := Side.BUY, type := OrderType.LIMIT, symbol := "S",
          price := 100, quantity := 5 }
     let o : Order := { id := 6, side := Side.BUY, type := OrderType.LIMIT,
                        symbol := "S", price := 100, quantity := 5 }
     let L : Limit :=
       { price := 100,
         orders := [{ id := 5, side := Side.BUY, type := OrderType.LIMIT,
                      symbol := "S", price := 100, quantity := 10 },
                    { id := 6, side := Side.BUY, type := OrderType.LIMIT,
                      symbol := "S", price := 100, quantity := 5 }],
         totalVolume := 15 }
     (b.cancelOrder 6).ok = true ∧
     (b.cancelOrder 6).order = some o.deactivate ∧
     (o.deactivate).isActive = false ∧
     lookupOrder (b.cancelOrder 6).book.ordersById 6 = none ∧
     sideFree ((b.cancelOrder 6).book.same o.side) o.id ∧
     (L.orders.length = 1 →
       findLimit ((b.cancelOrder 6).book.same o.side) o.price = none) ∧
     (L.orders.length ≠ 1 →
       ∃ L', findLimit ((b.cancelOrder 6).book.same o.side) o.price = some L' ∧
         L'.orders.length + 1 = L.orders.length ∧ countL L' o.id = 0) ∧
     ((b.cancelOrder 6).book.cancelOrder 6
        = { book := (b.cancelOrder 6).book, order := none, fills := [],
            ok := false, completed := true })) := by
  intro b o L
  exact (c6_cancel_semantics b 6).2 o L (by decide) (by decide) (by decide)
    (by decide) (by decide) (by decide) (by decide)

/-! ## Claim C8 — FIFO time priority within a level -/

theorem countL_eq_idCount (L : Limit) (k : Nat) : countL L k = idCount L.orders k := rfl

theorem idCount_append (a c : List Order) (k : Nat) :
    idCount (a ++ c) k = idCount a k + idCount c k := by
  unfold idCount
  rw [List.filter_append, List.length_append]

theorem idCount_cons (z : Order) (c : List Order) (k : Nat) :
    idCount (z :: c) k = (if z.id = k then 1 else 0) + idCount c k := by
  unfold idCount
  rw [List.filter_cons]
  by_cases hz : z.id = k
  · simp only [hz, if_true]
    simp
    omega
  · simp [hz]

theorem idCount_zero_free {l : List Order} {k : Nat} (h : idCount l k = 0) :
    ∀ z ∈ l, z.id ≠ k := by
  intro z hz hid
  unfold idCount at h
  rw [List.length_eq_zero] at h
  have : z ∈ l.filter (fun z => z.id == k) := List.mem_filter.mpr ⟨hz, by simp [hid]⟩
  rw [h] at this
  cases this

theorem idCount_sublist {l' l : List Order} (h : List.Sublist l' l) (k : Nat) :
    idCount l' k ≤ idCount l k := by
  unfold idCount
  exact (h.filter _).length_le

theorem eraseFirst_eq_of_all_false {α : Type} {p : α → Bool} {l : List α}
    (h : l.any p = false) : eraseFirst p l = l := by
  induction l with
  | nil => rfl
  | cons z zs ih =>
      simp only [List.any_cons, Bool.or_eq_false_iff] at h
      simp only [eraseFirst, h.1, Bool.false_eq_true, if_false, List.cons.injEq, true_and]
      exact ih h.2

theorem eraseFirst_nil_cases {α : Type} {p : α → Bool} {l : List α}
    (h : eraseFirst p l = []) : l = [] ∨ ∃ z, l = [z] ∧ p z = true := by
  cases l with
  | nil => exact Or.inl rfl
  | cons z zs =>
      unfold eraseFirst at h
      by_cases hz : p z = true
      · rw [if_pos hz] at h
        subst h
        exact Or.inr ⟨z, rfl, hz⟩
      · rw [if_neg hz] at h
        cases h

theorem eraseFirst_keep_one {p : Order → Bool} (l2 l3 : List Order)
    (y : Order) (hy : p y = false) :
    ∃ l2' l3', eraseFirst p (l2 ++ y :: l3) = l2' ++ y :: l3' := by
  induction l2 with
  | nil =>
      refine ⟨[], eraseFirst p l3, ?_⟩
      simp [eraseFirst, hy]
  | cons z zs ih =>
      by_cases hz : p z = true
      · refine ⟨zs, l3, ?_⟩
        simp [eraseFirst, hz]
      · rcases ih with ⟨l2', l3', hsp⟩
        refine ⟨z :: l2', l3', ?_⟩
        have hzf : p z = false := Bool.eq_false_iff.mpr hz
        have hstep : eraseFirst p ((z :: zs) ++ y :: l3)
            = z :: eraseFirst p (zs ++ y :: l3) := by
          rw [List.cons_append]
          rw [show eraseFirst p (z :: (zs ++ y :: l3))
              = if p z = true then zs ++ y :: l3
                else z :: eraseFirst p (zs ++ y :: l3) from rfl]
          rw [hzf]
          simp
        rw [hstep, hsp]
        rfl

theorem eraseFirst_keep_split {p : Order → Bool} (l1 l2 l3 : List Order)
    (x y : Order) (hx : p x = false) (hy : p y = false) :
    ∃ l1' l2' l3', eraseFirst p (l1 ++ x :: (l2 ++ y :: l3))
      = l1' ++ x :: (l2' ++ y :: l3') := by
  induction l1 with
  | nil =>
      rcases eraseFirst_keep_one l2 l3 y hy with ⟨l2', l3', hsp⟩
      refine ⟨[], l2', l3', ?_⟩
      simp only [List.nil_append, eraseFirst, hx, Bool.false_eq_true, if_false, hsp]
  | cons z zs ih =>
      by_cases hz : p z = true
      · refine ⟨zs, l2, l3, ?_⟩
        simp [eraseFirst, hz]
      · rcases ih with ⟨l1', l2', l3', hsp⟩
        refine ⟨z :: l1', l2', l3', ?_⟩
        have hzf : p z = false := Bool.eq_false_iff.mpr hz
        have hstep : eraseFirst p ((z :: zs) ++ x :: (l2 ++ y :: l3))
            = z :: eraseFirst p (zs ++ x :: (l2 ++ y :: l3)) := by
          rw [List.cons_append]
          rw [show eraseFirst p (z :: (zs ++ x :: (l2 ++ y :: l3)))
              = if p z = true then zs ++ x :: (l2 ++ y :: l3)
                else z :: eraseFirst p (zs ++ x :: (l2 ++ y :: l3)) from rfl]
          rw [hzf]
          simp
        rw [hstep, hsp]
        rfl

theorem idCount_split (l1 l2 l3 : List Order) (x y : Order) (k : Nat) :
    idCount (l1 ++ x :: (l2 ++ y :: l3)) k
      = idCount l1 k + (if x.id = k then 1 else 0) + idCount l2 k
        + (if y.id = k then 1 else 0) + idCount l3 k := by
  rw [idCount_append, idCount_cons, idCount_append, idCount_cons]
  omega

/-- Count bookkeeping that follows from the invariant: the two tracked
orders are the unique carriers of their ids, so every other piece of the
decomposition is free of both. -/
theorem fifoList_counts {id1 id2 : Nat}
    {u v : List Limit} {L : Limit} {l1 l2 l3 : List Order} {x y : Order}
    (hne : id1 ≠ id2)
    (hord : L.orders = l1 ++ x :: (l2 ++ y :: l3))
    (hx : x.id = id1) (hy : y.id = id2)
    (hc1 : countSide (u ++ L :: v) id1 = 1)
    (hc2 : countSide (u ++ L :: v) id2 = 1) :
    countSide u id1 = 0 ∧ countSide v id1 = 0 ∧ countL L id1 = 1 ∧
    countSide u id2 = 0 ∧ countSide v id2 = 0 ∧ countL L id2 = 1 ∧
    idCount l1 id1 = 0 ∧ idCount l2 id1 = 0 ∧ idCount l3 id1 = 0 ∧
    idCount l1 id2 = 0 ∧ idCount l2 id2 = 0 ∧ idCount l3 id2 = 0 := by
  rw [countSide_append, countSide_cons] at hc1 hc2
  have hcl1 : countL L id1
      = idCount l1 id1 + 1 + idCount l2 id1 + 0 + idCount l3 id1 := by
    rw [countL_eq_idCount, hord, idCount_split]
    rw [if_pos hx, if_neg (by rw [hy]; exact fun h => hne h.symm)]
  have hcl2 : countL L id2
      = idCount l1 id2 + 0 + idCount l2 id2 + 1 + idCount l3 id2 := by
    rw [countL_eq_idCount, hord, idCount_split]
    rw [if_neg (by rw [hx]; exact hne), if_pos hy]
  omega


theorem countSide_ge_mem {w : List Limit} {N : Limit} (h : N ∈ w) (k : Nat) :
    countL N k ≤ countSide w k := by
  induction w with
  | nil => cases h
  | cons M ms ih =>
      rw [countSide_cons]
      rcases List.mem_cons.mp h with h | h
      · rw [h]; omega
      · have := ih h; omega

theorem removeOrder_eq_of_not_any {L : Limit} {o : Order}
    (h : L.orders.any (fun z => z.id == o.id) = false) :
    L.removeOrder (some o) = L := by
  unfold Limit.removeOrder
  dsimp only
  rw [h]
  simp

/-- Map-update (pointer write) preserves the FIFO invariant; a write to
the tracked `id1` order updates its remaining quantity. -/
theorem fifoList_map_update {id1 id2 : Nat} {r1 : Int} {ls : List Limit}
    (h : FifoList id1 id2 r1 ls) (o' : Order) (hne : id1 ≠ id2)
    (ho2 : o'.id ≠ id2) :
    (o'.id ≠ id1 → FifoList id1 id2 r1 (ls.map (fun M => M.updateCopies o'))) ∧
    (o'.id = id1 →
      FifoList id1 id2 (o'.quantity - o'.filledQty)
        (ls.map (fun M => M.updateCopies o'))) := by
  obtain ⟨u, L, v, l1, x, l2, y, l3, hdec, hord, hx, hy, hr, hc1, hc2, hnd⟩ := h
  have hcounts' : countSide (ls.map (fun M => M.updateCopies o')) id1 = 1 ∧
      countSide (ls.map (fun M => M.updateCopies o')) id2 = 1 := by
    rw [countSide_map_updateCopies, countSide_map_updateCopies]
    exact ⟨hc1, hc2⟩
  have hnd' : (pricesOf (ls.map (fun M => M.updateCopies o'))).Nodup := by
    rw [pricesOf_updateCopies]
    exact hnd
  have hdec' : ls.map (fun M => M.updateCopies o')
      = u.map (fun M => M.updateCopies o') ++ (L.updateCopies o')
        :: v.map (fun M => M.updateCopies o') := by
    rw [hdec, List.map_append, List.map_cons]
  have hyid : (y.id == o'.id) = false := by
    simp only [beq_eq_false_iff_ne, ne_eq]
    rw [hy]
    exact fun hh => ho2 hh.symm
  have hordmap : (L.updateCopies o').orders
      = l1.map (fun z => if z.id == o'.id then o' else z)
        ++ (if x.id == o'.id then o' else x)
        :: (l2.map (fun z => if z.id == o'.id then o' else z)
            ++ y :: l3.map (fun z => if z.id == o'.id then o' else z)) := by
    show (L.orders.map (fun z => if z.id == o'.id then o' else z)) = _
    rw [hord, List.map_append, List.map_cons, List.map_append, List.map_cons, hyid]
    simp only [Bool.false_eq_true, if_false]
  constructor
  · intro ho1
    have hxid : (x.id == o'.id) = false := by
      simp only [beq_eq_false_iff_ne, ne_eq]
      rw [hx]
      exact fun hh => ho1 hh.symm
    refine ⟨u.map (fun M => M.updateCopies o'), L.updateCopies o',
      v.map (fun M => M.updateCopies o'),
      l1.map (fun z => if z.id == o'.id then o' else z), x,
      l2.map (fun z => if z.id == o'.id then o' else z), y,
      l3.map (fun z => if z.id == o'.id then o' else z),
      hdec', ?_, hx, hy, hr, hcounts'.1, hcounts'.2, hnd'⟩
    rw [hordmap, hxid]
    simp only [Bool.false_eq_true, if_false]
  · intro ho1
    have hxid : (x.id == o'.id) = true := by
      rw [hx, ho1]
      exact beq_self_eq_true id1
    refine ⟨u.map (fun M => M.updateCopies o'), L.updateCopies o',
      v.map (fun M => M.updateCopies o'),
      l1.map (fun z => if z.id == o'.id then o' else z), o',
      l2.map (fun z => if z.id == o'.id then o' else z), y,
      l3.map (fun z => if z.id == o'.id then o' else z),
      hdec', ?_, ho1, hy, rfl, hcounts'.1, hcounts'.2, hnd'⟩
    rw [hordmap, hxid]
    simp only [if_true]

theorem fifoList_counts_of (u0 v0 : List Limit) (M : Limit) (k : Nat) :
    countSide (u0 ++ M :: v0) k = countSide u0 k + countL M k + countSide v0 k := by
  rw [countSide_append, countSide_cons]
  omega

/-- Erasing the level at a price that does not host the tracked pair
preserves the FIFO invariant. -/
theorem fifoList_eraseLimit {id1 id2 : Nat} {r1 : Int} {ls : List Limit}
    {p : Int} {M : Limit}
    (h : FifoList id1 id2 r1 ls) (hne : id1 ≠ id2)
    (hM : findLimit ls p = some M) (hM2 : countL M id2 = 0) :
    FifoList id1 id2 r1 (eraseLimit ls p) := by
  obtain ⟨u, L, v, l1, x, l2, y, l3, hdec, hord, hx, hy, hr, hc1, hc2, hnd⟩ := h
  obtain ⟨u0, v0, hdec0, hu0⟩ := findLimit_decomp hM
  have hMp : M.price = p := findLimit_price hM
  have herase : eraseLimit ls p = u0 ++ v0 := by
    rw [hdec0]
    exact eraseFirst_append _ _ _ _ hu0 (by rw [hMp]; exact beq_self_eq_true p)
  have hcL2 : countL L id2 = 1 ∧ countL L id1 = 1 := by
    subst hdec
    obtain ⟨-, -, hL1, -, -, hL2, -⟩ := fifoList_counts hne hord hx hy hc1 hc2
    exact ⟨hL2, hL1⟩
  have hLM : L ≠ M := by
    intro he
    rw [he] at hcL2
    omega
  have hLmem : L ∈ u0 ++ v0 := by
    have : L ∈ ls := by rw [hdec]; exact List.mem_append_right u (List.mem_cons_self L v)
    rw [hdec0] at this
    rcases List.mem_append.mp this with hh | hh
    · exact List.mem_append_left v0 hh
    · rcases List.mem_cons.mp hh with hh | hh
      · exact absurd hh hLM
      · exact List.mem_append_right u0 hh
  have hcounts0 : ∀ k, countSide (u0 ++ v0) k + countL M k = countSide ls k := by
    intro k
    rw [hdec0, fifoList_counts_of, countSide_append]
    omega
  have hM1 : countL M id1 = 0 := by
    have h1 := hcounts0 id1
    have h2 := countSide_ge_mem hLmem id1
    rw [hc1] at h1
    omega
  rcases List.append_of_mem hLmem with ⟨a, bl, hab⟩
  refine ⟨a, L, bl, l1, x, l2, y, l3, by rw [herase, hab], hord, hx, hy, hr, ?_, ?_, ?_⟩
  · rw [herase]
    have := hcounts0 id1
    omega
  · rw [herase]
    have := hcounts0 id2
    omega
  · rw [herase]
    have hsub : List.Sublist (u0 ++ v0) ls := by
      rw [hdec0]
      exact List.Sublist.append (List.Sublist.refl u0) (List.sublist_cons_self M v0)
    exact List.Nodup.sublist (hsub.map _) hnd

theorem nodup_tail_prices {ls u0 v0 : List Limit} {M : Limit} {p : Int}
    (hdec0 : ls = u0 ++ M :: v0) (hMp : M.price = p)
    (hnd : (pricesOf ls).Nodup) : ∀ N ∈ v0, (N.price == p) = false := by
  intro N hN
  rw [hdec0] at hnd
  unfold pricesOf at hnd
  rw [List.map_append, List.map_cons] at hnd
  have h2 := hnd.of_append_right
  have h3 := (List.nodup_cons.mp h2).1
  have : N.price ≠ p := by
    intro hNp
    exact h3 (by rw [hMp, ← hNp]; exact List.mem_map_of_mem _ hN)
  simpa using this

theorem removeOrder_orders_sublist (L : Limit) (o? : Option Order) :
    List.Sublist (L.removeOrder o?).orders L.orders := by
  cases o? with
  | none => exact List.Sublist.refl _
  | some o =>
      by_cases hany : (L.orders.any (fun z => z.id == o.id)) = true
      · rw [removeOrder_orders_of_any hany]
        exact eraseFirst_sublist _ _
      · rw [removeOrder_eq_of_not_any (Bool.eq_false_iff.mpr hany)]

/-- Replacing the found level by the same level minus one removed order
(the shape of `removeOrderFromBook`'s in-place removal) either preserves
the FIFO invariant, or — exactly when the removed id is the tracked front
id and it was removed from the tracked level — empties the side of `id1`
(phase two begins). -/
theorem fifoList_replaceLimit {id1 id2 : Nat} {r1 : Int} {ls : List Limit}
    {p : Int} {M : Limit} {o'' : Order}
    (h : FifoList id1 id2 r1 ls) (hne : id1 ≠ id2)
    (hM : findLimit ls p = some M) (ho2 : o''.id ≠ id2) :
    FifoList id1 id2 r1 (replaceLimit ls p (M.removeOrder (some o''))) ∨
    (o''.id = id1 ∧ countSide (replaceLimit ls p (M.removeOrder (some o''))) id1 = 0) := by
  obtain ⟨u, L, v, l1, x, l2, y, l3, hdec, hord, hx, hy, hr, hc1, hc2, hnd⟩ := h
  obtain ⟨u0, v0, hdec0, hu0⟩ := findLimit_decomp hM
  have hMp : M.price = p := findLimit_price hM
  have hv0 := nodup_tail_prices hdec0 hMp hnd
  have hMbeq : (M.price == p) = true := by rw [hMp]; exact beq_self_eq_true p
  have hrepl : replaceLimit ls p (M.removeOrder (some o''))
      = u0 ++ (M.removeOrder (some o'')) :: v0 := by
    rw [hdec0]
    exact replaceLimit_decomp _ _ _ _ _ hu0 hMbeq hv0
  have hcparts : ∀ k, countSide ls k = countSide u0 k + countL M k + countSide v0 k := by
    intro k
    rw [hdec0, fifoList_counts_of]
  have hcountsL : countL L id1 = 1 ∧ countL L id2 = 1 ∧
      idCount l1 id1 = 0 ∧ idCount l2 id1 = 0 ∧ idCount l3 id1 = 0 := by
    subst hdec
    obtain ⟨-, -, hL1, -, -, hL2, hp1, hp2, hp3, -⟩ :=
      fifoList_counts hne hord hx hy hc1 hc2
    exact ⟨hL1, hL2, hp1, hp2, hp3⟩
  have hnd' : (pricesOf (replaceLimit ls p (M.removeOrder (some o'')))).Nodup := by
    rw [replaceLimit_prices _ _ _ ((removeOrder_price M (some o'')).trans hMp)]
    exact hnd
  by_cases hLM : L = M
  · -- the removal hits the tracked level
    subst hLM
    by_cases hany : (L.orders.any (fun z => z.id == o''.id)) = true
    · have hordrm := removeOrder_orders_of_any hany
      by_cases ho1 : o''.id = id1
      · -- the tracked front order is removed: the side becomes id1-free
        refine Or.inr ⟨ho1, ?_⟩
        have hpredx : (fun (z : Order) => z.id == o''.id) x = true := by
          simp only
          rw [hx, ho1]
          exact beq_self_eq_true id1
        have hl1f : ∀ z ∈ l1, (fun (z : Order) => z.id == o''.id) z = false := by
          intro z hz
          simp only [beq_eq_false_iff_ne, ne_eq, ho1]
          exact idCount_zero_free hcountsL.2.2.1 z hz
        have hordrm2 : (L.removeOrder (some o'')).orders = l1 ++ (l2 ++ y :: l3) := by
          rw [hordrm, hord]
          exact eraseFirst_append _ _ _ _ hl1f hpredx
        have hcnt : countL (L.removeOrder (some o'')) id1 = 0 := by
          rw [countL_eq_idCount, hordrm2, idCount_append, idCount_append, idCount_cons]
          have hyne : y.id ≠ id1 := by rw [hy]; exact fun hh => hne hh.symm
          rw [if_neg hyne]
          have := hcountsL.2.2.1
          have := hcountsL.2.2.2.1
          have := hcountsL.2.2.2.2
          omega
        rw [hrepl, fifoList_counts_of, hcnt]
        have h1 := hcparts id1
        rw [hc1, hcountsL.1] at h1
        omega
      · -- some other order is removed from the tracked level
        left
        have hpx : (fun (z : Order) => z.id == o''.id) x = false := by
          simp only [beq_eq_false_iff_ne, ne_eq, hx]
          exact fun hh => ho1 hh.symm
        have hpy : (fun (z : Order) => z.id == o''.id) y = false := by
          simp only [beq_eq_false_iff_ne, ne_eq, hy]
          exact fun hh => ho2 hh.symm
        obtain ⟨l1', l2', l3', hsp⟩ :=
          @eraseFirst_keep_split (fun z => z.id == o''.id) l1 l2 l3 x y hpx hpy
        have hordrm2 : (L.removeOrder (some o'')).orders
            = l1' ++ x :: (l2' ++ y :: l3') := by
          rw [hordrm, hord, hsp]
        have hsubl : List.Sublist (L.removeOrder (some o'')).orders L.orders := by
          rw [hordrm]
          exact eraseFirst_sublist _ _
        have hcnt1 : countL (L.removeOrder (some o'')) id1 = 1 := by
          have hle : idCount (L.removeOrder (some o'')).orders id1 ≤ 1 := by
            have h5 := idCount_sublist hsubl id1
            have h6 : idCount L.orders id1 = 1 := hcountsL.1
            omega
          have hge : 1 ≤ idCount (L.removeOrder (some o'')).orders id1 := by
            rw [hordrm2, idCount_split, if_pos hx]
            omega
          rw [countL_eq_idCount]
          omega
        have hcnt2 : countL (L.removeOrder (some o'')) id2 = 1 := by
          have hle : idCount (L.removeOrder (some o'')).orders id2 ≤ 1 := by
            have h5 := idCount_sublist hsubl id2
            have h6 : idCount L.orders id2 = 1 := hcountsL.2.1
            omega
          have hge : 1 ≤ idCount (L.removeOrder (some o'')).orders id2 := by
            rw [hordrm2, idCount_split, if_pos hy]
            omega
          rw [countL_eq_idCount]
          omega
        refine ⟨u0, L.removeOrder (some o''), v0, l1', x, l2', y, l3',
          hrepl, hordrm2, hx, hy, hr, ?_, ?_, hnd'⟩
        · rw [hrepl, fifoList_counts_of, hcnt1]
          have h1 := hcparts id1
          rw [hc1, hcountsL.1] at h1
          omega
        · rw [hrepl, fifoList_counts_of, hcnt2]
          have h1 := hcparts id2
          rw [hc2, hcountsL.2.1] at h1
          omega
    · -- id not present in the level: nothing removed
      left
      have hM' : L.removeOrder (some o'') = L :=
        removeOrder_eq_of_not_any (Bool.eq_false_iff.mpr hany)
      rw [hrepl, hM', ← hdec0]
      exact ⟨u, L, v, l1, x, l2, y, l3, hdec, hord, hx, hy, hr, hc1, hc2, hnd⟩
  · -- the removal hits a different level, which carries neither id
    left
    have hLmem : L ∈ u0 ++ v0 := by
      have : L ∈ ls := by rw [hdec]; exact List.mem_append_right u (List.mem_cons_self L v)
      rw [hdec0] at this
      rcases List.mem_append.mp this with hh | hh
      · exact List.mem_append_left v0 hh
      · rcases List.mem_cons.mp hh with hh | hh
        · exact absurd hh hLM
        · exact List.mem_append_right u0 hh
    have hML1 : countL M id1 = 0 := by
      have h1 := hcparts id1
      have h2 := countSide_ge_mem hLmem id1
      rw [countSide_append] at h2
      rw [hc1] at h1
      have h3 : countL L id1 = 1 := hcountsL.1
      have h4 : L ∈ u0 ∨ L ∈ v0 := List.mem_append.mp hLmem
      rcases h4 with h4 | h4
      · have := countSide_ge_mem h4 id1
        omega
      · have := countSide_ge_mem h4 id1
        omega
    have hML2 : countL M id2 = 0 := by
      have h1 := hcparts id2
      have h4 : L ∈ u0 ∨ L ∈ v0 := List.mem_append.mp hLmem
      rcases h4 with h4 | h4
      · have := countSide_ge_mem h4 id2
        have h3 : countL L id2 = 1 := hcountsL.2.1
        rw [hc2] at h1
        omega
      · have := countSide_ge_mem h4 id2
        have h3 : countL L id2 = 1 := hcountsL.2.1
        rw [hc2] at h1
        omega
    have hsub : List.Sublist (M.removeOrder (some o'')).orders M.orders :=
      removeOrder_orders_sublist M (some o'')
    have hM'1 : countL (M.removeOrder (some o'')) id1 = 0 := by
      have := idCount_sublist hsub id1
      rw [← countL_eq_idCount, ← countL_eq_idCount, hML1] at this
      omega
    have hM'2 : countL (M.removeOrder (some o'')) id2 = 0 := by
      have := idCount_sublist hsub id2
      rw [← countL_eq_idCount, ← countL_eq_idCount, hML2] at this
      omega
    have hcnt1 : countSide (replaceLimit ls p (M.removeOrder (some o''))) id1 = 1 := by
      rw [hrepl, fifoList_counts_of, hM'1]
      have h1 := hcparts id1
      rw [hc1, hML1] at h1
      omega
    have hcnt2 : countSide (replaceLimit ls p (M.removeOrder (some o''))) id2 = 1 := by
      rw [hrepl, fifoList_counts_of, hM'2]
      have h1 := hcparts id2
      rw [hc2, hML2] at h1
      omega
    rcases List.mem_append.mp hLmem with hLu | hLv
    · obtain ⟨a, bl, hab⟩ := List.append_of_mem hLu
      refine ⟨a, L, bl ++ (M.removeOrder (some o'')) :: v0, l1, x, l2, y, l3,
        ?_, hord, hx, hy, hr, hcnt1, hcnt2, hnd'⟩
      rw [hrepl, hab]
      simp
    · obtain ⟨a, bl, hab⟩ := List.append_of_mem hLv
      refine ⟨u0 ++ (M.removeOrder (some o'')) :: a, L, bl, l1, x, l2, y, l3,
        ?_, hord, hx, hy, hr, hcnt1, hcnt2, hnd'⟩
      rw [hrepl, hab]
      simp

/-! ### Book projections used by the FIFO development -/

theorem updateOrderCopies_opp (b : Book) (o' : Order) (s : Side) :
    (b.updateOrderCopies o').opp s = (b.opp s).map (fun L => L.updateCopies o') := by
  cases s <;> rfl

theorem updateOrderCopies_ordersById (b : Book) (o' : Order) :
    (b.updateOrderCopies o').ordersById
      = b.ordersById.map (fun e => if e.1 == o'.id then (e.1, o') else e) := rfl

theorem setOpp_opp (b : Book) (s : Side) (ls : List Limit) :
    (b.setOpp s ls).opp s = ls := by
  cases s <;> rfl

theorem setOpp_ordersById (b : Book) (s : Side) (ls : List Limit) :
    (b.setOpp s ls).ordersById = b.ordersById := by
  cases s <;> rfl

theorem findLimit_head {L : Limit} (ls : List Limit) {p : Int}
    (h : (L.price == p) = true) : findLimit (L :: ls) p = some L := by
  unfold findLimit
  exact List.find?_cons_of_pos ls h

theorem eraseLimit_head {L : Limit} (ls : List Limit) {p : Int}
    (h : (L.price == p) = true) : eraseLimit (L :: ls) p = ls := by
  unfold eraseLimit
  simp [eraseFirst, h]

theorem hasOrderId_eraseOrderId_ne (m : List (Nat × Order)) {k k' : Nat}
    (hne : k' ≠ k) : hasOrderId (eraseOrderId m k') k = hasOrderId m k := by
  induction m with
  | nil => rfl
  | cons e es ih =>
      unfold eraseOrderId eraseFirst
      by_cases he : (e.1 == k') = true
      · rw [if_pos he]
        have he' : e.1 = k' := by simpa using he
        have hek : (e.1 == k) = false := by simp [he', hne]
        unfold hasOrderId
        rw [List.any_cons, hek]
        simp
      · rw [if_neg (by simpa using he)]
        unfold hasOrderId
        rw [List.any_cons, List.any_cons]
        unfold eraseOrderId at ih
        unfold hasOrderId at ih
        rw [ih]

theorem removeOrderFromBook_nohas (b : Book) (o : Order)
    (h : hasOrderId b.ordersById o.id = false) :
    b.removeOrderFromBook o = (b, false) := by
  unfold Book.removeOrderFromBook
  simp [h]

theorem removeOrderFromBook_opp (b : Book) (o : Order) (s : Side) (Lf : Limit)
    (hside : o.side = oppSideOf s)
    (hhas : hasOrderId b.ordersById o.id = true)
    (hfind : findLimit (b.opp s) o.price = some Lf) :
    (b.removeOrderFromBook o).1.opp s
      = (if (Lf.removeOrder (some o)).isEmptyLevel then eraseLimit (b.opp s) o.price
         else replaceLimit (b.opp s) o.price (Lf.removeOrder (some o))) ∧
    (b.removeOrderFromBook o).1.ordersById = eraseOrderId b.ordersById o.id := by
  cases s
  · have hs : o.side = Side.SELL := hside
    have heq := removeOrderFromBook_sell b o Lf hs hhas hfind
    rw [heq]
    by_cases he : (Lf.removeOrder (some o)).isEmptyLevel = true <;>
      simp [he, Book.opp]
  · have hs : o.side = Side.BUY := hside
    have heq := removeOrderFromBook_buy b o Lf hs hhas hfind
    rw [heq]
    by_cases he : (Lf.removeOrder (some o)).isEmptyLevel = true <;>
      simp [he, Book.opp]

theorem eraseOppIfEmpty_of_none {b : Book} {s : Side} {p : Int}
    (h : findLimit (b.opp s) p = none) : b.eraseOppIfEmpty s p = b := by
  unfold Book.eraseOppIfEmpty
  rw [h]

theorem eraseOppIfEmpty_of_nonempty {b : Book} {s : Side} {p : Int} {L : Limit}
    (h : findLimit (b.opp s) p = some L) (he : L.isEmptyLevel = false) :
    b.eraseOppIfEmpty s p = b := by
  unfold Book.eraseOppIfEmpty
  rw [h]
  simp [he]

/-! ### Counting infrastructure for the uniqueness invariant -/

theorem idCount_eq_count (l : List Order) (k : Nat) :
    idCount l k = (l.map (fun o => o.id)).count k := by
  induction l with
  | nil => rfl
  | cons z zs ih =>
      rw [idCount_cons, List.map_cons, List.count_cons, ih]
      by_cases hz : z.id = k
      · simp [hz]
        omega
      · simp [hz, Ne.symm hz]

theorem idsOfSide_cons (L : Limit) (w : List Limit) :
    idsOfSide (L :: w) = L.orders.map (fun o => o.id) ++ idsOfSide w := rfl

theorem countSide_eq_count (ls : List Limit) (k : Nat) :
    countSide ls k = (idsOfSide ls).count k := by
  induction ls with
  | nil => rfl
  | cons L w ih =>
      rw [countSide_cons, idsOfSide_cons, List.count_append, ih]
      have : countL L k = (L.orders.map (fun o => o.id)).count k := by
        rw [countL_eq_idCount, idCount_eq_count]
      omega

theorem uniqueIds_count {ls : List Limit} (h : UniqueIds ls) (k : Nat) :
    countSide ls k ≤ 1 := by
  rw [countSide_eq_count]
  exact List.nodup_iff_count_le_one.mp h k

theorem countSide_sublist {ls' ls : List Limit}
    (h : List.Sublist ls' ls) (k : Nat) : countSide ls' k ≤ countSide ls k := by
  induction h with
  | slnil => exact le_refl _
  | cons L hsub ih =>
      rw [countSide_cons]
      omega
  | cons₂ L hsub ih =>
      rw [countSide_cons, countSide_cons]
      omega

theorem uniqueIds_of_counts {ls : List Limit}
    (h : ∀ k, countSide ls k ≤ 1) : UniqueIds ls := by
  unfold UniqueIds
  rw [List.nodup_iff_count_le_one]
  intro k
  rw [← countSide_eq_count]
  exact h k

theorem uniqueIds_sublist {ls' ls : List Limit}
    (hsub : List.Sublist ls' ls) (h : UniqueIds ls) : UniqueIds ls' :=
  uniqueIds_of_counts (fun k => le_trans (countSide_sublist hsub k) (uniqueIds_count h k))

/-! ### Side-invariant preservation -/

theorem sideInv_sublist {ms : Side} {ls' ls : List Limit}
    (hsub : List.Sublist ls' ls) (h : SideInv ms ls) : SideInv ms ls' :=
  fun L hL o ho => h L (hsub.mem hL) o ho

theorem sideInv_cons_remove {ms : Side} {M : Limit} {w : List Limit} (o'' : Order)
    (h : SideInv ms (M :: w)) : SideInv ms ((M.removeOrder (some o'')) :: w) := by
  intro L hL o ho
  rcases List.mem_cons.mp hL with rfl | hL
  · have h2 := h M (List.mem_cons_self M w) o (removeOrder_orders_subset ho)
    exact ⟨h2.1, by rw [h2.2, ← removeOrder_price M (some o'')]⟩
  · exact h L (List.mem_cons_of_mem M hL) o ho

theorem idCount_ge_mem {l : List Order} {z : Order} (hz : z ∈ l) {k : Nat}
    (hk : z.id = k) : 1 ≤ idCount l k := by
  unfold idCount
  have hmem : z ∈ l.filter (fun w => w.id == k) :=
    List.mem_filter.mpr ⟨hz, by simp [hk]⟩
  have := List.length_pos_of_mem hmem
  omega

theorem countSide_two_mem {ls : List Limit} {L0 Lz : Limit} (k : Nat)
    (h0 : L0 ∈ ls) (hz : Lz ∈ ls) (hne : L0 ≠ Lz) :
    countL L0 k + countL Lz k ≤ countSide ls k := by
  obtain ⟨a, bl, rfl⟩ := List.append_of_mem h0
  rw [countSide_append, countSide_cons]
  rcases List.mem_append.mp hz with hza | hzb
  · have := countSide_ge_mem hza k
    omega
  · rcases List.mem_cons.mp hzb with heq | hzb
    · exact absurd heq.symm hne
    · have := countSide_ge_mem hzb k
      omega

theorem map_update_id_free {l : List Order} {o' : Order}
    (h : ∀ z ∈ l, z.id ≠ o'.id) :
    l.map (fun z => if z.id == o'.id then o' else z) = l := by
  induction l with
  | nil => rfl
  | cons z zs ih =>
      rw [List.map_cons]
      have hz : (z.id == o'.id) = false := by
        simpa using h z (List.mem_cons_self z zs)
      rw [hz]
      simp only [Bool.false_eq_true, if_false]
      rw [ih (fun w hw => h w (List.mem_cons_of_mem z hw))]

theorem updateCopies_cons {L : Limit} {m : Order} {tl : List Order} (o' : Order)
    (hord : L.orders = m :: tl) (hid : (m.id == o'.id) = true)
    (hfree : ∀ z ∈ tl, z.id ≠ o'.id) :
    (L.updateCopies o').orders = o' :: tl := by
  unfold Limit.updateCopies
  dsimp only
  rw [hord, List.map_cons, hid]
  simp only [if_true]
  rw [map_update_id_free hfree]

/-- Pointer writes to a resting order keep the side invariant: the new
value is keyed by the same id, and carries the same side and price as a
current occupant, which (by uniqueness) is the only occurrence of the id,
so the write stays inside the level whose price it carries. -/
theorem sideInv_map_updateCopies {ms : Side} {ls : List Limit} {L0 : Limit}
    {m : Order} (o' : Order)
    (hs : SideInv ms ls) (hu : ∀ k, countSide ls k ≤ 1)
    (hL0 : L0 ∈ ls) (hm : m ∈ L0.orders)
    (hid : o'.id = m.id) (hos : o'.side = m.side) (hop : o'.price = m.price) :
    SideInv ms (ls.map (fun M => M.updateCopies o')) := by
  intro L' hL' o ho
  rcases List.mem_map.mp hL' with ⟨Lz, hLz, rfl⟩
  rcases List.mem_map.mp ho with ⟨z, hzz, rfl⟩
  have hLzp : (Lz.updateCopies o').price = Lz.price := rfl
  by_cases hzid : (z.id == o'.id) = true
  · simp only [hzid, if_true]
    have hzid' : z.id = m.id := by rw [← hid]; simpa using hzid
    have hLzL0 : Lz = L0 := by
      by_contra hne
      have h1 := countSide_two_mem m.id hL0 hLz (fun hh => hne hh.symm)
      have h2 := idCount_ge_mem hm rfl
      have h3 := idCount_ge_mem hzz hzid'
      rw [← countL_eq_idCount] at h2 h3
      have h4 := hu m.id
      omega
    subst hLzL0
    have hmL := hs Lz hLz m hm
    exact ⟨by rw [hos, hmL.1], by rw [hLzp, hop, hmL.2]⟩
  · simp only [hzid, Bool.false_eq_true, if_false]
    have h2 := hs Lz hLz z hzz
    exact ⟨h2.1, by rw [hLzp, h2.2]⟩

/-- Dropping the head level preserves the FIFO invariant when the head
does not carry the tracked front id. -/
theorem fifoList_tail {id1 id2 : Nat} {r1 : Int} {L0 : Limit} {rest : List Limit}
    (h : FifoList id1 id2 r1 (L0 :: rest)) (hne : id1 ≠ id2)
    (h0 : countL L0 id1 = 0) : FifoList id1 id2 r1 rest := by
  obtain ⟨u, L, v, l1, x, l2, y, l3, hdec, hord, hx, hy, hr, hc1, hc2, hnd⟩ := h
  have hcnt := fifoList_counts hne hord hx hy (hdec ▸ hc1) (hdec ▸ hc2)
  cases u with
  | nil =>
      rw [List.nil_append] at hdec
      have hL0 : L0 = L := (List.cons.injEq _ _ _ _ ▸ hdec).1
      rw [hL0] at h0
      rw [hcnt.2.2.1] at h0
      cases h0
  | cons L0' u' =>
      rw [List.cons_append] at hdec
      have hL0 : L0 = L0' := (List.cons.injEq _ _ _ _ ▸ hdec).1
      have hrest : rest = u' ++ L :: v := (List.cons.injEq _ _ _ _ ▸ hdec).2
      have hc0 : countL L0 id2 = 0 := by
        have hmem : L0 ∈ L0' :: u' := by
          rw [hL0]
          exact List.mem_cons_self L0' u'
        have hle := countSide_ge_mem hmem id2
        have h2 : countSide (L0' :: u') id2 = 0 := hcnt.2.2.2.1
        omega
      refine ⟨u', L, v, l1, x, l2, y, l3, hrest, hord, hx, hy, hr, ?_, ?_, ?_⟩
      · have hcc := countSide_cons L0 rest id1
        rw [hc1] at hcc
        omega
      · have hcc := countSide_cons L0 rest id2
        rw [hc2] at hcc
        omega
      · have : pricesOf (L0 :: rest) = L0.price :: pricesOf rest := rfl
        rw [this] at hnd
        exact hnd.of_cons

/-! ### Fill-trace bookkeeping -/

theorem fillsOn_append (id : Nat) (a c : List Fill) :
    fillsOn id (a ++ c) = fillsOn id a ++ fillsOn id c := by
  unfold fillsOn
  exact List.filter_append _ _

theorem fillsOn_cons_ne {id : Nat} {f : Fill} (fs : List Fill)
    (h : f.makerId ≠ id) : fillsOn id (f :: fs) = fillsOn id fs := by
  unfold fillsOn
  rw [List.filter_cons]
  simp [h]

theorem fillsOn_cons_eq {id : Nat} {f : Fill} (fs : List Fill)
    (h : f.makerId = id) : fillsOn id (f :: fs) = f :: fillsOn id fs := by
  unfold fillsOn
  rw [List.filter_cons]
  simp [h]

theorem fillsOn_eq_nil_of (id : Nat) (fs : List Fill)
    (h : ∀ f ∈ fs, f.makerId ≠ id) : fillsOn id fs = [] := by
  unfold fillsOn
  rw [List.filter_eq_nil_iff]
  intro f hf
  simp [h f hf]

theorem sumQty_cons (f : Fill) (fs : List Fill) :
    sumQty (f :: fs) = f.qty + sumQty fs := by
  unfold sumQty
  rw [List.map_cons, List.sum_cons]

/-- Phase-one classification of the front resting order: the follower id
is never at the front, and if the leader id is at the front then the head
level is the tracked level, the front carries the tracked remaining
quantity, and the follower sits behind it in the same FIFO. -/
theorem fifo_front {id1 id2 : Nat} {r1 : Int} {L0 : Limit} {rest : List Limit}
    {m : Order} {ms0 : List Order}
    (h : FifoList id1 id2 r1 (L0 :: rest)) (hne : id1 ≠ id2)
    (hord0 : L0.orders = m :: ms0) :
    m.id ≠ id2 ∧
    (m.id = id1 →
      m.quantity - m.filledQty = r1 ∧
      countSide rest id1 = 0 ∧ countSide rest id2 = 0 ∧
      idCount ms0 id1 = 0 ∧
      ∃ l2 y l3, ms0 = l2 ++ y :: l3 ∧ y.id = id2) := by
  obtain ⟨u, L, v, l1, x, l2, y, l3, hdec, hord, hx, hy, hr, hc1, hc2, hnd⟩ := h
  obtain ⟨cu1, cv1, cL1, cu2, cv2, cL2, p11, p21, p31, p12, p22, p32⟩ :=
    fifoList_counts hne hord hx hy (hdec ▸ hc1) (hdec ▸ hc2)
  cases u with
  | nil =>
      rw [List.nil_append] at hdec
      injection hdec with hL0 hrest
      rw [← hL0] at hord
      rw [hord0] at hord
      cases l1 with
      | nil =>
          rw [List.nil_append] at hord
          injection hord with hmx hms
          subst hmx
          constructor
          · rw [hx]
            exact hne
          · intro _
            refine ⟨hr, ?_, ?_, ?_, l2, y, l3, hms, hy⟩
            · have hcc := countSide_cons L0 rest id1
              rw [hc1, hL0, cL1] at hcc
              omega
            · have hcc := countSide_cons L0 rest id2
              rw [hc2, hL0, cL2] at hcc
              omega
            · rw [hms, idCount_append, idCount_cons]
              rw [if_neg (by rw [hy]; exact fun hh => hne hh.symm)]
              omega
      | cons a l1' =>
          rw [List.cons_append] at hord
          injection hord with hma hms
          subst hma
          have hmem : m ∈ m :: l1' := List.mem_cons_self m l1'
          constructor
          · exact idCount_zero_free p12 m hmem
          · intro him1
            exact absurd him1 (idCount_zero_free p11 m hmem)
  | cons L0' u' =>
      rw [List.cons_append] at hdec
      injection hdec with hL0 hrest
      have hmemu : L0 ∈ L0' :: u' := by
        rw [hL0]
        exact List.mem_cons_self L0' u'
      have hL01 : countL L0 id1 = 0 := by
        have := countSide_ge_mem hmemu id1
        omega
      have hL02 : countL L0 id2 = 0 := by
        have := countSide_ge_mem hmemu id2
        omega
      have hm : m ∈ L0.orders := by
        rw [hord0]
        exact List.mem_cons_self m ms0
      constructor
      · exact countL_eq_zero_free hL02 m hm
      · intro him1
        exact absurd him1 (countL_eq_zero_free hL01 m hm)

/-- Phase two: once the opposite side is free of an id, the loop keeps it
free and never emits a fill on it. -/
theorem matchLoop_oppFree (fuel : Nat) (b : Book) (t : Order) (rq : Int) (id : Nat)
    (h : sideFree (b.opp t.side) id) :
    sideFree ((matchLoop fuel b t rq).book.opp t.side) id ∧
    ∀ f ∈ (matchLoop fuel b t rq).fills, f.makerId ≠ id := by
  induction fuel generalizing b t rq with
  | zero => exact ⟨h, by intro f hf; cases hf⟩
  | succ n ih =>
      unfold matchLoop
      cases hs : stepFn b t rq with
      | exitWhile => exact ⟨h, by intro f hf; cases hf⟩
      | exitStop => exact ⟨h, by intro f hf; cases hf⟩
      | exitFilled b' t' rq' f =>
          obtain ⟨h1, h2, h3, h4⟩ := (stepFn_free b t rq id).2 b' t' rq' f hs
          refine ⟨?_, ?_⟩
          · cases hside : t.side
            · rw [hside] at h
              exact h2 h
            · rw [hside] at h
              exact h1 h
          · intro g hg
            rw [List.mem_singleton] at hg
            subst hg
            exact h4 h
      | cont b' t' rq' f? =>
          obtain ⟨h1, h2, h3, h4⟩ := (stepFn_free b t rq id).1 b' t' rq' f? hs
          obtain ⟨-, hcase⟩ := stepFn_cont_inv hs
          have hside' : t'.side = t.side := by
            rcases hcase with ⟨ht', -⟩ | ⟨q, ht', -⟩ <;> subst ht' <;> rfl
          have h' : sideFree (b'.opp t'.side) id := by
            rw [hside']
            cases hside : t.side
            · rw [hside] at h
              exact h2 h
            · rw [hside] at h
              exact h1 h
          have hr := ih b' t' rq' h'
          rw [hside'] at hr
          refine ⟨hr.1, ?_⟩
          intro g hg
          simp only [List.mem_append] at hg
          rcases hg with hg | hg
          · cases f? with
            | none => cases hg
            | some f0 =>
                rw [Option.toList_some, List.mem_singleton] at hg
                subst hg
                exact h4 g rfl h
          · exact hr.2 g hg

theorem fifoList_nodup {id1 id2 : Nat} {r1 : Int} {ls : List Limit}
    (h : FifoList id1 id2 r1 ls) : (pricesOf ls).Nodup := by
  obtain ⟨u, L, v, l1, x, l2, y, l3, hdec, hord, hx, hy, hr, hc1, hc2, hnd⟩ := h
  exact hnd

/-- One fill on a front resting order that carries neither tracked id
preserves all phase-one invariants through the book mutations of
src/orderbook.cpp:108-129 (pointer write, conditional deactivate-and-
remove, conditional level erase). -/
theorem afterFill_fifo_other {id1 id2 : Nat} {r1 : Int} {s : Side} {b : Book}
    {L0 : Limit} {rest : List Limit} {m : Order} {ms0 : List Order} {m' : Order}
    (hopp : b.opp s = L0 :: rest)
    (hord0 : L0.orders = m :: ms0)
    (hfifo : FifoList id1 id2 r1 (b.opp s))
    (hsinv : SideInv (oppSideOf s) (b.opp s))
    (huniq : UniqueIds (b.opp s))
    (hkey1 : hasOrderId b.ordersById id1 = true)
    (hne : id1 ≠ id2)
    (hm1 : m.id ≠ id1) (hm2 : m.id ≠ id2)
    (hid : m'.id = m.id) (hsd : m'.side = m.side) (hpr : m'.price = m.price) :
    FifoList id1 id2 r1 ((afterFill b s L0.price m').opp s) ∧
    SideInv (oppSideOf s) ((afterFill b s L0.price m').opp s) ∧
    UniqueIds ((afterFill b s L0.price m').opp s) ∧
    hasOrderId (afterFill b s L0.price m').ordersById id1 = true := by
  have hmmem : m ∈ L0.orders := by
    rw [hord0]
    exact List.mem_cons_self m ms0
  have hL0mem : L0 ∈ b.opp s := by
    rw [hopp]
    exact List.mem_cons_self L0 rest
  have hmside := hsinv L0 hL0mem m hmmem
  have hu := uniqueIds_count huniq
  have hms00 : idCount ms0 m.id = 0 := by
    have hcl : countL L0 m.id ≤ 1 :=
      le_trans (countSide_ge_mem hL0mem m.id) (hu m.id)
    have h1 : countL L0 m.id = idCount (m :: ms0) m.id := by
      rw [countL_eq_idCount, hord0]
    rw [idCount_cons, if_pos rfl] at h1
    omega
  have hms0 : ∀ z ∈ ms0, z.id ≠ m'.id := by
    rw [hid]
    exact idCount_zero_free hms00
  have hopp1 : (b.updateOrderCopies m').opp s
      = (L0.updateCopies m') :: rest.map (fun M => M.updateCopies m') := by
    rw [updateOrderCopies_opp, hopp, List.map_cons]
  have hL0'ord : (L0.updateCopies m').orders = m' :: ms0 :=
    updateCopies_cons m' hord0 (by rw [hid]; exact beq_self_eq_true m.id) hms0
  have hfif1 : FifoList id1 id2 r1 ((b.updateOrderCopies m').opp s) := by
    rw [updateOrderCopies_opp]
    exact (fifoList_map_update hfifo m' hne (by rw [hid]; exact hm2)).1
      (by rw [hid]; exact hm1)
  have hsinv1 : SideInv (oppSideOf s) ((b.updateOrderCopies m').opp s) := by
    rw [updateOrderCopies_opp]
    exact sideInv_map_updateCopies m' hsinv hu hL0mem hmmem hid hsd hpr
  have huniq1 : UniqueIds ((b.updateOrderCopies m').opp s) := by
    rw [updateOrderCopies_opp]
    exact uniqueIds_of_counts
      (fun k => by rw [countSide_map_updateCopies]; exact hu k)
  have hkey1a : hasOrderId (b.updateOrderCopies m').ordersById id1 = true := by
    rw [updateOrderCopies_ordersById, hasOrderId_map_update]
    exact hkey1
  unfold afterFill
  by_cases hfull : m'.filledQty ≥ m'.quantity
  · simp only [hfull, if_true]
    have hopp15 : ((b.updateOrderCopies m').updateOrderCopies m'.deactivate).opp s
        = ((L0.updateCopies m').updateCopies m'.deactivate)
          :: (rest.map (fun M => M.updateCopies m')).map
               (fun M => M.updateCopies m'.deactivate) := by
      rw [updateOrderCopies_opp, hopp1, List.map_cons]
    have hL0''ord : ((L0.updateCopies m').updateCopies m'.deactivate).orders
        = m'.deactivate :: ms0 :=
      updateCopies_cons m'.deactivate hL0'ord (beq_self_eq_true m'.id) hms0
    have hm'mem : m' ∈ (L0.updateCopies m').orders := by
      rw [hL0'ord]
      exact List.mem_cons_self _ _
    have hL0'mem : (L0.updateCopies m') ∈ (b.updateOrderCopies m').opp s := by
      rw [hopp1]
      exact List.mem_cons_self _ _
    have hu1 := uniqueIds_count huniq1
    have hfif15 : FifoList id1 id2 r1
        (((b.updateOrderCopies m').updateOrderCopies m'.deactivate).opp s) := by
      rw [updateOrderCopies_opp]
      exact (fifoList_map_update hfif1 m'.deactivate hne
        (by show m'.id ≠ id2; rw [hid]; exact hm2)).1
        (by show m'.id ≠ id1; rw [hid]; exact hm1)
    have hsinv15 : SideInv (oppSideOf s)
        (((b.updateOrderCopies m').updateOrderCopies m'.deactivate).opp s) := by
      rw [updateOrderCopies_opp]
      exact sideInv_map_updateCopies m'.deactivate hsinv1 hu1 hL0'mem hm'mem rfl rfl rfl
    have huniq15 : UniqueIds
        (((b.updateOrderCopies m').updateOrderCopies m'.deactivate).opp s) := by
      rw [updateOrderCopies_opp]
      exact uniqueIds_of_counts
        (fun k => by rw [countSide_map_updateCopies]; exact hu1 k)
    have hkey15 : hasOrderId
        ((b.updateOrderCopies m').updateOrderCopies m'.deactivate).ordersById id1
          = true := by
      rw [updateOrderCopies_ordersById, hasOrderId_map_update]
      exact hkey1a
    have hfif15' : FifoList id1 id2 r1
        (((L0.updateCopies m').updateCopies m'.deactivate)
          :: (rest.map (fun M => M.updateCopies m')).map
               (fun M => M.updateCopies m'.deactivate)) := by
      rw [← hopp15]
      exact hfif15
    have hsinv15' : SideInv (oppSideOf s)
        (((L0.updateCopies m').updateCopies m'.deactivate)
          :: (rest.map (fun M => M.updateCopies m')).map
               (fun M => M.updateCopies m'.deactivate)) := by
      rw [← hopp15]
      exact hsinv15
    have hndopp : (pricesOf (b.opp s)).Nodup := fifoList_nodup hfifo
    have hndLrest : (pricesOf (L0 :: rest)).Nodup := by
      rw [← hopp]
      exact hndopp
    have hL0nin : ∀ N ∈ rest, (N.price == L0.price) = false := by
      have h1 : pricesOf (L0 :: rest) = L0.price :: pricesOf rest := rfl
      rw [h1] at hndLrest
      intro N hN
      have h2 := (List.nodup_cons.mp hndLrest).1
      have h3 : N.price ≠ L0.price := by
        intro hh
        exact h2 (by rw [← hh]; exact List.mem_map_of_mem _ hN)
      simpa using h3
    have hrestp : ∀ N ∈ (rest.map (fun M => M.updateCopies m')).map
        (fun M => M.updateCopies m'.deactivate), (N.price == L0.price) = false := by
      intro N hN
      rcases List.mem_map.mp hN with ⟨N1, hN1, rfl⟩
      rcases List.mem_map.mp hN1 with ⟨N0, hN0, rfl⟩
      exact hL0nin N0 hN0
    by_cases hhas : hasOrderId
        ((b.updateOrderCopies m').updateOrderCopies m'.deactivate).ordersById
        (m'.deactivate).id = true
    · have hside'' : (m'.deactivate).side = oppSideOf s := by
        show m'.side = oppSideOf s
        rw [hsd]
        exact hmside.1
      have hpq : (m'.deactivate).price = L0.price := by
        show m'.price = L0.price
        rw [hpr]
        exact hmside.2
      have hfind'' : findLimit
          (((b.updateOrderCopies m').updateOrderCopies m'.deactivate).opp s)
          (m'.deactivate).price
          = some ((L0.updateCopies m').updateCopies m'.deactivate) := by
        rw [hpq, hopp15]
        exact findLimit_head _ (beq_self_eq_true L0.price)
      obtain ⟨hremopp, hremids⟩ := removeOrderFromBook_opp
        ((b.updateOrderCopies m').updateOrderCopies m'.deactivate)
        (m'.deactivate) s ((L0.updateCopies m').updateCopies m'.deactivate)
        hside'' hhas hfind''
      rw [hpq] at hremopp
      have hremord : (((L0.updateCopies m').updateCopies m'.deactivate).removeOrder
          (some m'.deactivate)).orders = ms0 := by
        have hany : (((L0.updateCopies m').updateCopies m'.deactivate).orders.any
            (fun z => z.id == (m'.deactivate).id)) = true := by
          rw [hL0''ord]
          simp
        rw [removeOrder_orders_of_any hany, hL0''ord]
        simp [eraseFirst]
      have hkeyafter : hasOrderId (eraseOrderId
          ((b.updateOrderCopies m').updateOrderCopies m'.deactivate).ordersById
          (m'.deactivate).id) id1 = true := by
        rw [hasOrderId_eraseOrderId_ne _ (by show m'.id ≠ id1; rw [hid]; exact hm1)]
        exact hkey15
      by_cases hemp : (((L0.updateCopies m').updateCopies m'.deactivate).removeOrder
          (some m'.deactivate)).isEmptyLevel = true
      · rw [if_pos hemp] at hremopp
        have hms0nil : ms0 = [] := by
          cases hms0eq : ms0 with
          | nil => rfl
          | cons a as =>
              have hfalse := isEmptyLevel_false_of
                (L := ((L0.updateCopies m').updateCopies m'.deactivate).removeOrder
                  (some m'.deactivate))
                (by rw [hremord, hms0eq]; simp)
              rw [hfalse] at hemp
              cases hemp
        have herase : eraseLimit
            (((b.updateOrderCopies m').updateOrderCopies m'.deactivate).opp s)
            L0.price
            = (rest.map (fun M => M.updateCopies m')).map
                (fun M => M.updateCopies m'.deactivate) := by
          rw [hopp15]
          exact eraseLimit_head _ (beq_self_eq_true L0.price)
        have hcL0'' : countL ((L0.updateCopies m').updateCopies m'.deactivate) id1
            = 0 := by
          rw [countL_eq_idCount, hL0''ord, hms0nil, idCount_cons]
          rw [if_neg (by show m'.id ≠ id1; rw [hid]; exact hm1)]
          rfl
        have hfifT : FifoList id1 id2 r1
            ((rest.map (fun M => M.updateCopies m')).map
              (fun M => M.updateCopies m'.deactivate)) :=
          fifoList_tail hfif15' hne hcL0''
        have hfnone : findLimit ((rest.map (fun M => M.updateCopies m')).map
            (fun M => M.updateCopies m'.deactivate)) L0.price = none :=
          findLimit_none_of_all hrestp
        have hfnone2 : findLimit
            ((((b.updateOrderCopies m').updateOrderCopies
                m'.deactivate).removeOrderFromBook m'.deactivate).1.opp s)
            L0.price = none := by
          rw [hremopp, herase]
          exact hfnone
        rw [eraseOppIfEmpty_of_none hfnone2]
        refine ⟨?_, ?_, ?_, ?_⟩
        · rw [hremopp, herase]
          exact hfifT
        · rw [hremopp, herase]
          exact sideInv_sublist (List.sublist_cons_self _ _) hsinv15'
        · rw [hremopp, herase]
          have huniq15' : UniqueIds
              (((L0.updateCopies m').updateCopies m'.deactivate)
                :: (rest.map (fun M => M.updateCopies m')).map
                     (fun M => M.updateCopies m'.deactivate)) := by
            rw [← hopp15]
            exact huniq15
          exact uniqueIds_sublist (List.sublist_cons_self _ _) huniq15'
        · rw [hremids]
          exact hkeyafter
      · rw [if_neg hemp] at hremopp
        have hfifR : FifoList id1 id2 r1 (replaceLimit
            (((b.updateOrderCopies m').updateOrderCopies m'.deactivate).opp s)
            L0.price
            (((L0.updateCopies m').updateCopies m'.deactivate).removeOrder
              (some m'.deactivate))) := by
          rcases fifoList_replaceLimit hfif15 hne
            (by rw [hopp15]; exact findLimit_head _ (beq_self_eq_true L0.price))
            (by show m'.id ≠ id2; rw [hid]; exact hm2) with hok | ⟨heq1, -⟩
          · exact hok
          · have heq1' : m'.id = id1 := heq1
            rw [hid] at heq1'
            exact absurd heq1' hm1
        have hrepl : replaceLimit
            (((b.updateOrderCopies m').updateOrderCopies m'.deactivate).opp s)
            L0.price
            (((L0.updateCopies m').updateCopies m'.deactivate).removeOrder
              (some m'.deactivate))
            = (((L0.updateCopies m').updateCopies m'.deactivate).removeOrder
                (some m'.deactivate))
              :: (rest.map (fun M => M.updateCopies m')).map
                   (fun M => M.updateCopies m'.deactivate) := by
          rw [hopp15]
          have hdecomp := replaceLimit_decomp []
            ((rest.map (fun M => M.updateCopies m')).map
              (fun M => M.updateCopies m'.deactivate))
            ((L0.updateCopies m').updateCopies m'.deactivate) L0.price
            (((L0.updateCopies m').updateCopies m'.deactivate).removeOrder
              (some m'.deactivate))
            (by intro N hN; cases hN) (beq_self_eq_true L0.price) hrestp
          simpa using hdecomp
        have hfind2 : findLimit
            ((((b.updateOrderCopies m').updateOrderCopies
                m'.deactivate).removeOrderFromBook m'.deactivate).1.opp s)
            L0.price
            = some (((L0.updateCopies m').updateCopies m'.deactivate).removeOrder
                (some m'.deactivate)) := by
          rw [hremopp, hrepl]
          refine findLimit_head _ ?_
          rw [removeOrder_price]
          exact beq_self_eq_true L0.price
        rw [eraseOppIfEmpty_of_nonempty hfind2 (Bool.eq_false_iff.mpr hemp)]
        refine ⟨?_, ?_, ?_, ?_⟩
        · rw [hremopp]
          exact hfifR
        · rw [hremopp, hrepl]
          exact sideInv_cons_remove m'.deactivate hsinv15'
        · rw [hremopp, hrepl]
          refine uniqueIds_of_counts (fun k => ?_)
          rw [countSide_cons]
          have h1 : countL (((L0.updateCopies m').updateCopies
              m'.deactivate).removeOrder (some m'.deactivate)) k
              ≤ countL ((L0.updateCopies m').updateCopies m'.deactivate) k := by
            rw [countL_eq_idCount, countL_eq_idCount]
            exact idCount_sublist (removeOrder_orders_sublist _ _) k
          have h2 := uniqueIds_count huniq15 k
          rw [hopp15, countSide_cons] at h2
          omega
        · rw [hremids]
          exact hkeyafter
    · have hrem := removeOrderFromBook_nohas
        ((b.updateOrderCopies m').updateOrderCopies m'.deactivate) m'.deactivate
        (Bool.eq_false_iff.mpr hhas)
      rw [hrem]
      have hfind : findLimit
          (((b.updateOrderCopies m').updateOrderCopies m'.deactivate).opp s)
          L0.price
          = some ((L0.updateCopies m').updateCopies m'.deactivate) := by
        rw [hopp15]
        exact findLimit_head _ (beq_self_eq_true L0.price)
      have hne0 : ((L0.updateCopies m').updateCopies m'.deactivate).isEmptyLevel
          = false := by
        apply isEmptyLevel_false_of
        rw [hL0''ord]
        simp
      rw [eraseOppIfEmpty_of_nonempty hfind hne0]
      exact ⟨hfif15, hsinv15, huniq15, hkey15⟩
  · simp only [hfull, if_false]
    have hfind : findLimit ((b.updateOrderCopies m').opp s) L0.price
        = some (L0.updateCopies m') := by
      rw [hopp1]
      exact findLimit_head _ (beq_self_eq_true L0.price)
    have hne0 : (L0.updateCopies m').isEmptyLevel = false := by
      apply isEmptyLevel_false_of
      rw [hL0'ord]
      simp
    rw [eraseOppIfEmpty_of_nonempty hfind hne0]
    exact ⟨hfif1, hsinv1, huniq1, hkey1a⟩

/-- The phase transition: a fill that fully consumes the tracked front
order removes it (deactivate + `removeOrderFromBook`), leaving the
opposite side with no occurrence of its id. -/
theorem afterFill_fifo_id1 {id1 : Nat} {s : Side} {b : Book}
    {L0 : Limit} {rest : List Limit} {m : Order} {ms0 : List Order} {m' : Order}
    (hopp : b.opp s = L0 :: rest)
    (hord0 : L0.orders = m :: ms0)
    (hnd : (pricesOf (b.opp s)).Nodup)
    (hm1 : m.id = id1)
    (hms00 : idCount ms0 id1 = 0)
    (hcrest : countSide rest id1 = 0)
    (hmsd : m.side = oppSideOf s) (hmpr : m.price = L0.price)
    (hkey1 : hasOrderId b.ordersById id1 = true)
    (hid : m'.id = m.id) (hsd : m'.side = m.side) (hpr : m'.price = m.price)
    (hfull : m'.filledQty ≥ m'.quantity) :
    sideFree ((afterFill b s L0.price m').opp s) id1 := by
  have hms0 : ∀ z ∈ ms0, z.id ≠ m'.id := by
    rw [hid, hm1]
    exact idCount_zero_free hms00
  have hopp1 : (b.updateOrderCopies m').opp s
      = (L0.updateCopies m') :: rest.map (fun M => M.updateCopies m') := by
    rw [updateOrderCopies_opp, hopp, List.map_cons]
  have hL0'ord : (L0.updateCopies m').orders = m' :: ms0 :=
    updateCopies_cons m' hord0 (by rw [hid]; exact beq_self_eq_true m.id) hms0
  have hopp15 : ((b.updateOrderCopies m').updateOrderCopies m'.deactivate).opp s
      = ((L0.updateCopies m').updateCopies m'.deactivate)
        :: (rest.map (fun M => M.updateCopies m')).map
             (fun M => M.updateCopies m'.deactivate) := by
    rw [updateOrderCopies_opp, hopp1, List.map_cons]
  have hL0''ord : ((L0.updateCopies m').updateCopies m'.deactivate).orders
      = m'.deactivate :: ms0 :=
    updateCopies_cons m'.deactivate hL0'ord (beq_self_eq_true m'.id) hms0
  have hcrest'' : countSide ((rest.map (fun M => M.updateCopies m')).map
      (fun M => M.updateCopies m'.deactivate)) id1 = 0 := by
    rw [countSide_map_updateCopies, countSide_map_updateCopies]
    exact hcrest
  have hndLrest : (pricesOf (L0 :: rest)).Nodup := by
    rw [← hopp]
    exact hnd
  have hL0nin : ∀ N ∈ rest, (N.price == L0.price) = false := by
    have h1 : pricesOf (L0 :: rest) = L0.price :: pricesOf rest := rfl
    rw [h1] at hndLrest
    intro N hN
    have h2 := (List.nodup_cons.mp hndLrest).1
    have h3 : N.price ≠ L0.price := by
      intro hh
      exact h2 (by rw [← hh]; exact List.mem_map_of_mem _ hN)
    simpa using h3
  have hrestp : ∀ N ∈ (rest.map (fun M => M.updateCopies m')).map
      (fun M => M.updateCopies m'.deactivate), (N.price == L0.price) = false := by
    intro N hN
    rcases List.mem_map.mp hN with ⟨N1, hN1, rfl⟩
    rcases List.mem_map.mp hN1 with ⟨N0, hN0, rfl⟩
    exact hL0nin N0 hN0
  unfold afterFill
  simp only [hfull, if_true]
  have hhas : hasOrderId
      ((b.updateOrderCopies m').updateOrderCopies m'.deactivate).ordersById
      (m'.deactivate).id = true := by
    show hasOrderId _ m'.id = true
    rw [updateOrderCopies_ordersById, hasOrderId_map_update,
      updateOrderCopies_ordersById, hasOrderId_map_update, hid, hm1]
    exact hkey1
  have hside'' : (m'.deactivate).side = oppSideOf s := by
    show m'.side = oppSideOf s
    rw [hsd]
    exact hmsd
  have hpq : (m'.deactivate).price = L0.price := by
    show m'.price = L0.price
    rw [hpr]
    exact hmpr
  have hfind'' : findLimit
      (((b.updateOrderCopies m').updateOrderCopies m'.deactivate).opp s)
      (m'.deactivate).price
      = some ((L0.updateCopies m').updateCopies m'.deactivate) := by
    rw [hpq, hopp15]
    exact findLimit_head _ (beq_self_eq_true L0.price)
  obtain ⟨hremopp, hremids⟩ := removeOrderFromBook_opp
    ((b.updateOrderCopies m').updateOrderCopies m'.deactivate)
    (m'.deactivate) s ((L0.updateCopies m').updateCopies m'.deactivate)
    hside'' hhas hfind''
  rw [hpq] at hremopp
  have hremord : (((L0.updateCopies m').updateCopies m'.deactivate).removeOrder
      (some m'.deactivate)).orders = ms0 := by
    have hany : (((L0.updateCopies m').updateCopies m'.deactivate).orders.any
        (fun z => z.id == (m'.deactivate).id)) = true := by
      rw [hL0''ord]
      simp
    rw [removeOrder_orders_of_any hany, hL0''ord]
    simp [eraseFirst]
  by_cases hemp : (((L0.updateCopies m').updateCopies m'.deactivate).removeOrder
      (some m'.deactivate)).isEmptyLevel = true
  · rw [if_pos hemp] at hremopp
    have herase : eraseLimit
        (((b.updateOrderCopies m').updateOrderCopies m'.deactivate).opp s)
        L0.price
        = (rest.map (fun M => M.updateCopies m')).map
            (fun M => M.updateCopies m'.deactivate) := by
      rw [hopp15]
      exact eraseLimit_head _ (beq_self_eq_true L0.price)
    have hfnone2 : findLimit
        ((((b.updateOrderCopies m').updateOrderCopies
            m'.deactivate).removeOrderFromBook m'.deactivate).1.opp s)
        L0.price = none := by
      rw [hremopp, herase]
      exact findLimit_none_of_all hrestp
    rw [eraseOppIfEmpty_of_none hfnone2]
    rw [hremopp, herase]
    exact countSide_eq_zero_free hcrest''
  · rw [if_neg hemp] at hremopp
    have hrepl : replaceLimit
        (((b.updateOrderCopies m').updateOrderCopies m'.deactivate).opp s)
        L0.price
        (((L0.updateCopies m').updateCopies m'.deactivate).removeOrder
          (some m'.deactivate))
        = (((L0.updateCopies m').updateCopies m'.deactivate).removeOrder
            (some m'.deactivate))
          :: (rest.map (fun M => M.updateCopies m')).map
               (fun M => M.updateCopies m'.deactivate) := by
      rw [hopp15]
      have hdecomp := replaceLimit_decomp []
        ((rest.map (fun M => M.updateCopies m')).map
          (fun M => M.updateCopies m'.deactivate))
        ((L0.updateCopies m').updateCopies m'.deactivate) L0.price
        (((L0.updateCopies m').updateCopies m'.deactivate).removeOrder
          (some m'.deactivate))
        (by intro N hN; cases hN) (beq_self_eq_true L0.price) hrestp
      simpa using hdecomp
    have hfind2 : findLimit
        ((((b.updateOrderCopies m').updateOrderCopies
            m'.deactivate).removeOrderFromBook m'.deactivate).1.opp s)
        L0.price
        = some (((L0.updateCopies m').updateCopies m'.deactivate).removeOrder
            (some m'.deactivate)) := by
      rw [hremopp, hrepl]
      refine findLimit_head _ ?_
      rw [removeOrder_price]
      exact beq_self_eq_true L0.price
    rw [eraseOppIfEmpty_of_nonempty hfind2 (Bool.eq_false_iff.mpr hemp)]
    rw [hremopp, hrepl]
    refine countSide_eq_zero_free ?_
    rw [countSide_cons, hcrest'']
    have h1 : countL (((L0.updateCopies m').updateCopies
        m'.deactivate).removeOrder (some m'.deactivate)) id1
        = idCount ms0 id1 := by
      rw [countL_eq_idCount, hremord]
    omega

theorem stepFn_exitFilled_shape {b : Book} {t : Order} {rq : Int}
    {b' : Book} {t' : Order} {rq' : Int} {f : Fill}
    (h : stepFn b t rq = StepOut.exitFilled b' t' rq' f) :
    ∃ L rest m ms, 0 < rq ∧ b.opp t.side = L :: rest ∧ L.orders = m :: ms ∧
      f = { symbol := b.symbol, price := L.price,
            qty := min rq (m.quantity - m.filledQty),
            sign := sideSign t.side, makerId := m.id } ∧
      b' = afterFill b t.side L.price
        (m.fillQuantity (min rq (m.quantity - m.filledQty))) ∧
      t' = t.fillQuantity (min rq (m.quantity - m.filledQty)) ∧
      rq' = rq - min rq (m.quantity - m.filledQty) ∧
      rq - min rq (m.quantity - m.filledQty) ≤ 0 := by
  revert h
  refine stepFn_elim b t rq
    (fun so => so = StepOut.exitFilled b' t' rq' f →
      ∃ L rest m ms, 0 < rq ∧ b.opp t.side = L :: rest ∧ L.orders = m :: ms ∧
        f = { symbol := b.symbol, price := L.price,
              qty := min rq (m.quantity - m.filledQty),
              sign := sideSign t.side, makerId := m.id } ∧
        b' = afterFill b t.side L.price
          (m.fillQuantity (min rq (m.quantity - m.filledQty))) ∧
        t' = t.fillQuantity (min rq (m.quantity - m.filledQty)) ∧
        rq' = rq - min rq (m.quantity - m.filledQty) ∧
        rq - min rq (m.quantity - m.filledQty) ≤ 0)
    ?_ ?_ ?_ ?_ ?_ ?_
  · exact fun _ h => StepOut.noConfusion h
  · exact fun _ _ h => StepOut.noConfusion h
  · exact fun L rest _ _ _ _ h => StepOut.noConfusion h
  · exact fun L rest _ _ _ _ h => StepOut.noConfusion h
  · intro L rest m ms hrq hopp hstop hord hle h
    cases h
    exact ⟨L, rest, m, ms, hrq, hopp, hord, rfl, rfl, rfl, rfl, hle⟩
  · exact fun L rest m ms _ _ _ _ _ h => StepOut.noConfusion h

theorem stepFn_cont_shape {b : Book} {t : Order} {rq : Int}
    {b' : Book} {t' : Order} {rq' : Int} {f? : Option Fill}
    (h : stepFn b t rq = StepOut.cont b' t' rq' f?) :
    (∃ L rest, 0 < rq ∧ b.opp t.side = L :: rest ∧ L.orders = [] ∧
      b' = b.setOpp t.side rest ∧ t' = t ∧ rq' = rq ∧ f? = none) ∨
    (∃ L rest m ms, 0 < rq ∧ b.opp t.side = L :: rest ∧ L.orders = m :: ms ∧
      f? = some { symbol := b.symbol, price := L.price, qty := min rq (m.quantity - m.filledQty), sign := sideSign t.side, makerId := m.id } ∧
      b' = afterFill b t.side L.price
        (m.fillQuantity (min rq (m.quantity - m.filledQty))) ∧
      t' = t.fillQuantity (min rq (m.quantity - m.filledQty)) ∧
      rq' = rq - min rq (m.quantity - m.filledQty) ∧
      ¬(rq - min rq (m.quantity - m.filledQty) ≤ 0)) := by
  revert h
  refine stepFn_elim b t rq
    (fun so => so = StepOut.cont b' t' rq' f? →
      (∃ L rest, 0 < rq ∧ b.opp t.side = L :: rest ∧ L.orders = [] ∧
        b' = b.setOpp t.side rest ∧ t' = t ∧ rq' = rq ∧ f? = none) ∨
      (∃ L rest m ms, 0 < rq ∧ b.opp t.side = L :: rest ∧ L.orders = m :: ms ∧
        f? = some { symbol := b.symbol, price := L.price, qty := min rq (m.quantity - m.filledQty), sign := sideSign t.side, makerId := m.id } ∧
        b' = afterFill b t.side L.price
          (m.fillQuantity (min rq (m.quantity - m.filledQty))) ∧
        t' = t.fillQuantity (min rq (m.quantity - m.filledQty)) ∧
        rq' = rq - min rq (m.quantity - m.filledQty) ∧
        ¬(rq - min rq (m.quantity - m.filledQty) ≤ 0)))
    ?_ ?_ ?_ ?_ ?_ ?_
  · exact fun _ h => StepOut.noConfusion h
  · exact fun _ _ h => StepOut.noConfusion h
  · exact fun L rest _ _ _ _ h => StepOut.noConfusion h
  · intro L rest hrq hopp hstop hord h
    cases h
    exact Or.inl ⟨L, rest, hrq, hopp, hord, rfl, rfl, rfl, rfl⟩
  · exact fun L rest m ms _ _ _ _ _ h => StepOut.noConfusion h
  · intro L rest m ms hrq hopp hstop hord hgt h
    cases h
    exact Or.inr ⟨L, rest, m, ms, hrq, hopp, hord, rfl, rfl, rfl, rfl, hgt⟩

/-- Dropping a degenerate empty head level preserves all phase-one
invariants. -/
theorem setOpp_fifo_tail {id1 id2 : Nat} {r1 : Int} {s : Side} {b : Book}
    {L0 : Limit} {rest : List Limit}
    (hopp : b.opp s = L0 :: rest)
    (hord0 : L0.orders = [])
    (hfifo : FifoList id1 id2 r1 (b.opp s))
    (hsinv : SideInv (oppSideOf s) (b.opp s))
    (huniq : UniqueIds (b.opp s))
    (hkey1 : hasOrderId b.ordersById id1 = true)
    (hne : id1 ≠ id2) :
    FifoList id1 id2 r1 ((b.setOpp s rest).opp s) ∧
    SideInv (oppSideOf s) ((b.setOpp s rest).opp s) ∧
    UniqueIds ((b.setOpp s rest).opp s) ∧
    hasOrderId (b.setOpp s rest).ordersById id1 = true := by
  rw [setOpp_opp, setOpp_ordersById]
  have hfifo' : FifoList id1 id2 r1 (L0 :: rest) := by
    rw [← hopp]
    exact hfifo
  have hsinv' : SideInv (oppSideOf s) (L0 :: rest) := by
    rw [← hopp]
    exact hsinv
  have huniq' : UniqueIds (L0 :: rest) := by
    rw [← hopp]
    exact huniq
  have h0 : countL L0 id1 = 0 := by
    rw [countL_eq_idCount, hord0]
    rfl
  exact ⟨fifoList_tail hfifo' hne h0,
    sideInv_sublist (List.sublist_cons_self _ _) hsinv',
    uniqueIds_sublist (List.sublist_cons_self _ _) huniq', hkey1⟩

/-- Phase-one loop induction: under the FIFO invariant the fill trace of
the matching loop splits into a prefix with no fills on the follower id
and a suffix with no fills on the leader id; if the follower is ever
filled, the prefix filled the leader for exactly its resting remaining
quantity and the leader was removed from the side. -/
theorem fifo_loop (id1 id2 : Nat) (r1 : Int) (fuel : Nat) :
    ∀ (b : Book) (t : Order) (rq : Int),
    FifoList id1 id2 r1 (b.opp t.side) →
    SideInv (oppSideOf t.side) (b.opp t.side) →
    UniqueIds (b.opp t.side) →
    hasOrderId b.ordersById id1 = true →
    id1 ≠ id2 →
    ∃ u v, (matchLoop fuel b t rq).fills = u ++ v ∧
      fillsOn id2 u = [] ∧ fillsOn id1 v = [] ∧
      (fillsOn id2 v ≠ [] →
        sumQty (fillsOn id1 u) = r1 ∧
        sideFree ((matchLoop fuel b t rq).book.opp t.side) id1) := by
  induction fuel with
  | zero =>
      intro b t rq _ _ _ _ _
      exact ⟨[], [], rfl, rfl, rfl, fun hcon => absurd rfl hcon⟩
  | succ n ih =>
      intro b t rq hfifo hsinv huniq hkey1 hne
      unfold matchLoop
      cases hs : stepFn b t rq with
      | exitWhile => exact ⟨[], [], rfl, rfl, rfl, fun hcon => absurd rfl hcon⟩
      | exitStop => exact ⟨[], [], rfl, rfl, rfl, fun hcon => absurd rfl hcon⟩
      | exitFilled b' t' rq' f =>
          obtain ⟨L, rest, m, ms, hrq, hopp, hord, hf, hb', ht', hrq'2, hle⟩ :=
            stepFn_exitFilled_shape hs
          have hfifo' : FifoList id1 id2 r1 (L :: rest) := by
            rw [← hopp]
            exact hfifo
          have hfront := fifo_front hfifo' hne hord
          refine ⟨[f], [], (List.append_nil [f]).symm, ?_, rfl,
            fun hcon => absurd rfl hcon⟩
          refine fillsOn_cons_ne [] ?_
          rw [hf]
          exact hfront.1
      | cont b' t' rq' f? =>
          rcases stepFn_cont_shape hs with
            ⟨L, rest, hrq, hopp, hord, hb', ht', hrq'2, hf⟩ |
            ⟨L, rest, m, ms, hrq, hopp, hord, hf, hb', ht', hrq'2, hgt⟩
          · subst hf
            rw [hb', ht', hrq'2]
            obtain ⟨hfifoT, hsinvT, huniqT, hkeyT⟩ :=
              setOpp_fifo_tail hopp hord hfifo hsinv huniq hkey1 hne
            obtain ⟨u, v, he, hu2, hv1, hcond⟩ :=
              ih (b.setOpp t.side rest) t rq hfifoT hsinvT huniqT hkeyT hne
            refine ⟨u, v, ?_, hu2, hv1, hcond⟩
            simp only [Option.toList_none, List.nil_append]
            exact he
          · subst hf
            rw [hb', ht', hrq'2]
            by_cases hmid : m.id = id1
            · have hfifo' : FifoList id1 id2 r1 (L :: rest) := by
                rw [← hopp]
                exact hfifo
              obtain ⟨hfM2, hfull⟩ := fifo_front hfifo' hne hord
              obtain ⟨hrem, hcs1, hcs2, hmsfree, l2, y, l3, hms, hy⟩ := hfull hmid
              have hq : min rq (m.quantity - m.filledQty) = r1 := by
                by_cases hle2 : rq ≤ m.quantity - m.filledQty
                · exfalso
                  apply hgt
                  rw [min_eq_left hle2]
                  omega
                · rw [min_eq_right (le_of_not_le hle2)]
                  exact hrem
              have hfullm : (m.fillQuantity (min rq (m.quantity
                  - m.filledQty))).filledQty
                  ≥ (m.fillQuantity (min rq (m.quantity - m.filledQty))).quantity := by
                show m.filledQty + min rq (m.quantity - m.filledQty) ≥ m.quantity
                rw [hq]
                omega
              have hmmem : m ∈ L.orders := by
                rw [hord]
                exact List.mem_cons_self m ms
              have hLmem : L ∈ b.opp t.side := by
                rw [hopp]
                exact List.mem_cons_self L rest
              have hmside := hsinv L hLmem m hmmem
              have hfree := afterFill_fifo_id1 hopp hord (fifoList_nodup hfifo)
                hmid hmsfree hcs1 hmside.1 hmside.2 hkey1
                (rfl : (m.fillQuantity (min rq (m.quantity - m.filledQty))).id
                  = m.id)
                rfl rfl hfullm
              have hoppfree := matchLoop_oppFree n
                (afterFill b t.side L.price
                  (m.fillQuantity (min rq (m.quantity - m.filledQty))))
                (t.fillQuantity (min rq (m.quantity - m.filledQty)))
                (rq - min rq (m.quantity - m.filledQty)) id1 hfree
              refine ⟨[{ symbol := b.symbol, price := L.price, qty := min rq (m.quantity - m.filledQty), sign := sideSign t.side, makerId := m.id }],
                (matchLoop n
                  (afterFill b t.side L.price
                    (m.fillQuantity (min rq (m.quantity - m.filledQty))))
                  (t.fillQuantity (min rq (m.quantity - m.filledQty)))
                  (rq - min rq (m.quantity - m.filledQty))).fills,
                rfl, ?_, ?_, ?_⟩
              · refine fillsOn_cons_ne [] ?_
                show m.id ≠ id2
                rw [hmid]
                exact hne
              · exact fillsOn_eq_nil_of _ _ hoppfree.2
              · intro hv2
                refine ⟨?_, hoppfree.1⟩
                rw [fillsOn_cons_eq [] (by show m.id = id1; exact hmid)]
                rw [sumQty_cons]
                show min rq (m.quantity - m.filledQty) + sumQty (fillsOn id1 []) = r1
                rw [hq]
                show r1 + 0 = r1
                ring
            · have hfifo' : FifoList id1 id2 r1 (L :: rest) := by
                rw [← hopp]
                exact hfifo
              have hm2 : m.id ≠ id2 := (fifo_front hfifo' hne hord).1
              obtain ⟨hfifoA, hsinvA, huniqA, hkeyA⟩ :=
                afterFill_fifo_other hopp hord hfifo hsinv huniq hkey1 hne
                  hmid hm2
                  (rfl : (m.fillQuantity (min rq (m.quantity - m.filledQty))).id
                    = m.id)
                  rfl rfl
              obtain ⟨u, v, he, hu2, hv1, hcond⟩ :=
                ih (afterFill b t.side L.price
                    (m.fillQuantity (min rq (m.quantity - m.filledQty))))
                  (t.fillQuantity (min rq (m.quantity - m.filledQty)))
                  (rq - min rq (m.quantity - m.filledQty))
                  hfifoA hsinvA huniqA hkeyA hne
              refine ⟨{ symbol := b.symbol, price := L.price, qty := min rq (m.quantity - m.filledQty), sign := sideSign t.side, makerId := m.id } :: u,
                v, ?_, ?_, hv1, ?_⟩
              · show _ :: (matchLoop n _ _ _).fills = _
                rw [he, List.cons_append]
              · refine (fillsOn_cons_ne u ?_).trans hu2
                exact hm2
              · intro hv2
                obtain ⟨hsum, hfree⟩ := hcond hv2
                refine ⟨?_, hfree⟩
                rw [fillsOn_cons_ne u (by show m.id ≠ id1; exact hmid)]
                exact hsum

theorem addOrderToBook_opp (bk : Book) (o : Order) :
    (bk.addOrderToBook o).opp o.side = bk.opp o.side := by
  unfold Book.addOrderToBook
  cases h : o.side <;> simp [Book.opp, h]

theorem matchOrder_book_opp (b : Book) (t : Order) (ht : t.isActive = true) :
    (b.matchOrder (some t)).book.opp t.side
      = (matchLoop b.fuelFor b t (t.quantity - t.filledQty)).book.opp t.side := by
  rw [matchOrder_some_eq b t ht]
  dsimp only
  split
  · rfl
  · split
    · have hside := (matchLoop_taker b.fuelFor b t (t.quantity - t.filledQty)).2.1
      show ((matchLoop b.fuelFor b t (t.quantity
        - t.filledQty)).book.addOrderToBook
          (matchLoop b.fuelFor b t (t.quantity - t.filledQty)).taker).opp t.side
        = (matchLoop b.fuelFor b t (t.quantity - t.filledQty)).book.opp t.side
      rw [← hside]
      exact addOrderToBook_opp _ _
    · split <;> rfl

/-- **C8**: strict FIFO time priority within a price level.
`Limit::addOrder` appends, so an order admitted to a level before another
rests strictly ahead of it; and for any match (`matchOrder` on an active
taker) against a side where order `o1` (id `id1`, remaining `r1`) rests
strictly ahead of `o2` (id `id2`) in the same level — under the
reachable-book invariants that resting orders carry their container's side
and their level's price, no id rests twice on the side, and `o1` is in the
id index — the emitted fill trace splits into a prefix with no fills on
`o2` and a suffix with no fills on `o1`, and if `o2` receives any fill at
all then the prefix filled `o1` for exactly its entire remaining quantity
`r1` and `o1` was removed from the side: `o1` is consumed before any
quantity of `o2` is filled. -/
theorem c8_fifo_priority (b : Book) (t : Order) (id1 id2 : Nat) (r1 : Int)
    (ht : t.isActive = true) (hne : id1 ≠ id2)
    (hfifo : FifoList id1 id2 r1 (b.opp t.side))
    (hsinv : SideInv (oppSideOf t.side) (b.opp t.side))
    (huniq : UniqueIds (b.opp t.side))
    (hkey1 : hasOrderId b.ordersById id1 = true) :
    (∀ (M : Limit) (o : Order), (M.addOrder (some o)).orders = M.orders ++ [o]) ∧
    ∃ u v, (b.matchOrder (some t)).fills = u ++ v ∧
      fillsOn id2 u = [] ∧ fillsOn id1 v = [] ∧
      (fillsOn id2 v ≠ [] →
        sumQty (fillsOn id1 u) = r1 ∧
        sideFree ((b.matchOrder (some t)).book.opp t.side) id1) := by
  refine ⟨fun M o => rfl, ?_⟩
  obtain ⟨u, v, he, hu2, hv1, hcond⟩ :=
    fifo_loop id1 id2 r1 b.fuelFor b t (t.quantity - t.filledQty)
      hfifo hsinv huniq hkey1 hne
  refine ⟨u, v, ?_, hu2, hv1, ?_⟩
  · rw [matchOrder_fills b t ht]
    exact he
  · intro hv2
    obtain ⟨hsum, hfree⟩ := hcond hv2
    refine ⟨hsum, ?_⟩
    rw [matchOrder_book_opp b t ht]
    exact hfree

theorem c8_fifo_priority_witness :
    (let o11 : Order := { id := 11, side := Side.SELL, type := OrderType.LIMIT, symbol := "S", price := 100, quantity := 3 }
     let o12 : Order := { id := 12, side := Side.SELL, type := OrderType.LIMIT, symbol := "S", price := 100, quantity := 3 }
     let b : Book := { symbol := "S", bids := [], asks := [{ price := 100, orders := [o11, o12], totalVolume := 6 }], ordersById := [(11, o11), (12, o12)] }
     let t : Order := { id := 6, side := Side.BUY, type := OrderType.LIMIT, symbol := "S", price := 100, quantity := 4 }
     (∀ (M : Limit) (o : Order), (M.addOrder (some o)).orders = M.orders ++ [o]) ∧
     ∃ u v, (b.matchOrder (some t)).fills = u ++ v ∧
       fillsOn 12 u = [] ∧ fillsOn 11 v = [] ∧
       (fillsOn 12 v ≠ [] →
         sumQty (fillsOn 11 u) = 3 ∧
         sideFree ((b.matchOrder (some t)).book.opp t.side) 11)) := by
  intro o11 o12 b t
  exact c8_fifo_priority b t 11 12 3 (by decide) (by decide)
    ⟨[], { price := 100, orders := [o11, o12], totalVolume := 6 }, [], [],
      o11, [], o12, [], rfl, rfl, rfl, rfl, by decide, by decide, by decide,
      by decide⟩
    (by decide) (by decide) (by decide)
